import Mathlib

/-!
Package `pageable`: sort-specification parser, cursor codec, page requests.

A shallow embedding of the Go package `pageable` (files `sort.go`, `cursor.go`,
`page_request.go`, `cursor_request.go`, `page.go`, `cursor_page.go`,
`pageable.go`).

Modelling conventions.

* A Go `string` is modelled as the sequence of its Unicode code points
  (`GoString = List Char`), which takes the string to be valid UTF-8.
  `[]byte` is a list of natural numbers below 256, and `[]byte(s)` is the UTF-8
  encoding of `s`.  For the encoding of a cursor the strings are also taken as
  arbitrary bytes (`RawCursorData`, `MarshalRaw`, `EncodeCursorRaw`); on valid
  UTF-8 the two agree (`EncodeCursorRaw_raw`).
* A Go slice is `Option (List α)`: `none` is the `nil` slice, `some []` is a
  present slice of length zero.  A `map[string]string` is `none` (`nil`) or a
  list of entries with pairwise distinct keys.
* A Go pointer result (`*Sort`) is an `Option`; a Go `(value, error)` result is
  a pair whose second component is `none` when the error is `nil`.
* Standard-library functions used by the package are written out below after
  the Go standard library: `strings.TrimSpace`, `strings.SplitN`,
  `strings.ToLower`, `unicode.IsSpace`, `utf8.DecodeRune`,
  `base64.URLEncoding.EncodeToString` and `DecodeString`, and `json.Marshal`
  and `json.Unmarshal` for the type `CursorData`.  The Unicode case table
  behind `unicode.ToLower` is not part of the package; it is a parameter
  (`lowerTable`) of every definition that reaches it.
* Go `int` and `int64` values are integers; the `int` is 64 bits wide, and
  the result of an arithmetic operation is wrapped to that width (`wrap64`).
  `strconv.Atoi`, `strings.Join` and `url.Values` are written out after the
  standard library as well.
* Loops whose Go form advances an index by a computed amount take a `fuel`
  argument; each iteration reads at least one byte, and the fuel supplied is
  the length of the input.
-/

namespace Pageable

/-- A Go string, as the sequence of its code points. -/
abbrev GoString := List Char

/-- A Go slice: `none` is `nil`, `some l` a non-nil slice with elements `l`. -/
abbrev Slice (α : Type) := Option (List α)

/-- The elements a `range` loop over the slice visits. -/
def Slice.elems {α : Type} : Slice α → List α
  | none => []
  | some l => l

/-- Go `len(s)` for a slice. -/
def Slice.len {α : Type} (s : Slice α) : Nat := (Slice.elems s).length

/-- Go `append(s, x)`: the result is never `nil`. -/
def Slice.append {α : Type} (s : Slice α) (x : α) : Slice α :=
  some (Slice.elems s ++ [x])

/-! ## Standard library: `unicode`, `strings` -/

/-- Go `unicode.IsSpace`: the code points with the White_Space property. -/
def isSpace (c : Char) : Bool :=
  let n := c.toNat
  if n ≤ 0xFF then
    n == 0x09 || n == 0x0A || n == 0x0B || n == 0x0C || n == 0x0D || n == 0x20
      || n == 0x85 || n == 0xA0
  else
    n == 0x1680 || (0x2000 ≤ n && n ≤ 0x200A) || n == 0x2028 || n == 0x2029
      || n == 0x202F || n == 0x205F || n == 0x3000

/-- Go `strings.TrimLeftFunc(s, unicode.IsSpace)`. -/
def trimLeftSpace (s : GoString) : GoString := s.dropWhile isSpace

/-- Go `strings.TrimRightFunc(s, unicode.IsSpace)`. -/
def trimRightSpace (s : GoString) : GoString := s.rdropWhile isSpace

/-- Go `strings.TrimSpace`: leading and trailing white space removed. -/
def TrimSpace (s : GoString) : GoString := trimRightSpace (trimLeftSpace s)

/-- Go `strings.Cut(s, sep)` for a one-character separator: the text before and
after the first occurrence of `sep`, or `none` when `sep` does not occur. -/
def cut (sep : Char) : GoString → Option (GoString × GoString)
  | [] => none
  | c :: cs =>
    if c = sep then some ([], cs)
    else match cut sep cs with
      | none => none
      | some (a, b) => some (c :: a, b)

/-- The loop of Go `strings.genSplit`: at most `k` further cuts, the rest of the
string goes into the last slot. -/
def genSplit (sep : Char) : Nat → GoString → List GoString
  | 0, s => [s]
  | k + 1, s =>
    match cut sep s with
    | none => [s]
    | some (a, rest) => a :: genSplit sep k rest

/-- Go `strings.SplitN(s, sep, n)` for a one-character separator and `n ≥ 0`. -/
def SplitN (s : GoString) (sep : Char) (n : Nat) : List GoString :=
  if n = 0 then []
  else genSplit sep (min n (s.length + 1) - 1) s

/-- Lower-casing of an ASCII code point (`c += 'a' - 'A'` for `'A'..'Z'`). -/
def asciiLower (c : Char) : Char :=
  if 'A' ≤ c ∧ c ≤ 'Z' then Char.ofNat (c.toNat + 32) else c

/-- Go `unicode.ToLower`: ASCII is handled directly, every other code point is
looked up in the Unicode case table `lowerTable`. -/
def unicodeToLower (lowerTable : Char → Char) (c : Char) : Char :=
  if c.toNat ≤ 0x7F then asciiLower c else lowerTable c

/-- Go `strings.ToLower`: an ASCII-only string is lower-cased byte by byte,
any other string is mapped through `unicode.ToLower`. -/
def ToLower (lowerTable : Char → Char) (s : GoString) : GoString :=
  if s.all (fun c => decide (c.toNat < 0x80)) then
    if s.any (fun c => decide ('A' ≤ c ∧ c ≤ 'Z')) then s.map asciiLower else s
  else s.map (unicodeToLower lowerTable)

/-! ## `sort.go` -/

/-- Go `type Direction string`. -/
abbrev Direction := GoString

/-- Constant `ASC`. -/
def ASC : Direction := "asc".toList

/-- Constant `DESC`. -/
def DESC : Direction := "desc".toList

/-- Go `type Sort struct` (`Sort` is reserved in Lean, hence `GoSort`). -/
structure GoSort where
  Field : GoString
  Direction : Direction
  deriving DecidableEq, Repr

/-- Method `Sort.String`. -/
def GoSort.String (s : GoSort) : GoString := s.Field ++ ",".toList ++ s.Direction

/-- Function `isSafeIdentifier`: the loop returns `false` at the first code
point that is not a letter, digit, underscore or dot. -/
def isSafeIdentifier : GoString → Bool
  | [] => true
  | c :: cs =>
    if (c < 'a' || c > 'z') && (c < 'A' || c > 'Z') && (c < '0' || c > '9')
        && c != '_' && c != '.' then false
    else isSafeIdentifier cs

/-- Function `ParseSort`. -/
def ParseSort (lowerTable : Char → Char) (raw : GoString) : Option GoSort :=
  let raw := TrimSpace raw
  if raw = [] then none
  else
    let parts := SplitN raw ',' 2
    let field := TrimSpace (parts.getD 0 [])
    if field = [] || !isSafeIdentifier field then none
    else
      let dir :=
        if parts.length = 2 then
          let d := TrimSpace (ToLower lowerTable (parts.getD 1 []))
          if d = DESC then DESC else ASC
        else ASC
      some { Field := field, Direction := dir }

/-- The loop of `ParseSorts`: `sorts` is the accumulator. -/
def parseSortsLoop (lowerTable : Char → Char) :
    List GoString → Slice GoSort → Slice GoSort
  | [], sorts => sorts
  | r :: rest, sorts =>
    match ParseSort lowerTable r with
    | some s => parseSortsLoop lowerTable rest (Slice.append sorts s)
    | none => parseSortsLoop lowerTable rest sorts

/-- Function `ParseSorts`. -/
def ParseSorts (lowerTable : Char → Char) (raw : Slice GoString) : Slice GoSort :=
  let sorts := parseSortsLoop lowerTable (Slice.elems raw) none
  if Slice.len sorts = 0 then none else sorts

/-- A Go `map[string]struct{}` used as a set: its membership test. -/
abbrev StringSet := GoString → Bool

/-- The `allowed` map of `filterSortsByFields` after inserting every field. -/
def allowedSet : List GoString → StringSet → StringSet
  | [], m => m
  | f :: fs, m => allowedSet fs (fun k => if k = f then true else m k)

/-- The filtering loop of `filterSortsByFields`. -/
def filterLoop (allowed : StringSet) : List GoSort → Slice GoSort → Slice GoSort
  | [], filtered => filtered
  | s :: rest, filtered =>
    if allowed s.Field then filterLoop allowed rest (Slice.append filtered s)
    else filterLoop allowed rest filtered

/-- Function `filterSortsByFields`. -/
def filterSortsByFields (sorts : Slice GoSort) (fields : Slice GoString) : Slice GoSort :=
  let allowed := allowedSet (Slice.elems fields) (fun _ => false)
  let filtered := filterLoop allowed (Slice.elems sorts) none
  if Slice.len filtered = 0 then none else filtered

/-! ## `page_request.go` -/

/-- Go `type PageRequest struct`; the field `Sort` is written `Sorts`. -/
structure PageRequest where
  Page : Int
  Size : Int
  Sorts : Slice GoSort
  deriving DecidableEq, Repr

/-- Method `PageRequest.SortableFields`. -/
def PageRequest.SortableFields (pr : PageRequest) (fields : Slice GoString) : PageRequest :=
  { pr with Sorts := filterSortsByFields pr.Sorts fields }

/-! ## Standard library: `unicode/utf8`

Bytes are natural numbers below 256.  Go's shifts and masks on bytes and runes
are written arithmetically: `x >> k` is `x / 2^k`, `x << k` is `x * 2^k`,
`x & (2^k - 1)` is `x % 2^k`, and `a | b` of values with disjoint bits is
`a + b`. -/

/-- Constant `utf8.RuneError` (U+FFFD). -/
def RuneError : Nat := 0xFFFD

/-- Go `utf8.AppendRune` on a valid code point: its UTF-8 bytes. -/
def utf8EncodeChar (c : Char) : List Nat :=
  let r := c.toNat
  if r ≤ 0x7F then [r]
  else if r ≤ 0x7FF then [0xC0 + r / 64, 0x80 + r % 64]
  else if r ≤ 0xFFFF then [0xE0 + r / 4096, 0x80 + r / 64 % 64, 0x80 + r % 64]
  else [0xF0 + r / 262144, 0x80 + r / 4096 % 64, 0x80 + r / 64 % 64, 0x80 + r % 64]

/-- Go `[]byte(s)`: the UTF-8 bytes of a string. -/
def toBytes : GoString → List Nat
  | [] => []
  | c :: cs => utf8EncodeChar c ++ toBytes cs

/-- Go `utf8.DecodeRune`: the first rune of `p` and its width in bytes; an
invalid or truncated sequence gives `(RuneError, 1)`, empty input
`(RuneError, 0)`.  The tables `first` and `acceptRanges` are written as the
comparisons they encode. -/
def DecodeRune (p : List Nat) : Nat × Nat :=
  match p with
  | [] => (RuneError, 0)
  | p0 :: rest =>
    if p0 < 0x80 then (p0, 1)
    else if p0 < 0xC2 ∨ 0xF4 < p0 then (RuneError, 1)
    else
      let sz := if p0 < 0xE0 then 2 else if p0 < 0xF0 then 3 else 4
      let lo := if p0 = 0xE0 then 0xA0 else if p0 = 0xF0 then 0x90 else 0x80
      let hi := if p0 = 0xED then 0x9F else if p0 = 0xF4 then 0x8F else 0xBF
      if p.length < sz then (RuneError, 1)
      else
        match rest with
        | [] => (RuneError, 1)
        | b1 :: rest1 =>
          if b1 < lo ∨ hi < b1 then (RuneError, 1)
          else if sz ≤ 2 then (p0 % 32 * 64 + b1 % 64, 2)
          else
            match rest1 with
            | [] => (RuneError, 1)
            | b2 :: rest2 =>
              if b2 < 0x80 ∨ 0xBF < b2 then (RuneError, 1)
              else if sz ≤ 3 then (p0 % 16 * 4096 + b1 % 64 * 64 + b2 % 64, 3)
              else
                match rest2 with
                | [] => (RuneError, 1)
                | b3 :: _ =>
                  if b3 < 0x80 ∨ 0xBF < b3 then (RuneError, 1)
                  else (p0 % 8 * 262144 + b1 % 64 * 4096 + b2 % 64 * 64 + b3 % 64, 4)

/-! ## Standard library: `encoding/base64`, the encoding `base64.URLEncoding`
(URL-safe alphabet, padded with `=`, not strict) -/

/-- The alphabet `encodeURL`. -/
def encodeURL : List Nat :=
  "ABCDEFGHIJKLMNOPQRSTUVWXYZabcdefghijklmnopqrstuvwxyz0123456789-_".toList.map Char.toNat

/-- The table `enc.encode`: the character for a 6-bit value. -/
def encodeByte (i : Nat) : Nat := encodeURL.getD i 0

/-- The table `enc.decodeMap`: the 6-bit value of an alphabet character,
`0xFF` for every other byte. -/
def decodeMap (b : Nat) : Nat :=
  let i := encodeURL.indexOf b
  if i < 64 then i else 0xFF

/-- The padding character `=`. -/
def padChar : Nat := 61

/-- Go `(*Encoding).Encode`: three bytes become four characters; a final
block of one or two bytes is padded. -/
def encodeLoop : List Nat → List Nat
  | [] => []
  | [a] =>
    let val := a * 65536
    [encodeByte (val / 262144 % 64), encodeByte (val / 4096 % 64), padChar, padChar]
  | [a, b] =>
    let val := a * 65536 + b * 256
    [encodeByte (val / 262144 % 64), encodeByte (val / 4096 % 64),
      encodeByte (val / 64 % 64), padChar]
  | a :: b :: c :: rest =>
    let val := a * 65536 + b * 256 + c
    encodeByte (val / 262144 % 64) :: encodeByte (val / 4096 % 64) ::
      encodeByte (val / 64 % 64) :: encodeByte (val % 64) :: encodeLoop rest

/-- Go `(*Encoding).EncodeToString`. -/
def EncodeToString (src : List Nat) : GoString := (encodeLoop src).map Char.ofNat

/-- The result of `decodeQuantum`: the unread input, the new read offset, the
bytes written and the `CorruptInputError` offset if any. -/
structure Quantum where
  rest : List Nat
  si : Nat
  out : List Nat
  err : Option Nat
  deriving DecidableEq, Repr

/-- The loops `for si < len(src) && (src[si] == '\n' || src[si] == '\r')`. -/
def skipNewlines : List Nat → Nat → List Nat × Nat
  | [], si => ([], si)
  | c :: cs, si => if c = 10 ∨ c = 13 then skipNewlines cs (si + 1) else (c :: cs, si)

/-- The conversion at the end of `decodeQuantum`: `dlen` 6-bit values give
`dlen - 1` bytes. -/
def quantumBytes (dbuf : List Nat) : List Nat :=
  let val := dbuf.getD 0 0 * 262144 + dbuf.getD 1 0 * 4096 + dbuf.getD 2 0 * 64 + dbuf.getD 3 0
  [val / 65536 % 256, val / 256 % 256, val % 256].take (dbuf.length - 1)

/-- Go `(*Encoding).decodeQuantum`, with `dbuf` the 6-bit values read so far
(`j = dbuf.length`), `src` the unread input and `si` its offset; `srcLen` is
`len(src)` of the whole input. -/
def decodeQuantum (srcLen : Nat) : List Nat → List Nat → Nat → Quantum
  | dbuf, [], si =>
    if dbuf.length = 0 then { rest := [], si := si, out := [], err := none }
    else { rest := [], si := si, out := [], err := some (si - dbuf.length) }
  | dbuf, c :: cs, si =>
    if decodeMap c ≠ 0xFF then
      if dbuf.length = 3 then
        { rest := cs, si := si + 1, out := quantumBytes (dbuf ++ [decodeMap c]), err := none }
      else decodeQuantum srcLen (dbuf ++ [decodeMap c]) cs (si + 1)
    else if c = 10 ∨ c = 13 then decodeQuantum srcLen dbuf cs (si + 1)
    else if c ≠ padChar then { rest := cs, si := si + 1, out := [], err := some si }
    else if dbuf.length ≤ 1 then { rest := cs, si := si + 1, out := [], err := some si }
    else if dbuf.length = 2 then
      match skipNewlines cs (si + 1) with
      | ([], si2) => { rest := [], si := si2, out := [], err := some srcLen }
      | (c2 :: r3, si2) =>
        if c2 ≠ padChar then { rest := c2 :: r3, si := si2, out := [], err := some (si2 - 1) }
        else
          let r := skipNewlines r3 (si2 + 1)
          { rest := r.1, si := r.2, out := quantumBytes dbuf,
            err := if r.1 = [] then none else some r.2 }
    else
      let r := skipNewlines cs (si + 1)
      { rest := r.1, si := r.2, out := quantumBytes dbuf,
        err := if r.1 = [] then none else some r.2 }

/-- The loop of Go `(*Encoding).Decode`: quanta are decoded until the input is
used up or one fails.  `fuel` bounds the number of quanta; every quantum reads
at least one byte, so `len(src)` is enough (`decodeLoop_fuel`).  (The 8- and 4-byte fast paths of
`Decode` give the results of `decodeQuantum` and are not written separately.) -/
def decodeLoop (srcLen : Nat) : Nat → List Nat → Nat → List Nat × Option Nat
  | 0, _, _ => ([], none)
  | fuel + 1, src, si =>
    if src = [] then ([], none)
    else
      let q := decodeQuantum srcLen [] src si
      match q.err with
      | some e => (q.out, some e)
      | none =>
        let r := decodeLoop srcLen fuel q.rest q.si
        (q.out ++ r.1, r.2)

/-- Go `(*Encoding).DecodeString`: the decoded bytes and the
`CorruptInputError` offset if the input is malformed. -/
def DecodeString (s : GoString) : List Nat × Option Nat :=
  decodeLoop (toBytes s).length (toBytes s).length (toBytes s) 0

/-! ## Standard library: `encoding/json`

`json.Unmarshal` first checks that the whole input is one well-formed JSON
value (`checkValid`), then walks the value and stores it into the target.  The
model parses the input into a tree (`JValue`) with the grammar the scanner of
`encoding/json` accepts, then stores the tree into a `CursorData` with the
rules of `(*decodeState).object` and `literalStore` for a struct with two
string fields and one `map[string]string` field.  Error values carry their
kind only; offsets and offending characters are not reproduced. -/

/-- A parsed JSON value.  String literals are held unquoted; the elements of
an array and the digits of a number are never looked at by the decoder. -/
inductive JValue where
  | null
  | bool (b : Bool)
  | number
  | str (s : GoString)
  | arr
  | obj (members : List (GoString × JValue))

/-- JSON white space (`isSpace` of `scanner.go`). -/
def isJsonSpace (c : Nat) : Bool := c == 0x20 || c == 0x09 || c == 0x0D || c == 0x0A

/-- Skip JSON white space. -/
def skipSpace (s : List Nat) : List Nat := s.dropWhile isJsonSpace

/-- The value of a hexadecimal digit. -/
def hexVal (c : Nat) : Option Nat :=
  if 48 ≤ c ∧ c ≤ 57 then some (c - 48)
  else if 97 ≤ c ∧ c ≤ 102 then some (c - 97 + 10)
  else if 65 ≤ c ∧ c ≤ 70 then some (c - 65 + 10)
  else none

/-- Function `getu4`: the code unit of a `\uXXXX` escape at the head of `s`. -/
def getu4 (s : List Nat) : Option Nat :=
  match s with
  | 0x5C :: 0x75 :: a :: b :: c :: d :: _ =>
    match hexVal a, hexVal b, hexVal c, hexVal d with
    | some x, some y, some z, some w => some (((x * 16 + y) * 16 + z) * 16 + w)
    | _, _, _, _ => none
  | _ => none

/-- The one-character escapes the scanner accepts after a backslash. -/
def simpleEscape (e : Nat) : Option Char :=
  if e = 0x22 then some '"'
  else if e = 0x5C then some '\\'
  else if e = 0x2F then some '/'
  else if e = 0x62 then some (Char.ofNat 8)
  else if e = 0x66 then some (Char.ofNat 12)
  else if e = 0x6E then some (Char.ofNat 10)
  else if e = 0x72 then some (Char.ofNat 13)
  else if e = 0x74 then some (Char.ofNat 9)
  else none

/-- Put a decoded character in front of the rest of a string literal. -/
def consChar (c : Char) : Option (GoString × List Nat) → Option (GoString × List Nat)
  | none => none
  | some (s, rest) => some (c :: s, rest)

/-- The outcome of one iteration of the string loop. -/
inductive StringStep where
  | fail
  | done (rest : List Nat)
  | char (c : Char) (rest : List Nat)

/-- A `\uXXXX` escape at the head of `s` (the case `'u'` of `unquoteBytes`): a
high surrogate followed by an escaped low surrogate gives the combined code
point and consumes both escapes; any other surrogate gives U+FFFD. -/
def unicodeEscape (s : List Nat) : StringStep :=
  match getu4 s with
  | none => StringStep.fail
  | some rr =>
    if 0xD800 ≤ rr ∧ rr < 0xE000 then
      match getu4 (s.drop 6) with
      | some rr1 =>
        if rr < 0xDC00 ∧ 0xDC00 ≤ rr1 ∧ rr1 < 0xE000 then
          StringStep.char (Char.ofNat ((rr - 0xD800) * 1024 + (rr1 - 0xDC00) + 0x10000))
            (s.drop 12)
        else StringStep.char (Char.ofNat RuneError) (s.drop 6)
      | none => StringStep.char (Char.ofNat RuneError) (s.drop 6)
    else StringStep.char (Char.ofNat rr) (s.drop 6)

/-- One iteration inside a string literal: the scanner states `stateInString`,
`stateInStringEsc`, `stateInStringEscU...` and the loop body of `unquoteBytes`
taken together.  A quote ends the literal; control characters and unknown
escapes are syntax errors; a byte that does not start a valid UTF-8 sequence
becomes U+FFFD. -/
def stringStep (s : List Nat) : StringStep :=
  match s with
  | [] => StringStep.fail
  | c :: cs =>
    if c = 0x22 then StringStep.done cs
    else if c = 0x5C then
      match cs with
      | [] => StringStep.fail
      | e :: cs1 =>
        if e = 0x75 then unicodeEscape s
        else
          match simpleEscape e with
          | some ch => StringStep.char ch cs1
          | none => StringStep.fail
    else if c < 0x20 then StringStep.fail
    else if c < 0x80 then StringStep.char (Char.ofNat c) cs
    else StringStep.char (Char.ofNat (DecodeRune s).1) (s.drop (DecodeRune s).2)

/-- A string literal after its opening quote: the unquoted text and the input
after the closing quote.  `fuel` bounds the number of iterations; every
iteration reads at least one byte, so the length of the input is enough
(`parseStringBody_fuel`). -/
def parseStringBody : Nat → List Nat → Option (GoString × List Nat)
  | 0, _ => none
  | fuel + 1, s =>
    match stringStep s with
    | StringStep.fail => none
    | StringStep.done rest => some ([], rest)
    | StringStep.char c rest => consChar c (parseStringBody fuel rest)

/-- An ASCII digit. -/
def isDigitByte (c : Nat) : Bool := decide (48 ≤ c ∧ c ≤ 57)

/-- The exponent part of a number (`stateE`, `stateESign`, `stateE0`). -/
def parseExponent (s : List Nat) : Option (List Nat) :=
  match s with
  | e :: r =>
    if e = 0x65 ∨ e = 0x45 then
      let r1 := match r with
        | sg :: r2 => if sg = 0x2B ∨ sg = 0x2D then r2 else r
        | [] => r
      match r1 with
      | d :: r3 => if isDigitByte d then some (r3.dropWhile isDigitByte) else none
      | [] => none
    else some s
  | [] => some s

/-- The fraction part of a number (`stateDot`, `stateDot0`). -/
def parseFraction (s : List Nat) : Option (List Nat) :=
  match s with
  | dot :: r =>
    if dot = 0x2E then
      match r with
      | d :: r1 => if isDigitByte d then parseExponent (r1.dropWhile isDigitByte) else none
      | [] => none
    else parseExponent s
  | [] => parseExponent s

/-- A number literal (`stateNeg`, `state0`, `state1`): the input after it. -/
def parseNumber (s : List Nat) : Option (List Nat) :=
  let s1 := match s with
    | m :: r => if m = 0x2D then r else s
    | [] => s
  match s1 with
  | d :: r =>
    if d = 0x30 then parseFraction r
    else if 0x31 ≤ d ∧ d ≤ 0x39 then parseFraction (r.dropWhile isDigitByte)
    else none
  | [] => none

/-- The literals `true`, `false`, `null`. -/
def parseLiteral (s : List Nat) : Option (JValue × List Nat) :=
  match s with
  | 0x74 :: 0x72 :: 0x75 :: 0x65 :: rest => some (JValue.bool true, rest)
  | 0x66 :: 0x61 :: 0x6C :: 0x73 :: 0x65 :: rest => some (JValue.bool false, rest)
  | 0x6E :: 0x75 :: 0x6C :: 0x6C :: rest => some (JValue.null, rest)
  | _ => none

/-- Constant `maxNestingDepth` of `scanner.go`. -/
def maxNestingDepth : Nat := 10000

mutual
/-- A JSON value at the head of the input (`stateBeginValue`); `depth` is the
number of enclosing objects and arrays, `fuel` bounds the recursion. -/
def parseValue : Nat → Nat → List Nat → Option (JValue × List Nat)
  | 0, _, _ => none
  | _ + 1, _, [] => none
  | fuel + 1, depth, c :: cs =>
    if c = 0x7B then
      if maxNestingDepth ≤ depth then none
      else
        match skipSpace cs with
        | [] => none
        | c1 :: r1 =>
          if c1 = 0x7D then some (JValue.obj [], r1)
          else parseMembers fuel (depth + 1) (c1 :: r1)
    else if c = 0x5B then
      if maxNestingDepth ≤ depth then none
      else
        match skipSpace cs with
        | [] => none
        | c1 :: r1 =>
          if c1 = 0x5D then some (JValue.arr, r1)
          else parseElements fuel (depth + 1) (c1 :: r1)
    else if c = 0x22 then
      match parseStringBody cs.length cs with
      | some (s, rest) => some (JValue.str s, rest)
      | none => none
    else if c = 0x2D ∨ (0x30 ≤ c ∧ c ≤ 0x39) then
      match parseNumber (c :: cs) with
      | some rest => some (JValue.number, rest)
      | none => none
    else parseLiteral (c :: cs)
/-- The members of an object from a key on (`stateBeginString`), up to and
including the closing brace. -/
def parseMembers : Nat → Nat → List Nat → Option (JValue × List Nat)
  | 0, _, _ => none
  | fuel + 1, depth, s =>
    match s with
    | q :: cs =>
      if q = 0x22 then
        match parseStringBody cs.length cs with
        | some (key, r1) =>
          match skipSpace r1 with
          | colon :: r2 =>
            if colon = 0x3A then
              match parseValue fuel depth (skipSpace r2) with
              | some (v, r3) =>
                match skipSpace r3 with
                | sep :: r4 =>
                  if sep = 0x7D then some (JValue.obj [(key, v)], r4)
                  else if sep = 0x2C then
                    match parseMembers fuel depth (skipSpace r4) with
                    | some (JValue.obj ms, r5) => some (JValue.obj ((key, v) :: ms), r5)
                    | _ => none
                  else none
                | [] => none
              | none => none
            else none
          | [] => none
        | none => none
      else none
    | [] => none
/-- The elements of an array from a value on, up to and including the closing
bracket. -/
def parseElements : Nat → Nat → List Nat → Option (JValue × List Nat)
  | 0, _, _ => none
  | fuel + 1, depth, s =>
    match parseValue fuel depth s with
    | some (_, r1) =>
      match skipSpace r1 with
      | sep :: r2 =>
        if sep = 0x5D then some (JValue.arr, r2)
        else if sep = 0x2C then parseElements fuel depth (skipSpace r2)
        else none
      | [] => none
    | none => none
end

/-- Function `checkValid` together with the walk of the decoder: the whole
input must be one JSON value surrounded by optional white space.  The fuel
supplied is enough for every well-formed input (`parseTop_complete`). -/
def parseTop (data : List Nat) : Option JValue :=
  match parseValue (data.length + 1) 0 (skipSpace data) with
  | some (v, rest) => if skipSpace rest = [] then some v else none
  | none => none

/-- Go error values, by kind.  `wrapped` is the result of `fmt.Errorf` with a
`%w` verb: the formatted message and the wrapped cause. -/
inductive GoError where
  | CorruptInputError (offset : Nat)
  | SyntaxError
  | UnmarshalTypeError (value : GoString)
  | UnsupportedTypeError (typeName : GoString)
  | wrapped (msg : GoString) (cause : GoError)
  deriving DecidableEq, Repr

/-- Method `Error`: the message of an error.  The texts of the `encoding/json`
errors are abbreviated (no offset, offending character or target type). -/
def GoError.Error : GoError → GoString
  | GoError.CorruptInputError offset =>
    "illegal base64 data at input byte ".toList ++ (Nat.repr offset).toList
  | GoError.SyntaxError => "invalid JSON input".toList
  | GoError.UnmarshalTypeError value => "json: cannot unmarshal ".toList ++ value
  | GoError.UnsupportedTypeError typeName => "json: unsupported type: ".toList ++ typeName
  | GoError.wrapped msg _ => msg

/-- Go `fmt.Errorf(prefix + "%w", err)`. -/
def Errorf (pre : GoString) (err : GoError) : GoError :=
  GoError.wrapped (pre ++ GoError.Error err) err

/-! ## `cursor.go`: types -/

/-- Go `type CursorDirection string`. -/
abbrev CursorDirection := GoString

/-- Constant `Next`. -/
def Next : CursorDirection := "next".toList

/-- Constant `Prev`. -/
def Prev : CursorDirection := "prev".toList

/-- A Go `map[string]string`: `none` is the `nil` map, `some l` a map whose
entries are the pairs of `l` (keys pairwise distinct, order immaterial). -/
abbrev StringMap := Option (List (GoString × GoString))

/-- Go `type CursorData struct`, JSON keys `v`, `d`, `e`. -/
structure CursorData where
  Value : GoString
  Direction : CursorDirection
  Extra : StringMap
  deriving DecidableEq, Repr

/-- The zero value `CursorData{}`. -/
def CursorData.zero : CursorData := { Value := [], Direction := [], Extra := none }

/-! ## `encoding/json`: storing a parsed value -/

/-- Method `saveError`: only the first error is kept. -/
def saveError (saved : Option GoError) (e : GoError) : Option GoError :=
  match saved with
  | none => some e
  | some x => some x

/-- Storing a JSON value into a target of kind string: a string literal is
stored, `null` leaves the target unchanged, anything else is an
`UnmarshalTypeError` and leaves the target unchanged. -/
def storeString (v : JValue) (cur : GoString) (saved : Option GoError) :
    GoString × Option GoError :=
  match v with
  | JValue.null => (cur, saved)
  | JValue.str s => (s, saved)
  | JValue.bool _ => (cur, saveError saved (GoError.UnmarshalTypeError "bool".toList))
  | JValue.number => (cur, saveError saved (GoError.UnmarshalTypeError "number".toList))
  | JValue.arr => (cur, saveError saved (GoError.UnmarshalTypeError "array".toList))
  | JValue.obj _ => (cur, saveError saved (GoError.UnmarshalTypeError "object".toList))

/-- Go `v.SetMapIndex(k, e)` on the entry list. -/
def mapSet (m : List (GoString × GoString)) (k e : GoString) : List (GoString × GoString) :=
  if m.any (fun p => decide (p.1 = k)) then
    m.map (fun p => if p.1 = k then (k, e) else p)
  else m ++ [(k, e)]

/-- The member loop of `(*decodeState).object` for a `map[string]string`
target: every value is stored into a fresh zero element, which is then put into
the map under the key. -/
def storeMapMembers : List (GoString × JValue) → List (GoString × GoString) →
    Option GoError → List (GoString × GoString) × Option GoError
  | [], m, saved => (m, saved)
  | (k, v) :: rest, m, saved =>
    let r := storeString v [] saved
    storeMapMembers rest (mapSet m k r.1) r.2

/-- Storing a JSON value into the `map[string]string` field: `null` sets the
map to `nil`, an object fills the map (allocating it when `nil`), anything else
is an `UnmarshalTypeError`. -/
def storeMap (v : JValue) (cur : StringMap) (saved : Option GoError) :
    StringMap × Option GoError :=
  match v with
  | JValue.null => (none, saved)
  | JValue.obj members =>
    let r := storeMapMembers members (cur.getD []) saved
    (some r.1, r.2)
  | JValue.str _ => (cur, saveError saved (GoError.UnmarshalTypeError "string".toList))
  | JValue.bool _ => (cur, saveError saved (GoError.UnmarshalTypeError "bool".toList))
  | JValue.number => (cur, saveError saved (GoError.UnmarshalTypeError "number".toList))
  | JValue.arr => (cur, saveError saved (GoError.UnmarshalTypeError "array".toList))

/-- The member loop of `(*decodeState).object` for the struct `CursorData`: a
key selects a field by exact name or, failing that, by case-insensitive name
(the simple case folds of `v`, `d`, `e` are their capitals only); the value of
an unknown key is skipped. -/
def storeStructMembers : List (GoString × JValue) → CursorData → Option GoError →
    CursorData × Option GoError
  | [], d, saved => (d, saved)
  | (k, v) :: rest, d, saved =>
    if k = "v".toList ∨ k = "V".toList then
      let r := storeString v d.Value saved
      storeStructMembers rest { d with Value := r.1 } r.2
    else if k = "d".toList ∨ k = "D".toList then
      let r := storeString v d.Direction saved
      storeStructMembers rest { d with Direction := r.1 } r.2
    else if k = "e".toList ∨ k = "E".toList then
      let r := storeMap v d.Extra saved
      storeStructMembers rest { d with Extra := r.1 } r.2
    else storeStructMembers rest d saved

/-- Storing a JSON value into a `CursorData`: an object fills the fields,
`null` changes nothing, anything else is an `UnmarshalTypeError`. -/
def storeStruct (v : JValue) (d : CursorData) (saved : Option GoError) :
    CursorData × Option GoError :=
  match v with
  | JValue.null => (d, saved)
  | JValue.obj members => storeStructMembers members d saved
  | JValue.str _ => (d, saveError saved (GoError.UnmarshalTypeError "string".toList))
  | JValue.bool _ => (d, saveError saved (GoError.UnmarshalTypeError "bool".toList))
  | JValue.number => (d, saveError saved (GoError.UnmarshalTypeError "number".toList))
  | JValue.arr => (d, saveError saved (GoError.UnmarshalTypeError "array".toList))

/-- Go `json.Unmarshal(data, &v)` for `v` of type `CursorData`: the contents of
`v` afterwards and the error.  Malformed input leaves `v` untouched. -/
def Unmarshal (data : List Nat) (v : CursorData) : CursorData × Option GoError :=
  match parseTop data with
  | none => (v, some GoError.SyntaxError)
  | some tree => storeStruct tree v none

/-! ## `encoding/json`: encoding -/

/-- The digits `hex` of `encode.go`. -/
def hexDigits : List Nat := "0123456789abcdef".toList.map Char.toNat

/-- The table `htmlSafeSet`: the ASCII bytes written without escaping. -/
def htmlSafe (b : Nat) : Bool :=
  decide (0x20 ≤ b) && decide (b < 0x80) && b != 0x22 && b != 0x26 && b != 0x3C && b != 0x3E
    && b != 0x5C

/-- What `appendString` (with HTML escaping) writes for one code point. -/
def appendStringChar (c : Char) : List Nat :=
  let r := c.toNat
  if r < 0x80 then
    if htmlSafe r then [r]
    else if r = 0x5C ∨ r = 0x22 then [0x5C, r]
    else if r = 0x08 then [0x5C, 0x62]
    else if r = 0x0C then [0x5C, 0x66]
    else if r = 0x0A then [0x5C, 0x6E]
    else if r = 0x0D then [0x5C, 0x72]
    else if r = 0x09 then [0x5C, 0x74]
    else [0x5C, 0x75, 0x30, 0x30, hexDigits.getD (r / 16) 0, hexDigits.getD (r % 16) 0]
  else if r = 0x2028 ∨ r = 0x2029 then
    [0x5C, 0x75, 0x32, 0x30, 0x32, hexDigits.getD (r % 16) 0]
  else utf8EncodeChar c

/-- The text between the quotes written by `appendString`. -/
def appendStringBody : GoString → List Nat
  | [] => []
  | c :: cs => appendStringChar c ++ appendStringBody cs

/-- Function `appendString`: a quoted JSON string literal. -/
def appendString (s : GoString) : List Nat := 0x22 :: (appendStringBody s ++ [0x22])

/-- Go `strings.Compare(a, b) <= 0` on the bytes of two strings. -/
def bytesLE : List Nat → List Nat → Bool
  | [], _ => true
  | _ :: _, [] => false
  | a :: as, b :: bs => decide (a < b) || (a == b && bytesLE as bs)

/-- The order in which `mapEncoder` writes the entries: by key. -/
def keyLE (a b : GoString × GoString) : Prop := bytesLE (toBytes a.1) (toBytes b.1) = true

instance : DecidableRel keyLE := fun a b =>
  inferInstanceAs (Decidable (bytesLE (toBytes a.1) (toBytes b.1) = true))

/-- The entries of a map sorted by key. -/
def sortEntries (m : List (GoString × GoString)) : List (GoString × GoString) :=
  m.insertionSort keyLE

/-- The entries written by `mapEncoder`, separated by commas. -/
def encodeEntries : List (GoString × GoString) → List Nat
  | [] => []
  | (k, v) :: rest =>
    appendString k ++ [0x3A] ++ appendString v ++
      (match rest with
       | [] => []
       | _ :: _ => 0x2C :: encodeEntries rest)

/-- The encoder of `map[string]string`: `null` for a `nil` map, otherwise an
object with the entries sorted by key. -/
def encodeMap (m : StringMap) : List Nat :=
  match m with
  | none => "null".toList.map Char.toNat
  | some l => 0x7B :: (encodeEntries (sortEntries l) ++ [0x7D])

/-- Go `json.Marshal` for a `CursorData` whose strings are valid UTF-8: an
object with the fields in declaration order, each as its quoted JSON key, a
colon and the encoded value, separated by commas.  That the encoder returns
these bytes and no error for this type is `MarshalRaw_raw`, from the encoder
`MarshalRaw` that chooses by the kind of each field. -/
def Marshal (d : CursorData) : List Nat × Option GoError :=
  (0x7B :: (appendString "v".toList ++ 0x3A :: (appendString d.Value ++
    0x2C :: (appendString "d".toList ++ 0x3A :: (appendString d.Direction ++
    0x2C :: (appendString "e".toList ++ 0x3A :: (encodeMap d.Extra ++ [0x7D])))))), none)

/-! ## `cursor.go`: functions -/

/-- Function `EncodeCursor`: the token and the error. -/
def EncodeCursor (data : CursorData) : GoString × Option GoError :=
  match Marshal data with
  | (_, some err) => ([], some (Errorf "pageable: failed to encode cursor data: ".toList err))
  | (b, none) => (EncodeToString b, none)

/-- Function `DecodeCursor`: the cursor data and the error. -/
def DecodeCursor (cursor : GoString) : CursorData × Option GoError :=
  match DecodeString cursor with
  | (_, some offset) =>
    (CursorData.zero,
      some (Errorf "pageable: invalid cursor encoding: ".toList
        (GoError.CorruptInputError offset)))
  | (b, none) =>
    match Unmarshal b CursorData.zero with
    | (_, some err) => (CursorData.zero, some (Errorf "pageable: invalid cursor data: ".toList err))
    | (data, none) => (data, none)

/-! ## Machine integers

Go `int` is taken to be 64 bits wide, as on every 64-bit platform, so `int`
and `int64` coincide.  Their arithmetic wraps around in two's complement:
an operation whose exact value is `x` yields `wrap64 x`. -/

/-- Largest `int64` (`math.MaxInt64`). -/
def MaxInt64 : Int := 9223372036854775807

/-- Smallest `int64` (`math.MinInt64`). -/
def MinInt64 : Int := -9223372036854775808

/-- The values of a Go `int`. -/
def isInt64 (x : Int) : Prop := MinInt64 ≤ x ∧ x ≤ MaxInt64

instance (x : Int) : Decidable (isInt64 x) := by
  unfold isInt64
  infer_instance

/-- The `int64` that is congruent to `x` modulo `2^64`. -/
def wrap64 (x : Int) : Int :=
  (x + 9223372036854775808) % 18446744073709551616 - 9223372036854775808

/-! ## Standard library: `strconv`, `strings.Join`, `url.Values` -/

/-- The two causes of a `*strconv.NumError`: `ErrSyntax` and `ErrRange`. -/
inductive NumError where
  | ErrSyntax
  | ErrRange
  deriving DecidableEq, Repr

/-- The loop of the fast path of `strconv.Atoi` over the bytes after the sign:
`ch -= '0'` in byte arithmetic, a syntax error if `ch > 9`, otherwise
`n = n*10 + int(ch)`.  The fast path runs on fewer than 19 bytes, so `n` stays
below `10^18` and never wraps. -/
def atoiFastLoop : List Nat → Int → Option Int
  | [], n => some n
  | ch :: rest, n =>
    let ch0 := (ch + 256 - 48) % 256
    if ch0 > 9 then none
    else atoiFastLoop rest (n * 10 + (ch0 : Int))

/-- Constant `maxUint64`. -/
def maxUint64 : Nat := 18446744073709551615

/-- The digit loop of `strconv.ParseUint` for base 10 and bit size 64: a byte
that is not a digit value below the base is a syntax error (the underscore is
only accepted for base 0); `n >= cutoff` or a wrapped `n + d` is a range
error with value `maxVal`. -/
def parseUintLoop : List Nat → Nat → Nat × Option NumError
  | [], n => (n, none)
  | c :: rest, n =>
    let lower := c ||| 32
    let digit : Option Nat :=
      if 48 ≤ c ∧ c ≤ 57 then some (c - 48)
      else if 97 ≤ lower ∧ lower ≤ 122 then some (lower - 97 + 10)
      else none
    match digit with
    | none => (0, some NumError.ErrSyntax)
    | some d =>
      if d ≥ 10 then (0, some NumError.ErrSyntax)
      else if n ≥ maxUint64 / 10 + 1 then (maxUint64, some NumError.ErrRange)
      else
        let n10 := n * 10
        let n1 := (n10 + d) % 18446744073709551616
        if n1 < n10 ∨ n1 > maxUint64 then (maxUint64, some NumError.ErrRange)
        else parseUintLoop rest n1

/-- Go `strconv.ParseUint(s, 10, 64)` on the bytes of `s`. -/
def ParseUint (s : List Nat) : Nat × Option NumError :=
  if s = [] then (0, some NumError.ErrSyntax) else parseUintLoop s 0

/-- Go `strconv.ParseInt(s, 10, 0)` on the bytes of `s`: an optional sign, then
`ParseUint`; a syntax error is passed on, a value beyond the `int64` range is a
range error with the nearest bound. -/
def ParseInt (s : List Nat) : Int × Option NumError :=
  if s = [] then (0, some NumError.ErrSyntax)
  else
    let neg := decide (s.head? = some 45)
    let s1 := if s.head? = some 43 ∨ s.head? = some 45 then s.tail else s
    match ParseUint s1 with
    | (_, some NumError.ErrSyntax) => (0, some NumError.ErrSyntax)
    | (un, _) =>
      let cutoff : Nat := 9223372036854775808
      if neg = false ∧ un ≥ cutoff then ((cutoff : Int) - 1, some NumError.ErrRange)
      else if neg = true ∧ un > cutoff then (-(cutoff : Int), some NumError.ErrRange)
      else
        let n := wrap64 (un : Int)
        (if neg then wrap64 (-n) else n, none)

/-- Go `strconv.Atoi` on the bytes of its argument: the fast path for 1 to 18
bytes, `ParseInt` otherwise. -/
def atoiBytes (b : List Nat) : Int × Option NumError :=
  if 0 < b.length ∧ b.length < 19 then
    let signed := decide (b.head? = some 45 ∨ b.head? = some 43)
    let digits := if signed then b.tail else b
    if signed = true ∧ digits.length < 1 then (0, some NumError.ErrSyntax)
    else
      match atoiFastLoop digits 0 with
      | none => (0, some NumError.ErrSyntax)
      | some n => (if b.head? = some 45 then -n else n, none)
  else ParseInt b

/-- Go `strconv.Atoi`. -/
def Atoi (s : GoString) : Int × Option NumError := atoiBytes (toBytes s)

/-- Go `strings.Join`. -/
def Join (elems : List GoString) (sep : GoString) : GoString :=
  match elems with
  | [] => []
  | [e] => e
  | e :: rest => rest.foldl (fun b s => b ++ sep ++ s) e

/-- Go `url.Values`, a `map[string][]string`: the lookup of a key, `nil` for a
key that is not present. -/
abbrev Values := GoString → Slice GoString

/-- Go `url.Values.Get`: the first value of the key, or the empty string. -/
def Values.Get (v : Values) (key : GoString) : GoString :=
  match v key with
  | some (x :: _) => x
  | _ => []

/-! ## `pageable.go`, `page_request.go`: constructors and derived values -/

/-- Constant `DefaultPage`. -/
def DefaultPage : Int := 1

/-- Constant `DefaultSize`. -/
def DefaultSize : Int := 10

/-- Constant `MaxSize`. -/
def MaxSize : Int := 1000

/-- Constant `DefaultCursorSize`. -/
def DefaultCursorSize : Int := 10

/-- Constant `MaxCursorSize`. -/
def MaxCursorSize : Int := 1000

/-- Go `NewPageRequest`. -/
def NewPageRequest (page size : Int) (sort : Slice GoSort) : PageRequest :=
  let page := if page < 1 then DefaultPage else page
  let size := if size < 1 then DefaultSize else size
  let size := if size > MaxSize then MaxSize else size
  { Page := page, Size := size, Sorts := sort }

/-- Go `PageRequestFromQuery`. -/
def PageRequestFromQuery (lowerTable : Char → Char) (values : Values) : PageRequest :=
  let page :=
    if Values.Get values "page".toList ≠ [] then
      match Atoi (Values.Get values "page".toList) with
      | (p, none) => if p > 0 then p else DefaultPage
      | (_, some _) => DefaultPage
    else DefaultPage
  let size :=
    if Values.Get values "size".toList ≠ [] then
      match Atoi (Values.Get values "size".toList) with
      | (s, none) => if s > 0 then s else DefaultSize
      | (_, some _) => DefaultSize
    else DefaultSize
  let size := if size > MaxSize then MaxSize else size
  let sort : Slice GoSort :=
    if Slice.len (values "sort".toList) > 0 then ParseSorts lowerTable (values "sort".toList)
    else none
  { Page := page, Size := size, Sorts := sort }

/-- Go `PageRequest.Offset`: `(pr.Page - 1) * pr.Size` in `int` arithmetic. -/
def PageRequest.Offset (pr : PageRequest) : Int :=
  wrap64 (wrap64 (pr.Page - 1) * pr.Size)

/-- Go `PageRequest.Limit`. -/
def PageRequest.Limit (pr : PageRequest) : Int := pr.Size

/-- Go `PageRequest.WithDefaultSort`. -/
def PageRequest.WithDefaultSort (pr : PageRequest) (sorts : Slice GoSort) : PageRequest :=
  match pr.Sorts with
  | none => { pr with Sorts := sorts }
  | some _ => pr

/-- Go `PageRequest.OrderBy`. -/
def PageRequest.OrderBy (pr : PageRequest) : GoString :=
  if Slice.len pr.Sorts = 0 then []
  else
    Join ((Slice.elems pr.Sorts).map (fun s => s.Field ++ " ".toList ++ s.Direction))
      ", ".toList

/-! ## `page.go` -/

/-- Go `type PageMetadata struct`. -/
structure PageMetadata where
  Page : Int
  Size : Int
  TotalItems : Int
  TotalPages : Int
  deriving DecidableEq, Repr

/-- Go `type Page[T any] struct`. -/
structure Page (T : Type) where
  Items : Slice T
  Metadata : PageMetadata

/-- Go `NewPage`: a `nil` item slice becomes an empty one; the number of pages
is `(totalItems + int64(request.Size) - 1) / int64(request.Size)` in `int64`
arithmetic (the division truncates). -/
def NewPage {T : Type} (items : Slice T) (request : PageRequest) (totalItems : Int) : Page T :=
  let items : Slice T :=
    match items with
    | none => some []
    | some l => some l
  let totalPages : Int :=
    if totalItems > 0 ∧ request.Size > 0 then
      Int.tdiv (wrap64 (wrap64 (totalItems + request.Size) - 1)) request.Size
    else 0
  { Items := items
    Metadata :=
      { Page := request.Page
        Size := request.Size
        TotalItems := totalItems
        TotalPages := totalPages } }

/-- Go `EmptyPage`. -/
def EmptyPage {T : Type} (request : PageRequest) : Page T :=
  NewPage none request 0

/-! ## `cursor_request.go` -/

/-- Go `type CursorRequest struct`. -/
structure CursorRequest where
  Cursor : GoString
  Size : Int
  Sorts : Slice GoSort
  deriving DecidableEq, Repr

/-- Go `NewCursorRequest`. -/
def NewCursorRequest (cursor : GoString) (size : Int) (sort : Slice GoSort) : CursorRequest :=
  let size := if size < 1 then DefaultCursorSize else size
  let size := if size > MaxCursorSize then MaxCursorSize else size
  { Cursor := cursor, Size := size, Sorts := sort }

/-- Go `CursorRequestFromQuery`. -/
def CursorRequestFromQuery (lowerTable : Char → Char) (values : Values) : CursorRequest :=
  let cursor := Values.Get values "cursor".toList
  let size :=
    if Values.Get values "size".toList ≠ [] then
      match Atoi (Values.Get values "size".toList) with
      | (s, none) => if s > 0 then s else DefaultCursorSize
      | (_, some _) => DefaultCursorSize
    else DefaultCursorSize
  let size := if size > MaxCursorSize then MaxCursorSize else size
  let sort : Slice GoSort :=
    if Slice.len (values "sort".toList) > 0 then ParseSorts lowerTable (values "sort".toList)
    else none
  { Cursor := cursor, Size := size, Sorts := sort }

/-- Go `CursorRequest.SortableFields`. -/
def CursorRequest.SortableFields (cr : CursorRequest) (fields : Slice GoString) :
    CursorRequest :=
  { cr with Sorts := filterSortsByFields cr.Sorts fields }

/-- Go `CursorRequest.WithDefaultSort`. -/
def CursorRequest.WithDefaultSort (cr : CursorRequest) (sorts : Slice GoSort) :
    CursorRequest :=
  match cr.Sorts with
  | none => { cr with Sorts := sorts }
  | some _ => cr

/-- Go `CursorRequest.OrderBy`. -/
def CursorRequest.OrderBy (cr : CursorRequest) : GoString :=
  if Slice.len cr.Sorts = 0 then []
  else
    Join ((Slice.elems cr.Sorts).map (fun s => s.Field ++ " ".toList ++ s.Direction))
      ", ".toList

/-- Go `CursorRequest.Limit`: `cr.Size + 1` in `int` arithmetic. -/
def CursorRequest.Limit (cr : CursorRequest) : Int := wrap64 (cr.Size + 1)

/-- Go `CursorRequest.HasCursor`. -/
def CursorRequest.HasCursor (cr : CursorRequest) : Bool := decide (cr.Cursor ≠ [])

/-- Go `CursorRequest.DecodedCursor`. -/
def CursorRequest.DecodedCursor (cr : CursorRequest) : CursorData × Option GoError :=
  if cr.Cursor = [] then (CursorData.zero, none)
  else DecodeCursor cr.Cursor

/-! ## `cursor_page.go` -/

/-- Go `type CursorPageMetadata struct`. -/
structure CursorPageMetadata where
  NextCursor : GoString
  PrevCursor : GoString
  HasNext : Bool
  HasPrev : Bool
  Size : Int
  deriving DecidableEq, Repr

/-- Go `type CursorPage[T any] struct`. -/
structure CursorPage (T : Type) where
  Items : Slice T
  Metadata : CursorPageMetadata

/-- Go `NewCursorPage`: a `nil` item slice becomes an empty one; the cursors,
flags and size are stored as passed. -/
def NewCursorPage {T : Type} (items : Slice T) (nextCursor prevCursor : GoString)
    (hasNext hasPrev : Bool) (size : Int) : CursorPage T :=
  let items : Slice T :=
    match items with
    | none => some []
    | some l => some l
  { Items := items
    Metadata :=
      { NextCursor := nextCursor
        PrevCursor := prevCursor
        HasNext := hasNext
        HasPrev := hasPrev
        Size := size } }

/-- Go `EmptyCursorPage`. -/
def EmptyCursorPage {T : Type} (size : Int) : CursorPage T :=
  NewCursorPage none [] [] false false size

/-- The encoder of a slice in `encoding/json` (`sliceEncoder`, `arrayEncoder`):
`null` for a `nil` slice, otherwise the encoded elements between brackets and
separated by commas.  The encoder of the elements is a parameter. -/
def encodeSlice {T : Type} (enc : T → List Nat) : Slice T → List Nat
  | none => "null".toList.map Char.toNat
  | some l => 0x5B :: ((l.map enc).intersperse [0x2C]).flatten ++ [0x5D]

/-! ## `encoding/json` and `cursor.go` on arbitrary Go strings

A Go string is any sequence of bytes.  The definitions of this section take
the strings of a `CursorData` as their bytes, valid UTF-8 or not, and follow
the encoder through its choice of an encoder by the kind of each value, the
unsupported kinds included.  On strings that are valid UTF-8 they return what
`Marshal` and `EncodeCursor` above return. -/

/-- What `appendString` (with HTML escaping) writes for a byte below
`utf8.RuneSelf`. -/
def appendStringAscii (b : Nat) : List Nat :=
  if htmlSafe b then [b]
  else if b = 0x5C ∨ b = 0x22 then [0x5C, b]
  else if b = 0x08 then [0x5C, 0x62]
  else if b = 0x0C then [0x5C, 0x66]
  else if b = 0x0A then [0x5C, 0x6E]
  else if b = 0x0D then [0x5C, 0x72]
  else if b = 0x09 then [0x5C, 0x74]
  else [0x5C, 0x75, 0x30, 0x30, hexDigits.getD (b / 16) 0, hexDigits.getD (b % 16) 0]

/-- One round of the loop of `appendString` on the bytes `src`: the bytes
written and the number of bytes of `src` read.  A byte below `utf8.RuneSelf`
is written by `appendStringAscii`; otherwise the rune decoded from the next
`utf8.UTFMax` bytes decides: an invalid byte is written as the escape of
U+FFFD, the runes U+2028 and U+2029 as their escapes, any other rune as its
own bytes. -/
def appendStringStep (src : List Nat) : List Nat × Nat :=
  match src with
  | [] => ([], 0)
  | b :: _ =>
    if b < 0x80 then (appendStringAscii b, 1)
    else
      let r := DecodeRune (src.take 4)
      if r.1 = RuneError ∧ r.2 = 1 then ([0x5C, 0x75, 0x66, 0x66, 0x66, 0x64], 1)
      else if r.1 = 0x2028 ∨ r.1 = 0x2029 then
        ([0x5C, 0x75, 0x32, 0x30, 0x32, hexDigits.getD (r.1 % 16) 0], r.2)
      else (src.take r.2, r.2)

/-- The loop of `appendString` on bytes; every round reads at least one byte,
and the fuel supplied is the length of the input. -/
def appendStringRawBody : Nat → List Nat → List Nat
  | 0, _ => []
  | fuel + 1, src =>
    if src = [] then []
    else (appendStringStep src).1 ++ appendStringRawBody fuel (src.drop (appendStringStep src).2)

/-- Function `appendString` on the bytes of a Go string: a quoted JSON string
literal. -/
def appendStringRaw (src : List Nat) : List Nat :=
  0x22 :: (appendStringRawBody src.length src ++ [0x22])

/-- A Go `map[string]string` with its keys and values as bytes: `none` is the
`nil` map. -/
abbrev RawMap := Option (List (List Nat × List Nat))

/-- A Go `CursorData` value with its strings as bytes. -/
structure RawCursorData where
  Value : List Nat
  Direction : List Nat
  Extra : RawMap
  deriving DecidableEq, Repr

/-- The Go value that a `CursorData` of the model stands for: every string as
its UTF-8 bytes. -/
def CursorData.raw (d : CursorData) : RawCursorData :=
  { Value := toBytes d.Value
    Direction := toBytes d.Direction
    Extra := d.Extra.map (fun l => l.map (fun q => (toBytes q.1, toBytes q.2))) }

/-- The order in which `mapEncoder` writes the entries: `strings.Compare` of
the keys. -/
def rawKeyLE (a b : List Nat × List Nat) : Prop := bytesLE a.1 b.1 = true

instance : DecidableRel rawKeyLE := fun a b =>
  inferInstanceAs (Decidable (bytesLE a.1 b.1 = true))

/-- The entries of a map sorted by key. -/
def sortEntriesRaw (m : List (List Nat × List Nat)) : List (List Nat × List Nat) :=
  m.insertionSort rawKeyLE

/-- The entries written by `mapEncoder`, separated by commas. -/
def encodeEntriesRaw : List (List Nat × List Nat) → List Nat
  | [] => []
  | (k, v) :: rest =>
    appendStringRaw k ++ [0x3A] ++ appendStringRaw v ++
      (match rest with
       | [] => []
       | _ :: _ => 0x2C :: encodeEntriesRaw rest)

/-- The encoder of `map[string]string`: `null` for a `nil` map, otherwise an
object with the entries sorted by key. -/
def encodeMapRaw (m : RawMap) : List Nat :=
  match m with
  | none => "null".toList.map Char.toNat
  | some l => 0x7B :: (encodeEntriesRaw (sortEntriesRaw l) ++ [0x7D])

/-- A Go value as `encoding/json` meets it through reflection, by kind: a
string, a `map[string]string`, or a value of a kind the package has no encoder
for (`Chan`, `Func`, `Complex64`, `Complex128`, `UnsafePointer`), with the name
of its type. -/
inductive GoValue where
  | String (s : List Nat)
  | MapStringString (m : RawMap)
  | Unsupported (typeName : GoString)
  deriving DecidableEq, Repr

/-- The encoder `newTypeEncoder` selects for the kind of a value, applied to
it: `stringEncoder`, `mapEncoder` with string keys and `stringEncoder` for the
elements, or `unsupportedTypeEncoder`, which fails with an
`UnsupportedTypeError`. -/
def encodeValue : GoValue → List Nat × Option GoError
  | GoValue.String s => (appendStringRaw s, none)
  | GoValue.MapStringString m => (encodeMapRaw m, none)
  | GoValue.Unsupported typeName => ([], some (GoError.UnsupportedTypeError typeName))

/-- Method `structEncoder.encode` on the fields of a struct, each with its JSON
name: the byte `next` (an opening brace before the first field, a comma
before the others), the quoted name, a colon and the encoded value; a closing
brace at the end.  The first error aborts the encoding, and `Marshal` then
returns no bytes. -/
def structEncoder : List (GoString × GoValue) → Nat → List Nat × Option GoError
  | [], next => (if next = 0x7B then [0x7B, 0x7D] else [0x7D], none)
  | (name, v) :: rest, next =>
    match encodeValue v with
    | (_, some err) => ([], some err)
    | (b, none) =>
      match structEncoder rest 0x2C with
      | (_, some err) => ([], some err)
      | (tail, none) => (next :: (appendString name ++ 0x3A :: (b ++ tail)), none)

/-- The fields of `type CursorData struct` with the names of their `json`
tags, as reflection lists them. -/
def RawCursorData.fields (d : RawCursorData) : List (GoString × GoValue) :=
  [("v".toList, GoValue.String d.Value), ("d".toList, GoValue.String d.Direction),
    ("e".toList, GoValue.MapStringString d.Extra)]

/-- Go `json.Marshal` of a `CursorData` value: the bytes and the error. -/
def MarshalRaw (d : RawCursorData) : List Nat × Option GoError :=
  structEncoder (RawCursorData.fields d) 0x7B

/-- Function `EncodeCursor` on a `CursorData` value with arbitrary strings:
the token and the error. -/
def EncodeCursorRaw (data : RawCursorData) : GoString × Option GoError :=
  match MarshalRaw data with
  | (_, some err) => ([], some (Errorf "pageable: failed to encode cursor data: ".toList err))
  | (b, none) => (EncodeToString b, none)

/-! ## Vocabulary of the specification -/

/-- An ASCII letter, an ASCII digit, an underscore or a dot. -/
def isIdentChar (c : Char) : Bool :=
  c.isAlpha || c.isDigit || c == '_' || c == '.'

/-- The text before the first comma (the whole text when there is none). -/
def beforeComma (s : GoString) : GoString := s.takeWhile (fun c => c != ',')

/-- The text after the first comma (empty when there is none). -/
def afterComma (s : GoString) : GoString := (s.dropWhile (fun c => c != ',')).drop 1

/-- A byte that `decodeQuantum` rejects wherever it meets it. -/
def isBadByte (b : Nat) : Prop := decodeMap b = 0xFF ∧ b ≠ 10 ∧ b ≠ 13 ∧ b ≠ padChar

/-- The characters a URL-safe base64 token may contain. -/
def isBase64URLChar (c : Char) : Bool :=
  c.isAlphanum || c == '-' || c == '_' || c == '=' || c == '\r' || c == '\n'

/-- The JSON value that `encodeMap` writes. -/
def jsonOfMap : StringMap → JValue
  | none => JValue.null
  | some l => JValue.obj ((sortEntries l).map (fun q => (q.1, JValue.str q.2)))

/-- A successful parse reads at least one byte and is reproduced by every
larger amount of fuel (`parseValue`). -/
def StableV (f : Nat) : Prop :=
  ∀ (d : Nat) (s : List Nat) (v : JValue) (rest : List Nat),
    parseValue f d s = some (v, rest) →
      rest.length < s.length ∧
        ∀ F, s.length - rest.length ≤ F → parseValue F d s = some (v, rest)

/-- The same for `parseMembers`. -/
def StableM (f : Nat) : Prop :=
  ∀ (d : Nat) (s : List Nat) (v : JValue) (rest : List Nat),
    parseMembers f d s = some (v, rest) →
      rest.length < s.length ∧
        ∀ F, s.length - rest.length ≤ F → parseMembers F d s = some (v, rest)

/-- The same for `parseElements`. -/
def StableE (f : Nat) : Prop :=
  ∀ (d : Nat) (s : List Nat) (v : JValue) (rest : List Nat),
    parseElements f d s = some (v, rest) →
      rest.length < s.length ∧
        ∀ F, s.length - rest.length ≤ F → parseElements F d s = some (v, rest)

/-- A decimal digit `0`..`9`. -/
def isDigitChar (c : Char) : Bool := decide ('0' ≤ c ∧ c ≤ '9')

/-- The number written by a sequence of decimal digits, most significant first. -/
def digitsValue (cs : List Char) : Nat :=
  cs.foldl (fun n c => n * 10 + (c.toNat - 48)) 0

/-- The integer written by a text in decimal notation: an optional sign `+` or
`-` followed by one or more digits; `none` for any other text. -/
def decimalInteger (s : GoString) : Option Int :=
  let body := if s.head? = some '-' ∨ s.head? = some '+' then s.tail else s
  if body ≠ [] ∧ body.all isDigitChar = true then
    some (if s.head? = some '-' then -(digitsValue body : Int) else (digitsValue body : Int))
  else none

/-- The value of a text that parses as a decimal integer `n > 0` within the
range of a Go `int`; `none` for every other text. -/
def positiveInt (s : GoString) : Option Int :=
  match decimalInteger s with
  | some n => if 0 < n ∧ n ≤ MaxInt64 then some n else none
  | none => none

/-- The number written by a sequence of digit bytes, continuing from `n`. -/
def bytesValue (ds : List Nat) (n : Nat) : Nat :=
  ds.foldl (fun n c => n * 10 + (c - 48)) n

/-- The function `decimalInteger` on the UTF-8 bytes of a text. -/
def decimalBytes (b : List Nat) : Option Int :=
  let body := if b.head? = some 45 ∨ b.head? = some 43 then b.tail else b
  if body ≠ [] ∧ body.all isDigitByte = true then
    some (if b.head? = some 45 then -(bytesValue body 0 : Int) else (bytesValue body 0 : Int))
  else none

/-- A character of the URL-safe base64 alphabet: an ASCII letter, an ASCII
digit, `-` or `_`. -/
def isAlphabetChar (c : Char) : Bool :=
  c.isAlphanum || c == '-' || c == '_'

/-- The integer a query value stands for: the value of a decimal integer
within the range of a Go `int`, and 0 for every other text. -/
def parsedInt (v : GoString) : Int :=
  match decimalInteger v with
  | some n => if isInt64 n then n else 0
  | none => 0

/-- A character that an `ORDER BY` text built from safe identifiers may hold:
an identifier character, a space or a comma. -/
def isOrderByChar (c : Char) : Bool :=
  isIdentChar c || c == ' ' || c == ','

/-- A fragment of an `ORDER BY` text: a non-empty safe identifier followed by
` asc` or ` desc`. -/
def isSafeFragment (f : GoString) : Prop :=
  ∃ field : GoString, field ≠ [] ∧ (∀ c ∈ field, isIdentChar c = true) ∧
    (f = field ++ " asc".toList ∨ f = field ++ " desc".toList)

/-- An `ORDER BY` text that is safe to splice into a query: only identifier
characters, spaces and commas, and a list of safe fragments joined by a comma
and a space. -/
def SafeOrderBy (s : GoString) : Prop :=
  (∀ c ∈ s, isOrderByChar c = true) ∧
    ∃ frags : List GoString, s = (", ".toList).intercalate frags ∧
      ∀ f ∈ frags, isSafeFragment f

/-- The lower-case token of one of the two directions: `desc` for `DESC`,
`asc` for `ASC`. -/
def directionToken (d : Direction) : GoString :=
  if d = DESC then "desc".toList else "asc".toList

/-- A member of a JSON object that gives a direction: its name is `d` or `D`
and its value is a string. -/
def isDirectionMember (m : GoString × JValue) : Bool :=
  (decide (m.1 = "d".toList) || decide (m.1 = "D".toList)) &&
    (match m.2 with
     | JValue.str _ => true
     | _ => false)

/-- The direction a JSON object gives: the string of its last member named `d`
or `D` whose value is a string; `cur` when there is no such member. -/
def memberDirection (members : List (GoString × JValue)) (cur : GoString) : GoString :=
  match (members.filter isDirectionMember).getLast? with
  | some (_, JValue.str s) => s
  | _ => cur

/-! ## Lemmas: strings -/

theorem isSafe_step (c : Char) :
    ((c < 'a' || c > 'z') && (c < 'A' || c > 'Z') && (c < '0' || c > '9')
        && c != '_' && c != '.') = !isIdentChar c := by
  have h1 : ∀ a b : Char, decide (a < b) = decide (a.toNat < b.toNat) := by
    intro a b; rfl
  have h2 : ∀ a b : Char, decide (a > b) = decide (b.toNat < a.toNat) := by
    intro a b; rfl
  have h3 : ∀ n : UInt32, decide (c.val ≥ n) = decide (n.toNat ≤ c.toNat) := fun _ => rfl
  have h4 : ∀ n : UInt32, decide (c.val ≤ n) = decide (c.toNat ≤ n.toNat) := fun _ => rfl
  have h5 : ∀ d : Char, (c == d) = decide (c.toNat = d.toNat) := by
    intro d
    rw [beq_eq_decide]
    congr 1
    exact propext ⟨fun h => by rw [h], fun h => Char.ext (UInt32.ext h)⟩
  have h6 : ∀ d : Char, (c != d) = !decide (c.toNat = d.toNat) := by
    intro d; rw [bne, h5]
  simp only [isIdentChar, Char.isAlpha, Char.isUpper, Char.isLower, Char.isDigit, h1, h2, h3, h4,
    h5, h6]
  have e1 : 'a'.toNat = 97 := rfl
  have e2 : 'z'.toNat = 122 := rfl
  have e3 : 'A'.toNat = 65 := rfl
  have e4 : 'Z'.toNat = 90 := rfl
  have e5 : '0'.toNat = 48 := rfl
  have e6 : '9'.toNat = 57 := rfl
  have e7 : '_'.toNat = 95 := rfl
  have e8 : '.'.toNat = 46 := rfl
  have e9 : (65 : UInt32).toNat = 65 := rfl
  have e10 : (90 : UInt32).toNat = 90 := rfl
  have e11 : (97 : UInt32).toNat = 97 := rfl
  have e12 : (122 : UInt32).toNat = 122 := rfl
  have e13 : (48 : UInt32).toNat = 48 := rfl
  have e14 : (57 : UInt32).toNat = 57 := rfl
  rw [e1, e2, e3, e4, e5, e6, e7, e8, e9, e10, e11, e12, e13, e14, Bool.eq_iff_iff]
  generalize c.toNat = n
  simp only [Bool.and_eq_true, Bool.or_eq_true, decide_eq_true_eq, Bool.not_eq_true',
    Bool.or_eq_false_iff, Bool.and_eq_false_imp, decide_eq_false_iff_not]
  omega

theorem char_eq_iff_toNat (c d : Char) : c = d ↔ c.toNat = d.toNat :=
  ⟨fun h => by rw [h], fun h => Char.ext (UInt32.ext h)⟩

theorem isSafeIdentifier_iff (s : GoString) :
    isSafeIdentifier s = true ↔ ∀ c ∈ s, isIdentChar c = true := by
  induction s with
  | nil => simp [isSafeIdentifier]
  | cons c cs ih =>
    rw [isSafeIdentifier, isSafe_step]
    cases h : isIdentChar c <;> simp [h, ih]

theorem cut_spec (sep : Char) (s : GoString) :
    cut sep s =
      if sep ∈ s then
        some (s.takeWhile (fun c => c != sep), (s.dropWhile (fun c => c != sep)).drop 1)
      else none := by
  induction s with
  | nil => simp [cut]
  | cons c cs ih =>
    by_cases h : c = sep
    · subst h
      simp [cut, List.takeWhile, List.dropWhile]
    · have h2 : ¬ sep = c := fun e => h e.symm
      have h3 : (c != sep) = true := by simp [h]
      simp only [cut, h, if_false, ih, List.mem_cons, h2, false_or, List.takeWhile,
        List.dropWhile, h3]
      by_cases hm : sep ∈ cs <;> simp [hm]

theorem SplitN_comma_two (s : GoString) (hs : s ≠ []) :
    SplitN s ',' 2 = if ',' ∈ s then [beforeComma s, afterComma s] else [s] := by
  have hl : min 2 (s.length + 1) - 1 = 1 := by
    cases s with
    | nil => exact absurd rfl hs
    | cons c cs => simp only [List.length_cons]; omega
  have h20 : ¬ (2 : Nat) = 0 := by decide
  simp only [SplitN, h20, if_false, hl, genSplit, cut_spec, beforeComma, afterComma]
  by_cases hm : ',' ∈ s <;> simp [hm]

theorem beforeComma_of_not_mem (s : GoString) (h : ',' ∉ s) : beforeComma s = s := by
  unfold beforeComma
  rw [List.takeWhile_eq_self_iff]
  intro c hc
  have : c ≠ ',' := fun e => h (e ▸ hc)
  simp [this]

theorem SplitN_head (s : GoString) (hs : s ≠ []) :
    (SplitN s ',' 2).getD 0 [] = beforeComma s := by
  rw [SplitN_comma_two s hs]
  by_cases hm : ',' ∈ s
  · simp [hm]
  · simp [hm, beforeComma_of_not_mem s hm]

theorem SplitN_length (s : GoString) (hs : s ≠ []) :
    (SplitN s ',' 2).length = 2 ↔ ',' ∈ s := by
  rw [SplitN_comma_two s hs]
  by_cases hm : ',' ∈ s <;> simp [hm]

theorem SplitN_second (s : GoString) (hs : s ≠ []) (hm : ',' ∈ s) :
    (SplitN s ',' 2).getD 1 [] = afterComma s := by
  rw [SplitN_comma_two s hs]
  simp [hm]

theorem TrimSpace_nil : TrimSpace [] = [] := rfl

/-- A closed form of `ParseSort`. -/
theorem ParseSort_eq (lowerTable : Char → Char) (raw : GoString) :
    ParseSort lowerTable raw =
      if TrimSpace (beforeComma (TrimSpace raw)) = [] ∨
          ¬ (∀ c ∈ TrimSpace (beforeComma (TrimSpace raw)), isIdentChar c = true) then none
      else some
        { Field := TrimSpace (beforeComma (TrimSpace raw))
          Direction :=
            if ',' ∈ TrimSpace raw ∧
                TrimSpace (ToLower lowerTable (afterComma (TrimSpace raw))) = DESC
            then DESC else ASC } := by
  by_cases ht : TrimSpace raw = []
  · simp [ParseSort, ht, beforeComma, TrimSpace_nil]
  · simp only [ParseSort, ht, if_false, SplitN_head _ ht, SplitN_length _ ht, Bool.or_eq_true,
      decide_eq_true_eq, Bool.not_eq_true', ← isSafeIdentifier_iff, Bool.not_eq_true]
    by_cases hf : TrimSpace (beforeComma (TrimSpace raw)) = []
    · simp [hf]
    · by_cases hsafe : isSafeIdentifier (TrimSpace (beforeComma (TrimSpace raw))) = true
      · by_cases hm : ',' ∈ TrimSpace raw
        · rw [SplitN_second _ ht hm]
          simp [hf, hsafe, hm]
        · simp [hf, hsafe, hm]
      · simp [hf, hsafe]

/-- C2: `ParseSort` returns a sort exactly when the trimmed text before the first
comma of the trimmed input is non-empty and made of ASCII letters, digits, `_`
and `.` only; the returned field is that text; in every other case the result
is absent. -/
theorem ParseSort_field (lowerTable : Char → Char) (raw : GoString) :
    ((ParseSort lowerTable raw).isSome = true ↔
        (TrimSpace (beforeComma (TrimSpace raw)) ≠ [] ∧
          ∀ c ∈ TrimSpace (beforeComma (TrimSpace raw)), isIdentChar c = true)) ∧
    (∀ s, ParseSort lowerTable raw = some s →
        s.Field = TrimSpace (beforeComma (TrimSpace raw))) ∧
    (¬ (TrimSpace (beforeComma (TrimSpace raw)) ≠ [] ∧
          ∀ c ∈ TrimSpace (beforeComma (TrimSpace raw)), isIdentChar c = true) →
        ParseSort lowerTable raw = none) := by
  rw [ParseSort_eq]
  by_cases h : TrimSpace (beforeComma (TrimSpace raw)) = [] ∨
      ¬ (∀ c ∈ TrimSpace (beforeComma (TrimSpace raw)), isIdentChar c = true)
  · rw [if_pos h]
    refine ⟨?_, ?_, ?_⟩
    · constructor
      · intro h'; exact absurd h' (by simp)
      · rintro ⟨h1, h2⟩
        rcases h with h | h
        · exact absurd h h1
        · exact absurd h2 h
    · intro s hs; exact absurd hs (by simp)
    · intro _; rfl
  · rw [if_neg h]
    rw [not_or, not_not] at h
    refine ⟨?_, ?_, ?_⟩
    · simp only [Option.isSome_some, true_iff]
      exact h
    · intro s hs
      cases hs
      rfl
    · intro h'; exact absurd h h'

/-! ## Lemmas: trimming -/

theorem rdropWhile_append_of_pos {α : Type} (p : α → Bool) (a w : List α)
    (h : ∀ x ∈ w, p x = true) : (a ++ w).rdropWhile p = a.rdropWhile p := by
  unfold List.rdropWhile
  rw [List.reverse_append, List.dropWhile_append_of_pos]
  intro x hx
  exact h x (List.mem_reverse.mp hx)

theorem rdropWhile_append_rtakeWhile {α : Type} (p : α → Bool) (l : List α) :
    l.rdropWhile p ++ l.rtakeWhile p = l := by
  unfold List.rdropWhile List.rtakeWhile
  rw [← List.reverse_append, List.takeWhile_append_dropWhile, List.reverse_reverse]

theorem rdropWhile_cons_neg {α : Type} (p : α → Bool) (c : α) (l : List α)
    (h : ¬ p c = true) : (c :: l).rdropWhile p = c :: l.rdropWhile p := by
  unfold List.rdropWhile
  rw [List.reverse_cons, List.dropWhile_append]
  have h1 : List.dropWhile p [c] = [c] := by simp [List.dropWhile, h]
  rw [h1]
  by_cases he : (List.dropWhile p l.reverse).isEmpty = true
  · rw [if_pos he]
    rw [List.isEmpty_iff] at he
    simp [he]
  · rw [if_neg he]
    simp

theorem rdropWhile_cons_pos {α : Type} (p : α → Bool) (c : α) (l : List α)
    (h : p c = true) :
    (c :: l).rdropWhile p =
      if (l.rdropWhile p).isEmpty = true then [] else c :: l.rdropWhile p := by
  unfold List.rdropWhile
  rw [List.reverse_cons, List.dropWhile_append]
  have h1 : List.dropWhile p [c] = [] := by simp [List.dropWhile, h]
  rw [h1]
  by_cases he : (List.dropWhile p l.reverse).isEmpty = true
  · rw [if_pos he]
    rw [List.isEmpty_iff] at he
    simp [he]
  · rw [if_neg he]
    rw [List.isEmpty_iff] at he
    simp [he]

theorem rdropWhile_dropWhile_comm {α : Type} (p : α → Bool) (l : List α) :
    (l.dropWhile p).rdropWhile p = (l.rdropWhile p).dropWhile p := by
  induction l with
  | nil => simp
  | cons c cs ih =>
    by_cases h : p c = true
    · rw [List.dropWhile_cons_of_pos h, rdropWhile_cons_pos p c cs h]
      by_cases he : (cs.rdropWhile p).isEmpty = true
      · rw [if_pos he, ih]
        rw [List.isEmpty_iff] at he
        rw [he]
      · rw [if_neg he, List.dropWhile_cons_of_pos h, ih]
    · rw [List.dropWhile_cons_of_neg h, rdropWhile_cons_neg p c cs h,
        List.dropWhile_cons_of_neg h]

theorem TrimSpace_eq_comm (s : GoString) :
    TrimSpace s = (s.rdropWhile isSpace).dropWhile isSpace :=
  rdropWhile_dropWhile_comm isSpace s

theorem TrimSpace_idem (s : GoString) : TrimSpace (TrimSpace s) = TrimSpace s := by
  show ((((s.dropWhile isSpace).rdropWhile isSpace).dropWhile isSpace).rdropWhile isSpace) = _
  rw [← rdropWhile_dropWhile_comm, List.dropWhile_idempotent, List.rdropWhile_idempotent]
  rfl

theorem TrimSpace_space_append (w a : GoString) (h : ∀ c ∈ w, isSpace c = true) :
    TrimSpace (w ++ a) = TrimSpace a := by
  unfold TrimSpace trimLeftSpace
  rw [List.dropWhile_append_of_pos h]

theorem TrimSpace_append_space (a w : GoString) (h : ∀ c ∈ w, isSpace c = true) :
    TrimSpace (a ++ w) = TrimSpace a := by
  rw [TrimSpace_eq_comm, TrimSpace_eq_comm, rdropWhile_append_of_pos isSpace a w h]

theorem TrimSpace_decomp (s : GoString) :
    ∃ w1 w2 : GoString, s = w1 ++ TrimSpace s ++ w2 ∧
      (∀ c ∈ w1, isSpace c = true) ∧ (∀ c ∈ w2, isSpace c = true) := by
  refine ⟨s.takeWhile isSpace, (s.dropWhile isSpace).rtakeWhile isSpace, ?_, ?_, ?_⟩
  · unfold TrimSpace trimRightSpace trimLeftSpace
    rw [List.append_assoc, rdropWhile_append_rtakeWhile, List.takeWhile_append_dropWhile]
  · intro c hc; exact List.mem_takeWhile_imp hc
  · intro c hc; exact List.mem_rtakeWhile_imp hc

theorem TrimSpace_of_not_space (s : GoString) (h : ∀ c ∈ s, isSpace c = false) :
    TrimSpace s = s := by
  unfold TrimSpace trimRightSpace trimLeftSpace
  have h1 : s.dropWhile isSpace = s := by
    rw [List.dropWhile_eq_self_iff]
    intro hl hc
    rw [h _ (List.get_mem s 0 hl)] at hc
    exact Bool.noConfusion hc
  rw [h1, List.rdropWhile_eq_self_iff]
  intro hl hc
  rw [h _ (List.getLast_mem hl)] at hc
  exact Bool.noConfusion hc

/-! ## Lemmas: commas and trimming -/

theorem isSpace_comma : isSpace ',' = false := by decide

theorem comma_not_mem_of_space (w : GoString) (h : ∀ c ∈ w, isSpace c = true) : ',' ∉ w := by
  intro hm
  have := h _ hm
  rw [isSpace_comma] at this
  exact Bool.noConfusion this

theorem beforeComma_cons_ne (c : Char) (cs : GoString) (hc : c ≠ ',') :
    beforeComma (c :: cs) = c :: beforeComma cs := by
  unfold beforeComma
  rw [List.takeWhile_cons]
  simp [hc]

theorem afterComma_cons_ne (c : Char) (cs : GoString) (hc : c ≠ ',') :
    afterComma (c :: cs) = afterComma cs := by
  unfold afterComma
  rw [List.dropWhile_cons]
  simp [hc]

theorem beforeComma_append_cons (a b : GoString) (h : ',' ∉ a) :
    beforeComma (a ++ ',' :: b) = a := by
  induction a with
  | nil => simp [beforeComma, List.takeWhile]
  | cons c cs ih =>
    have hc : c ≠ ',' := fun e => h (e ▸ List.mem_cons_self _ _)
    have hcs : ',' ∉ cs := fun e => h (List.mem_cons_of_mem _ e)
    rw [List.cons_append, beforeComma_cons_ne _ _ hc, ih hcs]

theorem afterComma_append_cons (a b : GoString) (h : ',' ∉ a) :
    afterComma (a ++ ',' :: b) = b := by
  induction a with
  | nil => simp [afterComma, List.dropWhile]
  | cons c cs ih =>
    have hc : c ≠ ',' := fun e => h (e ▸ List.mem_cons_self _ _)
    have hcs : ',' ∉ cs := fun e => h (List.mem_cons_of_mem _ e)
    rw [List.cons_append, afterComma_cons_ne _ _ hc, ih hcs]

theorem comma_not_mem_beforeComma (t : GoString) : ',' ∉ beforeComma t := by
  intro hm
  have := List.mem_takeWhile_imp hm
  simp at this

theorem comma_split (t : GoString) (h : ',' ∈ t) :
    t = beforeComma t ++ ',' :: afterComma t := by
  induction t with
  | nil => exact absurd h (List.not_mem_nil _)
  | cons c cs ih =>
    by_cases hc : c = ','
    · subst hc
      simp [beforeComma, afterComma, List.takeWhile, List.dropWhile]
    · have hm : ',' ∈ cs := by
        rcases List.mem_cons.mp h with e | e
        · exact absurd e.symm hc
        · exact e
      rw [beforeComma_cons_ne _ _ hc, afterComma_cons_ne _ _ hc, List.cons_append]
      exact congrArg (fun l => c :: l) (ih hm)

theorem comma_mem_TrimSpace (s : GoString) : ',' ∈ TrimSpace s ↔ ',' ∈ s := by
  obtain ⟨w1, w2, hs, h1, h2⟩ := TrimSpace_decomp s
  constructor
  · intro h
    rw [hs]
    simp [h]
  · intro h
    rw [hs] at h
    simp only [List.mem_append] at h
    rcases h with (h | h) | h
    · exact absurd h (comma_not_mem_of_space w1 h1)
    · exact h
    · exact absurd h (comma_not_mem_of_space w2 h2)

/-- Trimming the input first does not change the trimmed field text. -/
theorem TrimSpace_beforeComma_TrimSpace (s : GoString) :
    TrimSpace (beforeComma (TrimSpace s)) = TrimSpace (beforeComma s) := by
  obtain ⟨w1, w2, hs, h1, h2⟩ := TrimSpace_decomp s
  by_cases hm : ',' ∈ TrimSpace s
  · have hsplit := comma_split _ hm
    have hn : ',' ∉ w1 ++ beforeComma (TrimSpace s) := by
      simp only [List.mem_append, not_or]
      exact ⟨comma_not_mem_of_space w1 h1, comma_not_mem_beforeComma _⟩
    have e : s = (w1 ++ beforeComma (TrimSpace s)) ++ ',' :: (afterComma (TrimSpace s) ++ w2) := by
      conv_lhs => rw [hs, hsplit]
      simp
    conv_rhs => rw [e, beforeComma_append_cons _ _ hn, TrimSpace_space_append _ _ h1]
  · have hm2 : ',' ∉ s := fun h => hm ((comma_mem_TrimSpace s).mpr h)
    rw [beforeComma_of_not_mem _ hm, beforeComma_of_not_mem _ hm2, TrimSpace_idem]

/-- Trimming the input first does not change the trimmed direction text. -/
theorem TrimSpace_afterComma_TrimSpace (s : GoString) (hm : ',' ∈ s) :
    TrimSpace (afterComma (TrimSpace s)) = TrimSpace (afterComma s) := by
  obtain ⟨w1, w2, hs, h1, h2⟩ := TrimSpace_decomp s
  have hm1 : ',' ∈ TrimSpace s := (comma_mem_TrimSpace s).mpr hm
  have hsplit := comma_split _ hm1
  have hn : ',' ∉ w1 ++ beforeComma (TrimSpace s) := by
    simp only [List.mem_append, not_or]
    exact ⟨comma_not_mem_of_space w1 h1, comma_not_mem_beforeComma _⟩
  have e : s = (w1 ++ beforeComma (TrimSpace s)) ++ ',' :: (afterComma (TrimSpace s) ++ w2) := by
    conv_lhs => rw [hs, hsplit]
    simp
  conv_rhs => rw [e, afterComma_append_cons _ _ hn, TrimSpace_append_space _ _ h2]

/-! ## Lemmas: lower-casing -/

theorem toNat_ofNat_of_lt (n : Nat) (h : n < 0xd800) : (Char.ofNat n).toNat = n := by
  have hv : n.isValidChar := Or.inl h
  unfold Char.ofNat
  rw [dif_pos hv]
  rfl

theorem char_le_iff_toNat (a b : Char) : a ≤ b ↔ a.toNat ≤ b.toNat := Iff.rfl

theorem asciiLower_toNat (c : Char) :
    (asciiLower c).toNat = if 65 ≤ c.toNat ∧ c.toNat ≤ 90 then c.toNat + 32 else c.toNat := by
  unfold asciiLower
  simp only [char_le_iff_toNat]
  have e1 : 'A'.toNat = 65 := rfl
  have e2 : 'Z'.toNat = 90 := rfl
  rw [e1, e2]
  by_cases h : 65 ≤ c.toNat ∧ c.toNat ≤ 90
  · rw [if_pos h, if_pos h]
    exact toNat_ofNat_of_lt _ (by omega)
  · rw [if_neg h, if_neg h]

theorem ToLower_eq_map (lowerTable : Char → Char) (s : GoString) :
    ToLower lowerTable s = s.map (unicodeToLower lowerTable) := by
  unfold ToLower
  by_cases hall : s.all (fun c => decide (c.toNat < 0x80)) = true
  · rw [if_pos hall]
    have hmap : s.map asciiLower = s.map (unicodeToLower lowerTable) := by
      apply List.map_congr_left
      intro c hc
      have := List.all_eq_true.mp hall c hc
      simp only [decide_eq_true_eq] at this
      unfold unicodeToLower
      rw [if_pos (by omega)]
    by_cases hany : s.any (fun c => decide ('A' ≤ c ∧ c ≤ 'Z')) = true
    · rw [if_pos hany, hmap]
    · rw [if_neg hany, ← hmap]
      have hid : ∀ c ∈ s, asciiLower c = c := by
        intro c hc
        unfold asciiLower
        rw [if_neg]
        intro hu
        exact hany (List.any_eq_true.mpr ⟨c, hc, by simpa using hu⟩)
      conv_lhs => rw [← List.map_id s]
      exact (List.map_congr_left (fun c hc => (hid c hc))).symm
  · rw [if_neg hall]

theorem isSpace_congr (c d : Char) (h : c.toNat = d.toNat) : isSpace c = isSpace d := by
  rw [(char_eq_iff_toNat c d).mpr h]

theorem isSpace_asciiLower (c : Char) : isSpace (asciiLower c) = isSpace c := by
  by_cases h : 65 ≤ c.toNat ∧ c.toNat ≤ 90
  · have h1 := asciiLower_toNat c
    rw [if_pos h] at h1
    have hc : isSpace c = false := by
      unfold isSpace
      simp only
      rw [if_pos (by omega)]
      simp only [Bool.or_eq_false_iff, beq_eq_false_iff_ne, ne_eq]
      omega
    have hl : isSpace (asciiLower c) = false := by
      unfold isSpace
      simp only
      rw [if_pos (by omega)]
      simp only [Bool.or_eq_false_iff, beq_eq_false_iff_ne, ne_eq]
      omega
    rw [hc, hl]
  · have h1 := asciiLower_toNat c
    rw [if_neg h] at h1
    exact isSpace_congr _ _ h1

theorem isSpace_unicodeToLower (lowerTable : Char → Char)
    (hsp : ∀ c : Char, 0x80 ≤ c.toNat → isSpace (lowerTable c) = isSpace c) (c : Char) :
    isSpace (unicodeToLower lowerTable c) = isSpace c := by
  unfold unicodeToLower
  by_cases h : c.toNat ≤ 0x7F
  · rw [if_pos h]; exact isSpace_asciiLower c
  · rw [if_neg h]; exact hsp c (by omega)

theorem rdropWhile_map {α β : Type} (f : α → β) (p : β → Bool) (l : List α) :
    (l.map f).rdropWhile p = (l.rdropWhile (p ∘ f)).map f := by
  unfold List.rdropWhile
  rw [← List.map_reverse, List.dropWhile_map, List.map_reverse]

theorem TrimSpace_map (f : Char → Char) (hf : ∀ c, isSpace (f c) = isSpace c) (s : GoString) :
    TrimSpace (s.map f) = (TrimSpace s).map f := by
  have hcomp : isSpace ∘ f = isSpace := funext hf
  unfold TrimSpace trimRightSpace trimLeftSpace
  rw [List.dropWhile_map, rdropWhile_map, hcomp]

/-! ## Lemmas: identifier characters -/

theorem isIdentChar_iff_toNat (c : Char) :
    isIdentChar c = true ↔
      (65 ≤ c.toNat ∧ c.toNat ≤ 90) ∨ (97 ≤ c.toNat ∧ c.toNat ≤ 122) ∨
        (48 ≤ c.toNat ∧ c.toNat ≤ 57) ∨ c.toNat = 95 ∨ c.toNat = 46 := by
  have h3 : ∀ n : UInt32, decide (c.val ≥ n) = decide (n.toNat ≤ c.toNat) := fun _ => rfl
  have h4 : ∀ n : UInt32, decide (c.val ≤ n) = decide (c.toNat ≤ n.toNat) := fun _ => rfl
  have h5 : ∀ d : Char, (c == d) = decide (c.toNat = d.toNat) := by
    intro d
    rw [beq_eq_decide]
    congr 1
    exact propext (char_eq_iff_toNat c d)
  simp only [isIdentChar, Char.isAlpha, Char.isUpper, Char.isLower, Char.isDigit, h3, h4, h5]
  have e7 : '_'.toNat = 95 := rfl
  have e8 : '.'.toNat = 46 := rfl
  have e9 : (65 : UInt32).toNat = 65 := rfl
  have e10 : (90 : UInt32).toNat = 90 := rfl
  have e11 : (97 : UInt32).toNat = 97 := rfl
  have e12 : (122 : UInt32).toNat = 122 := rfl
  have e13 : (48 : UInt32).toNat = 48 := rfl
  have e14 : (57 : UInt32).toNat = 57 := rfl
  rw [e7, e8, e9, e10, e11, e12, e13, e14]
  simp only [Bool.and_eq_true, Bool.or_eq_true, decide_eq_true_eq]
  omega

theorem isSpace_of_isIdentChar (c : Char) (h : isIdentChar c = true) : isSpace c = false := by
  rw [isIdentChar_iff_toNat] at h
  unfold isSpace
  simp only
  rw [if_pos (by omega)]
  simp only [Bool.or_eq_false_iff, beq_eq_false_iff_ne, ne_eq]
  omega

theorem ne_comma_of_isIdentChar (c : Char) (h : isIdentChar c = true) : c ≠ ',' := by
  rintro rfl
  exact absurd h (by decide)

theorem ToLower_ASC (lowerTable : Char → Char) : TrimSpace (ToLower lowerTable ASC) = ASC := rfl

theorem ToLower_DESC (lowerTable : Char → Char) : TrimSpace (ToLower lowerTable DESC) = DESC :=
  rfl

theorem ASC_ne_DESC : ASC ≠ DESC := by decide

/-! ## Theorems: the sort parser -/

/-- C3: when `ParseSort` returns a sort, its direction is DESC exactly when the
input has a comma and the text after the first comma, trimmed and lower-cased,
is "desc"; otherwise it is ASC; and replacing the direction text by any other
text never makes the parse fail.  The Unicode case table is assumed to map
white space to white space and other code points to other code points. -/
theorem ParseSort_direction (lowerTable : Char → Char)
    (hsp : ∀ c : Char, 0x80 ≤ c.toNat → isSpace (lowerTable c) = isSpace c)
    (raw : GoString) (s : GoSort) (h : ParseSort lowerTable raw = some s) :
    (s.Direction = DESC ↔
      (',' ∈ raw ∧ ToLower lowerTable (TrimSpace (afterComma raw)) = DESC)) ∧
    (s.Direction ≠ DESC → s.Direction = ASC) ∧
    (∀ d : GoString, ∃ s2 : GoSort,
      ParseSort lowerTable (beforeComma raw ++ ',' :: d) = some s2 ∧ s2.Field = s.Field) := by
  rw [ParseSort_eq] at h
  by_cases hbad : TrimSpace (beforeComma (TrimSpace raw)) = [] ∨
      ¬ (∀ c ∈ TrimSpace (beforeComma (TrimSpace raw)), isIdentChar c = true)
  · rw [if_pos hbad] at h
    exact absurd h (by simp)
  · rw [if_neg hbad] at h
    have hs := (Option.some.inj h).symm
    have hlow : ',' ∈ raw →
        TrimSpace (ToLower lowerTable (afterComma (TrimSpace raw))) =
          ToLower lowerTable (TrimSpace (afterComma raw)) := by
      intro hm
      rw [ToLower_eq_map, ToLower_eq_map,
        TrimSpace_map _ (isSpace_unicodeToLower lowerTable hsp),
        TrimSpace_afterComma_TrimSpace raw hm]
    refine ⟨?_, ?_, ?_⟩
    · rw [hs]
      simp only
      constructor
      · intro hd
        by_cases hc : ',' ∈ TrimSpace raw ∧
            TrimSpace (ToLower lowerTable (afterComma (TrimSpace raw))) = DESC
        · have hm := (comma_mem_TrimSpace raw).mp hc.1
          exact ⟨hm, by rw [← hlow hm]; exact hc.2⟩
        · rw [if_neg hc] at hd
          exact absurd hd ASC_ne_DESC
      · rintro ⟨hm, hd⟩
        rw [if_pos ⟨(comma_mem_TrimSpace raw).mpr hm, by rw [hlow hm]; exact hd⟩]
    · rw [hs]
      simp only
      intro hd
      by_cases hc : ',' ∈ TrimSpace raw ∧
          TrimSpace (ToLower lowerTable (afterComma (TrimSpace raw))) = DESC
      · rw [if_pos hc] at hd
        exact absurd rfl hd
      · rw [if_neg hc]
    · intro d
      have hf : TrimSpace (beforeComma (TrimSpace (beforeComma raw ++ ',' :: d))) =
          TrimSpace (beforeComma (TrimSpace raw)) := by
        rw [TrimSpace_beforeComma_TrimSpace, TrimSpace_beforeComma_TrimSpace,
          beforeComma_append_cons _ _ (comma_not_mem_beforeComma raw)]
      rw [ParseSort_eq, hf, if_neg hbad]
      refine ⟨_, rfl, ?_⟩
      rw [hs]

/-- C3, at the input "name,DESC" with the identity case table. -/
theorem ParseSort_direction_witness :
    ',' ∈ "name,DESC".toList ∧
      ToLower id (TrimSpace (afterComma "name,DESC".toList)) = DESC :=
  ((ParseSort_direction id (fun _ _ => rfl) "name,DESC".toList
    { Field := "name".toList, Direction := DESC } (by decide)).1).mp rfl

/-- C4: for a sort with a non-empty safe field and direction ASC or DESC,
`String` renders the field, a comma and the lower-case direction token, and
`ParseSort` of that text returns the sort. -/
theorem Sort_String_roundtrip (lowerTable : Char → Char) (s : GoSort)
    (hne : s.Field ≠ []) (hid : ∀ c ∈ s.Field, isIdentChar c = true)
    (hdir : s.Direction = ASC ∨ s.Direction = DESC) :
    GoSort.String s =
        s.Field ++ ",".toList ++ (if s.Direction = DESC then "desc".toList else "asc".toList) ∧
      ParseSort lowerTable (GoSort.String s) = some s := by
  have hstr : GoSort.String s = s.Field ++ ',' :: s.Direction := by
    unfold GoSort.String
    simp
  have hnc : ',' ∉ s.Field := fun hm => ne_comma_of_isIdentChar _ (hid _ hm) rfl
  have hdsp : ∀ c ∈ s.Direction, isSpace c = false := by
    rcases hdir with hd | hd <;> rw [hd] <;> decide
  have hall : ∀ c ∈ GoSort.String s, isSpace c = false := by
    intro c hc
    rw [hstr] at hc
    rcases List.mem_append.mp hc with h1 | h1
    · exact isSpace_of_isIdentChar c (hid c h1)
    · rcases List.mem_cons.mp h1 with h2 | h2
      · rw [h2]; exact isSpace_comma
      · exact hdsp c h2
  have hfield : TrimSpace s.Field = s.Field :=
    TrimSpace_of_not_space _ (fun c hc => isSpace_of_isIdentChar c (hid c hc))
  constructor
  · unfold GoSort.String
    rcases hdir with hd | hd
    · rw [hd, if_neg ASC_ne_DESC]; rfl
    · rw [hd, if_pos rfl]; rfl
  · rw [ParseSort_eq, TrimSpace_of_not_space _ hall, hstr, beforeComma_append_cons _ _ hnc,
      afterComma_append_cons _ _ hnc, hfield]
    have hok : ¬ (s.Field = [] ∨ ¬ ∀ c ∈ s.Field, isIdentChar c = true) := by
      rw [not_or, not_not]
      exact ⟨hne, hid⟩
    rw [if_neg hok]
    have hmem : ',' ∈ s.Field ++ ',' :: s.Direction := by simp
    rcases hdir with hd | hd
    · have hno : ¬ (',' ∈ s.Field ++ ',' :: s.Direction ∧
          TrimSpace (ToLower lowerTable s.Direction) = DESC) := by
        rw [hd, ToLower_ASC]
        exact fun h => ASC_ne_DESC h.2
      rw [if_neg hno]
      cases s
      simp only at hd
      rw [hd]
    · have hyes : ',' ∈ s.Field ++ ',' :: s.Direction ∧
          TrimSpace (ToLower lowerTable s.Direction) = DESC := by
        rw [hd, ToLower_DESC]
        exact ⟨by simp, rfl⟩
      rw [if_pos hyes]
      cases s
      simp only at hd
      rw [hd]

/-- C4, at the sort `{created_at, DESC}` with the identity case table. -/
theorem Sort_String_roundtrip_witness :
    GoSort.String { Field := "created_at".toList, Direction := DESC } =
        "created_at".toList ++ ",".toList ++
          (if DESC = DESC then "desc".toList else "asc".toList) ∧
      ParseSort id (GoSort.String { Field := "created_at".toList, Direction := DESC }) =
        some { Field := "created_at".toList, Direction := DESC } :=
  Sort_String_roundtrip id { Field := "created_at".toList, Direction := DESC } (by decide)
    (by decide) (Or.inr rfl)

theorem parseSortsLoop_eq (lowerTable : Char → Char) (l : List GoString) (acc : Slice GoSort) :
    parseSortsLoop lowerTable l acc =
      if l.filterMap (ParseSort lowerTable) = [] then acc
      else some (Slice.elems acc ++ l.filterMap (ParseSort lowerTable)) := by
  induction l generalizing acc with
  | nil => simp [parseSortsLoop]
  | cons r rest ih =>
    cases hr : ParseSort lowerTable r with
    | none =>
      simp only [parseSortsLoop, hr, List.filterMap_cons_none hr]
      exact ih acc
    | some s0 =>
      simp only [parseSortsLoop, hr, List.filterMap_cons_some hr]
      rw [ih]
      by_cases he : rest.filterMap (ParseSort lowerTable) = []
      · simp [he, Slice.append]
      · simp [he, Slice.append, Slice.elems]

/-- C5: `ParseSorts` returns, in order, the sorts `ParseSort` yields for the
elements of the input, the absent ones discarded; when there is none the result
is `nil`, never a present empty list. -/
theorem ParseSorts_spec (lowerTable : Char → Char) (raw : Slice GoString) :
    ParseSorts lowerTable raw =
        (if (Slice.elems raw).filterMap (ParseSort lowerTable) = [] then none
         else some ((Slice.elems raw).filterMap (ParseSort lowerTable))) ∧
      ParseSorts lowerTable raw ≠ some [] ∧
      ParseSorts lowerTable none = none ∧ ParseSorts lowerTable (some []) = none := by
  have hmain : ParseSorts lowerTable raw =
      (if (Slice.elems raw).filterMap (ParseSort lowerTable) = [] then none
       else some ((Slice.elems raw).filterMap (ParseSort lowerTable))) := by
    unfold ParseSorts
    simp only [parseSortsLoop_eq]
    generalize (Slice.elems raw).filterMap (ParseSort lowerTable) = kept
    cases kept with
    | nil => simp [Slice.len, Slice.elems]
    | cons a l => simp [Slice.len, Slice.elems]
  refine ⟨hmain, ?_, rfl, rfl⟩
  rw [hmain]
  generalize (Slice.elems raw).filterMap (ParseSort lowerTable) = kept
  cases kept with
  | nil => simp
  | cons a l => simp

theorem allowedSet_eq (fields : List GoString) (m : StringSet) (k : GoString) :
    allowedSet fields m k = (decide (k ∈ fields) || m k) := by
  induction fields generalizing m with
  | nil => simp [allowedSet]
  | cons f fs ih =>
    rw [allowedSet, ih]
    by_cases hk : k = f
    · simp [hk]
    · simp [hk]

theorem filterLoop_eq (allowed : StringSet) (l : List GoSort) (acc : Slice GoSort) :
    filterLoop allowed l acc =
      if l.filter (fun s => allowed s.Field) = [] then acc
      else some (Slice.elems acc ++ l.filter (fun s => allowed s.Field)) := by
  induction l generalizing acc with
  | nil => simp [filterLoop]
  | cons s0 rest ih =>
    by_cases ha : allowed s0.Field = true
    · simp only [filterLoop, ha, if_true, List.filter_cons_of_pos]
      rw [ih]
      by_cases he : rest.filter (fun s => allowed s.Field) = []
      · simp [he, Slice.append]
      · simp [he, Slice.append, Slice.elems]
    · have hb : allowed s0.Field = false := by simpa using ha
      simp only [filterLoop, hb, Bool.false_eq_true, if_false]
      rw [ih, List.filter_cons_of_neg (by simpa using hb)]

theorem filterSortsByFields_eq (sorts : Slice GoSort) (fields : Slice GoString) :
    filterSortsByFields sorts fields =
      if (Slice.elems sorts).filter (fun s => decide (s.Field ∈ Slice.elems fields)) = [] then none
      else some ((Slice.elems sorts).filter (fun s => decide (s.Field ∈ Slice.elems fields))) := by
  unfold filterSortsByFields
  simp only [filterLoop_eq]
  have hfun : (fun s : GoSort => allowedSet (Slice.elems fields) (fun _ => false) s.Field) =
      (fun s : GoSort => decide (s.Field ∈ Slice.elems fields)) := by
    funext s0
    rw [allowedSet_eq]
    simp
  rw [hfun]
  generalize (Slice.elems sorts).filter (fun s => decide (s.Field ∈ Slice.elems fields)) = kept
  cases kept with
  | nil => simp [Slice.len, Slice.elems]
  | cons a l => simp [Slice.len, Slice.elems]

/-- C6: `SortableFields` keeps exactly the sorts whose field is one of the
allowed names, in their original order and unchanged; every kept sort has an
allowed field; when nothing is kept the sort is `nil`; `Page` and `Size` are
unchanged. -/
theorem SortableFields_spec (r : PageRequest) (allowed : Slice GoString) :
    (PageRequest.SortableFields r allowed).Sorts =
        (if (Slice.elems r.Sorts).filter (fun s => decide (s.Field ∈ Slice.elems allowed)) = []
         then none
         else some
          ((Slice.elems r.Sorts).filter (fun s => decide (s.Field ∈ Slice.elems allowed)))) ∧
      (∀ s ∈ Slice.elems (PageRequest.SortableFields r allowed).Sorts,
        s ∈ Slice.elems r.Sorts ∧ s.Field ∈ Slice.elems allowed) ∧
      (PageRequest.SortableFields r allowed).Sorts ≠ some [] ∧
      (PageRequest.SortableFields r allowed).Page = r.Page ∧
      (PageRequest.SortableFields r allowed).Size = r.Size := by
  have hmain : (PageRequest.SortableFields r allowed).Sorts =
      (if (Slice.elems r.Sorts).filter (fun s => decide (s.Field ∈ Slice.elems allowed)) = []
       then none
       else some
        ((Slice.elems r.Sorts).filter (fun s => decide (s.Field ∈ Slice.elems allowed)))) := by
    unfold PageRequest.SortableFields
    exact filterSortsByFields_eq r.Sorts allowed
  refine ⟨hmain, ?_, ?_, rfl, rfl⟩
  · intro s0 hs0
    rw [hmain] at hs0
    by_cases he :
        (Slice.elems r.Sorts).filter (fun s => decide (s.Field ∈ Slice.elems allowed)) = []
    · rw [if_pos he] at hs0
      exact absurd hs0 (List.not_mem_nil _)
    · rw [if_neg he] at hs0
      have := List.mem_filter.mp hs0
      exact ⟨this.1, by simpa using this.2⟩
  · rw [hmain]
    generalize
      (Slice.elems r.Sorts).filter (fun s => decide (s.Field ∈ Slice.elems allowed)) = kept
    cases kept with
    | nil => simp
    | cons a l => simp

/-! ## Theorems: decoding errors -/

set_option maxRecDepth 100000 in
theorem decodeMap_spec (b : Nat) (h : decodeMap b ≠ 0xFF) :
    (65 ≤ b ∧ b ≤ 90) ∨ (97 ≤ b ∧ b ≤ 122) ∨ (48 ≤ b ∧ b ≤ 57) ∨ b = 45 ∨ b = 95 := by
  by_cases hb : b < 128
  · have key : ∀ n, n < 128 → decodeMap n ≠ 0xFF →
        (65 ≤ n ∧ n ≤ 90) ∨ (97 ≤ n ∧ n ≤ 122) ∨ (48 ≤ n ∧ n ≤ 57) ∨ n = 45 ∨ n = 95 := by
      decide
    exact key b hb h
  · exfalso
    apply h
    have hall : ∀ x ∈ encodeURL, x < 128 := by decide
    have hnm : b ∉ encodeURL := fun hm => hb (hall b hm)
    unfold decodeMap
    have hidx : encodeURL.indexOf b = 64 := by
      rw [List.indexOf_of_not_mem hnm]
      rfl
    simp only [hidx]
    rfl

theorem skipNewlines_bad (src : List Nat) (si : Nat) (h : ∃ b ∈ src, isBadByte b) :
    ∃ b ∈ (skipNewlines src si).1, isBadByte b := by
  induction src generalizing si with
  | nil => exact h
  | cons c cs ih =>
    unfold skipNewlines
    by_cases hc : c = 10 ∨ c = 13
    · rw [if_pos hc]
      apply ih
      obtain ⟨b, hb, hbad⟩ := h
      rcases List.mem_cons.mp hb with e | e
      · subst e
        rcases hc with hc | hc
        · exact absurd hc hbad.2.1
        · exact absurd hc hbad.2.2.1
      · exact ⟨b, e, hbad⟩
    · rw [if_neg hc]
      exact h

theorem skipNewlines_length (src : List Nat) (si : Nat) :
    (skipNewlines src si).1.length ≤ src.length := by
  induction src generalizing si with
  | nil => simp [skipNewlines]
  | cons c cs ih =>
    unfold skipNewlines
    by_cases hc : c = 10 ∨ c = 13
    · rw [if_pos hc]
      have := ih (si + 1)
      simp only [List.length_cons]
      omega
    · rw [if_neg hc]

theorem bad_tail (c : Nat) (cs : List Nat) (h : ∃ b ∈ c :: cs, isBadByte b) (hc : ¬ isBadByte c) :
    ∃ b ∈ cs, isBadByte b := by
  obtain ⟨b, hb, hbad⟩ := h
  rcases List.mem_cons.mp hb with e | e
  · subst e; exact absurd hbad hc
  · exact ⟨b, e, hbad⟩

theorem decodeQuantum_bad (srcLen : Nat) (src : List Nat) (dbuf : List Nat) (si : Nat)
    (h : ∃ b ∈ src, isBadByte b) :
    (decodeQuantum srcLen dbuf src si).err ≠ none ∨
      ((∃ b ∈ (decodeQuantum srcLen dbuf src si).rest, isBadByte b) ∧
        (decodeQuantum srcLen dbuf src si).rest.length < src.length) := by
  induction src generalizing dbuf si with
  | nil =>
    obtain ⟨b, hb, _⟩ := h
    exact absurd hb (List.not_mem_nil _)
  | cons c cs ih =>
    unfold decodeQuantum
    by_cases hv : decodeMap c ≠ 0xFF
    · rw [if_pos hv]
      have hcs := bad_tail c cs h (fun hb => hv hb.1)
      by_cases h3 : dbuf.length = 3
      · rw [if_pos h3]
        right
        exact ⟨hcs, by simp⟩
      · rw [if_neg h3]
        rcases ih (dbuf ++ [decodeMap c]) (si + 1) hcs with h1 | ⟨h1, h2⟩
        · left; exact h1
        · right; exact ⟨h1, by simp only [List.length_cons]; omega⟩
    · rw [if_neg hv]
      by_cases hnl : c = 10 ∨ c = 13
      · rw [if_pos hnl]
        have hcs := bad_tail c cs h (fun hb => by
          rcases hnl with e | e
          · exact hb.2.1 e
          · exact hb.2.2.1 e)
        rcases ih dbuf (si + 1) hcs with h1 | ⟨h1, h2⟩
        · left; exact h1
        · right; exact ⟨h1, by simp only [List.length_cons]; omega⟩
      · rw [if_neg hnl]
        by_cases hp : c ≠ padChar
        · rw [if_pos hp]; left; simp
        · rw [if_neg hp]
          have hcs := bad_tail c cs h (fun hb => hp hb.2.2.2)
          by_cases h1 : dbuf.length ≤ 1
          · rw [if_pos h1]; left; simp
          · rw [if_neg h1]
            by_cases h2 : dbuf.length = 2
            · rw [if_pos h2]
              have hb1 := skipNewlines_bad cs (si + 1) hcs
              rcases hsk : skipNewlines cs (si + 1) with ⟨r2, si2⟩
              rw [hsk] at hb1
              cases r2 with
              | nil =>
                left; simp
              | cons c2 r3 =>
                simp only
                by_cases hp2 : c2 ≠ padChar
                · rw [if_pos hp2]; left; simp
                · rw [if_neg hp2]
                  left
                  have hb2 := skipNewlines_bad r3 (si2 + 1)
                    (bad_tail c2 r3 hb1 (fun hb => hp2 hb.2.2.2))
                  have hne : (skipNewlines r3 (si2 + 1)).1 ≠ [] := by
                    obtain ⟨b, hb, _⟩ := hb2
                    exact List.ne_nil_of_mem hb
                  simp [hne]
            · rw [if_neg h2]
              left
              have hb2 := skipNewlines_bad cs (si + 1) hcs
              have hne : (skipNewlines cs (si + 1)).1 ≠ [] := by
                obtain ⟨b, hb, _⟩ := hb2
                exact List.ne_nil_of_mem hb
              simp [hne]

theorem decodeLoop_bad (srcLen : Nat) (fuel : Nat) (src : List Nat) (si : Nat)
    (hf : src.length ≤ fuel) (h : ∃ b ∈ src, isBadByte b) :
    (decodeLoop srcLen fuel src si).2 ≠ none := by
  induction fuel generalizing src si with
  | zero =>
    obtain ⟨b, hb, _⟩ := h
    have : src = [] := List.length_eq_zero.mp (Nat.le_zero.mp hf)
    rw [this] at hb
    exact absurd hb (List.not_mem_nil _)
  | succ n ih =>
    unfold decodeLoop
    have hne : src ≠ [] := by
      obtain ⟨b, hb, _⟩ := h
      exact List.ne_nil_of_mem hb
    rw [if_neg hne]
    simp only
    rcases decodeQuantum_bad srcLen src [] si h with h1 | ⟨h1, h2⟩
    · cases he : (decodeQuantum srcLen [] src si).err with
      | none => exact absurd he h1
      | some e => simp
    · cases he : (decodeQuantum srcLen [] src si).err with
      | none =>
        simp only
        exact ih _ _ (by omega) h1
      | some e => simp

theorem mem_toBytes (s : GoString) (c : Char) (hc : c ∈ s) (b : Nat)
    (hb : b ∈ utf8EncodeChar c) : b ∈ toBytes s := by
  induction s with
  | nil => exact absurd hc (List.not_mem_nil _)
  | cons x xs ih =>
    unfold toBytes
    rcases List.mem_cons.mp hc with e | e
    · subst e
      exact List.mem_append_left _ hb
    · exact List.mem_append_right _ (ih e)

theorem isBase64URLChar_iff_toNat (c : Char) :
    isBase64URLChar c = true ↔
      (65 ≤ c.toNat ∧ c.toNat ≤ 90) ∨ (97 ≤ c.toNat ∧ c.toNat ≤ 122) ∨
        (48 ≤ c.toNat ∧ c.toNat ≤ 57) ∨ c.toNat = 45 ∨ c.toNat = 95 ∨ c.toNat = 61 ∨
        c.toNat = 13 ∨ c.toNat = 10 := by
  have h3 : ∀ n : UInt32, decide (c.val ≥ n) = decide (n.toNat ≤ c.toNat) := fun _ => rfl
  have h4 : ∀ n : UInt32, decide (c.val ≤ n) = decide (c.toNat ≤ n.toNat) := fun _ => rfl
  have h5 : ∀ d : Char, (c == d) = decide (c.toNat = d.toNat) := by
    intro d
    rw [beq_eq_decide]
    congr 1
    exact propext (char_eq_iff_toNat c d)
  simp only [isBase64URLChar, Char.isAlphanum, Char.isAlpha, Char.isUpper, Char.isLower,
    Char.isDigit, h3, h4, h5]
  have e1 : '-'.toNat = 45 := rfl
  have e2 : '_'.toNat = 95 := rfl
  have e3 : '='.toNat = 61 := rfl
  have e4 : '\r'.toNat = 13 := rfl
  have e5 : '\n'.toNat = 10 := rfl
  have e9 : (65 : UInt32).toNat = 65 := rfl
  have e10 : (90 : UInt32).toNat = 90 := rfl
  have e11 : (97 : UInt32).toNat = 97 := rfl
  have e12 : (122 : UInt32).toNat = 122 := rfl
  have e13 : (48 : UInt32).toNat = 48 := rfl
  have e14 : (57 : UInt32).toNat = 57 := rfl
  rw [e1, e2, e3, e4, e5, e9, e10, e11, e12, e13, e14]
  simp only [Bool.and_eq_true, Bool.or_eq_true, decide_eq_true_eq]
  omega

theorem bad_byte_of_bad_char (c : Char) (h : isBase64URLChar c = false) :
    ∃ b ∈ utf8EncodeChar c, isBadByte b := by
  have hn : ¬ isBase64URLChar c = true := by rw [h]; exact Bool.noConfusion
  rw [isBase64URLChar_iff_toNat] at hn
  have key : ∀ b : Nat, (b = c.toNat ∨ 128 ≤ b) → isBadByte b := by
    intro b hb
    refine ⟨?_, ?_, ?_, ?_⟩
    · by_contra hd
      have := decodeMap_spec b hd
      omega
    · omega
    · omega
    · unfold padChar; omega
  unfold utf8EncodeChar
  simp only
  by_cases h1 : c.toNat ≤ 0x7F
  · rw [if_pos h1]
    exact ⟨c.toNat, List.mem_singleton.mpr rfl, key _ (Or.inl rfl)⟩
  · rw [if_neg h1]
    by_cases h2 : c.toNat ≤ 0x7FF
    · rw [if_pos h2]
      exact ⟨_, List.mem_cons_self _ _, key _ (Or.inr (by omega))⟩
    · rw [if_neg h2]
      by_cases h3 : c.toNat ≤ 0xFFFF
      · rw [if_pos h3]
        exact ⟨_, List.mem_cons_self _ _, key _ (Or.inr (by omega))⟩
      · rw [if_neg h3]
        exact ⟨_, List.mem_cons_self _ _, key _ (Or.inr (by omega))⟩

theorem DecodeString_bad_char (cursor : GoString) (h : ∃ c ∈ cursor, isBase64URLChar c = false) :
    (DecodeString cursor).2 ≠ none := by
  obtain ⟨c, hc, hbad⟩ := h
  obtain ⟨b, hb, hbb⟩ := bad_byte_of_bad_char c hbad
  exact decodeLoop_bad _ _ _ 0 (Nat.le_refl _) ⟨b, mem_toBytes cursor c hc b hb, hbb⟩

/-- C7: a token on which base64 decoding fails, in particular every token
with a character outside `A-Z a-z 0-9 - _ =` CR LF, makes
`DecodeCursor` return the zero cursor data and an error wrapping a
`CorruptInputError`, whose message starts with
"pageable: invalid cursor encoding"; so it is at "!!!invalid!!!". -/
theorem DecodeCursor_invalid_encoding (cursor : GoString) :
    ((DecodeString cursor).2 ≠ none →
      ∃ offset : Nat,
        DecodeCursor cursor =
            (CursorData.zero,
              some (Errorf "pageable: invalid cursor encoding: ".toList
                (GoError.CorruptInputError offset))) ∧
          "pageable: invalid cursor encoding".toList <+:
            GoError.Error (Errorf "pageable: invalid cursor encoding: ".toList
              (GoError.CorruptInputError offset))) ∧
      ((∃ c ∈ cursor, isBase64URLChar c = false) → (DecodeString cursor).2 ≠ none) ∧
      DecodeCursor "!!!invalid!!!".toList =
        (CursorData.zero,
          some (Errorf "pageable: invalid cursor encoding: ".toList
            (GoError.CorruptInputError 0))) := by
  refine ⟨?_, DecodeString_bad_char cursor, by decide⟩
  intro h
  cases hd : DecodeString cursor with
  | mk b e =>
    cases e with
    | none => rw [hd] at h; exact absurd rfl h
    | some offset =>
      refine ⟨offset, ?_, ?_⟩
      · unfold DecodeCursor
        rw [hd]
      · refine ⟨": ".toList ++ GoError.Error (GoError.CorruptInputError offset), ?_⟩
        simp [Errorf, GoError.Error]

/-- C7 at the token "a+b/": the characters `+` and `/` of the standard
alphabet are rejected. -/
theorem DecodeCursor_invalid_encoding_witness :
    (DecodeString "a+b/".toList).2 ≠ none :=
  (DecodeCursor_invalid_encoding "a+b/".toList).2.1 ⟨'+', by decide, by decide⟩

/-- C8: when the token is well-formed base64 and `json.Unmarshal` rejects the
decoded bytes, `DecodeCursor` returns the zero cursor data and an error wrapping
the JSON error, whose message contains "invalid cursor data" and does not start
with the prefix of the invalid-encoding error. -/
theorem DecodeCursor_invalid_data (cursor : GoString) (b : List Nat) (err : GoError)
    (hb : DecodeString cursor = (b, none))
    (hj : (Unmarshal b CursorData.zero).2 = some err) :
    DecodeCursor cursor =
        (CursorData.zero, some (Errorf "pageable: invalid cursor data: ".toList err)) ∧
      "invalid cursor data".toList <:+:
        GoError.Error (Errorf "pageable: invalid cursor data: ".toList err) ∧
      ¬ ("pageable: invalid cursor encoding".toList <+:
        GoError.Error (Errorf "pageable: invalid cursor data: ".toList err)) ∧
      ∀ offset : Nat,
        Errorf "pageable: invalid cursor data: ".toList err ≠
          Errorf "pageable: invalid cursor encoding: ".toList
            (GoError.CorruptInputError offset) := by
  have hmsg : GoError.Error (Errorf "pageable: invalid cursor data: ".toList err) =
      "pageable: invalid cursor data: ".toList ++ GoError.Error err := rfl
  refine ⟨?_, ?_, ?_, ?_⟩
  · unfold DecodeCursor
    rw [hb]
    simp only
    cases hu : Unmarshal b CursorData.zero with
    | mk d e =>
      rw [hu] at hj
      simp only at hj
      rw [hj]
  · rw [hmsg]
    exact ⟨"pageable: ".toList, ": ".toList ++ GoError.Error err, by simp⟩
  · rw [hmsg]
    intro hp
    have h1 := List.prefix_iff_eq_take.mp hp
    have h2 := congrArg (fun l => l.get? 25) h1
    simp at h2
  · intro offset hEq
    have h1 := congrArg GoError.Error hEq
    rw [hmsg] at h1
    have h2 := congrArg (fun l => l.get? 25) h1
    simp [Errorf, GoError.Error] at h2

/-- C8 at the token "bm90LWpzb24=", the base64 of "not-json". -/
theorem DecodeCursor_invalid_data_witness :
    DecodeCursor "bm90LWpzb24=".toList =
        (CursorData.zero,
          some (Errorf "pageable: invalid cursor data: ".toList GoError.SyntaxError)) ∧
      "invalid cursor data".toList <:+:
        GoError.Error (Errorf "pageable: invalid cursor data: ".toList GoError.SyntaxError) :=
  have h := DecodeCursor_invalid_data "bm90LWpzb24=".toList (toBytes "not-json".toList)
    GoError.SyntaxError (by decide) (by decide)
  ⟨h.1, h.2.1⟩

/-- C9: whenever `DecodeCursor` returns an error, the cursor data returned with
it is the zero value. -/
theorem DecodeCursor_error_zero (cursor : GoString) (h : (DecodeCursor cursor).2 ≠ none) :
    (DecodeCursor cursor).1 = CursorData.zero := by
  unfold DecodeCursor at h ⊢
  cases hd : DecodeString cursor with
  | mk b e =>
    rw [hd] at h
    cases e with
    | some offset => rfl
    | none =>
      simp only at h ⊢
      cases hu : Unmarshal b CursorData.zero with
      | mk d e2 =>
        rw [hu] at h
        cases e2 with
        | some err => rfl
        | none => exact absurd rfl h

/-- C9 at the base64 of `{"v":"x","d":5}`: the decoder has stored the value
"x" when it meets the number, and `DecodeCursor` still returns the zero value. -/
theorem DecodeCursor_error_zero_witness :
    (Unmarshal (DecodeString "eyJ2IjoieCIsImQiOjV9".toList).1 CursorData.zero).1.Value =
        "x".toList ∧
      (DecodeCursor "eyJ2IjoieCIsImQiOjV9".toList).1 = CursorData.zero :=
  ⟨by decide, DecodeCursor_error_zero "eyJ2IjoieCIsImQiOjV9".toList (by decide)⟩

/-! ## Lemmas: UTF-8 -/

theorem char_valid (c : Char) :
    c.toNat < 0xD800 ∨ (0xDFFF < c.toNat ∧ c.toNat < 0x110000) := c.valid

theorem DecodeRune_one (p0 : Nat) (rest : List Nat) (h0 : p0 < 0x80) :
    DecodeRune (p0 :: rest) = (p0, 1) := by
  unfold DecodeRune
  simp only
  rw [if_pos h0]

theorem DecodeRune_two (p0 b1 : Nat) (rest : List Nat) (h0 : 0xC2 ≤ p0) (h0' : p0 < 0xE0)
    (h1 : 0x80 ≤ b1) (h1' : b1 ≤ 0xBF) :
    DecodeRune (p0 :: b1 :: rest) = (p0 % 32 * 64 + b1 % 64, 2) := by
  unfold DecodeRune
  simp only [List.length_cons]
  rw [if_neg (show ¬ p0 < 0x80 by omega), if_neg (show ¬ (p0 < 0xC2 ∨ 0xF4 < p0) by omega)]
  have hsz : (if p0 < 224 then 2 else if p0 < 240 then 3 else 4) = 2 := if_pos h0'
  have hlo : (if p0 = 224 then 160 else if p0 = 240 then 144 else 128) = 128 := by
    rw [if_neg (by omega), if_neg (by omega)]
  have hhi : (if p0 = 237 then 159 else if p0 = 244 then 143 else 191) = 191 := by
    rw [if_neg (by omega), if_neg (by omega)]
  simp only [hsz, hlo, hhi]
  rw [if_neg (by omega), if_neg (by omega), if_pos (le_refl 2)]

theorem DecodeRune_three (p0 b1 b2 : Nat) (rest : List Nat) (h0 : 0xE0 ≤ p0) (h0' : p0 < 0xF0)
    (h1 : 0x80 ≤ b1) (h1' : b1 ≤ 0xBF) (hE0 : p0 = 0xE0 → 0xA0 ≤ b1) (hED : p0 = 0xED → b1 ≤ 0x9F)
    (h2 : 0x80 ≤ b2) (h2' : b2 ≤ 0xBF) :
    DecodeRune (p0 :: b1 :: b2 :: rest) = (p0 % 16 * 4096 + b1 % 64 * 64 + b2 % 64, 3) := by
  unfold DecodeRune
  simp only [List.length_cons]
  rw [if_neg (show ¬ p0 < 0x80 by omega), if_neg (show ¬ (p0 < 0xC2 ∨ 0xF4 < p0) by omega)]
  have hsz : (if p0 < 224 then 2 else if p0 < 240 then 3 else 4) = 3 := by
    rw [if_neg (by omega), if_pos h0']
  have hlo : (if p0 = 224 then 160 else if p0 = 240 then 144 else 128) ≤ b1 := by
    by_cases e : p0 = 224
    · rw [if_pos e]; exact hE0 e
    · rw [if_neg e, if_neg (by omega)]; exact h1
  have hhi : b1 ≤ (if p0 = 237 then 159 else if p0 = 244 then 143 else 191) := by
    by_cases e : p0 = 237
    · rw [if_pos e]; exact hED e
    · rw [if_neg e, if_neg (by omega)]; exact h1'
  simp only [hsz]
  rw [if_neg (by omega), if_neg (by omega), if_neg (by omega), if_neg (by omega),
    if_pos (le_refl 3)]

theorem DecodeRune_four (p0 b1 b2 b3 : Nat) (rest : List Nat) (h0 : 0xF0 ≤ p0)
    (h0' : p0 ≤ 0xF4) (h1 : 0x80 ≤ b1) (h1' : b1 ≤ 0xBF) (hF0 : p0 = 0xF0 → 0x90 ≤ b1)
    (hF4 : p0 = 0xF4 → b1 ≤ 0x8F) (h2 : 0x80 ≤ b2) (h2' : b2 ≤ 0xBF) (h3 : 0x80 ≤ b3)
    (h3' : b3 ≤ 0xBF) :
    DecodeRune (p0 :: b1 :: b2 :: b3 :: rest) =
      (p0 % 8 * 262144 + b1 % 64 * 4096 + b2 % 64 * 64 + b3 % 64, 4) := by
  unfold DecodeRune
  simp only [List.length_cons]
  rw [if_neg (show ¬ p0 < 0x80 by omega), if_neg (show ¬ (p0 < 0xC2 ∨ 0xF4 < p0) by omega)]
  have hsz : (if p0 < 224 then 2 else if p0 < 240 then 3 else 4) = 4 := by
    rw [if_neg (by omega), if_neg (by omega)]
  have hlo : (if p0 = 224 then 160 else if p0 = 240 then 144 else 128) ≤ b1 := by
    by_cases e : p0 = 240
    · rw [if_neg (by omega), if_pos e]; exact hF0 e
    · rw [if_neg (by omega), if_neg e]; exact h1
  have hhi : b1 ≤ (if p0 = 237 then 159 else if p0 = 244 then 143 else 191) := by
    by_cases e : p0 = 244
    · rw [if_neg (by omega), if_pos e]; exact hF4 e
    · rw [if_neg (by omega), if_neg e]; exact h1'
  simp only [hsz]
  rw [if_neg (by omega), if_neg (by omega), if_neg (by omega), if_neg (by omega),
    if_neg (by omega), if_neg (by omega)]

theorem DecodeRune_utf8EncodeChar (c : Char) (rest : List Nat) :
    DecodeRune (utf8EncodeChar c ++ rest) = (c.toNat, (utf8EncodeChar c).length) := by
  have hv := char_valid c
  unfold utf8EncodeChar
  simp only
  generalize c.toNat = r at hv ⊢
  by_cases h1 : r ≤ 0x7F
  · rw [if_pos h1]
    exact DecodeRune_one r rest (by omega)
  · rw [if_neg h1]
    by_cases h2 : r ≤ 0x7FF
    · rw [if_pos h2]
      simp only [List.cons_append, List.nil_append, List.length_cons, List.length_nil]
      rw [DecodeRune_two _ _ _ (by omega) (by omega) (by omega) (by omega)]
      simp only [Prod.mk.injEq, and_true]
      omega
    · rw [if_neg h2]
      by_cases h3 : r ≤ 0xFFFF
      · rw [if_pos h3]
        simp only [List.cons_append, List.nil_append, List.length_cons, List.length_nil]
        rw [DecodeRune_three _ _ _ _ (by omega) (by omega) (by omega) (by omega) (by omega)
          (by omega) (by omega) (by omega)]
        simp only [Prod.mk.injEq, and_true]
        omega
      · rw [if_neg h3]
        simp only [List.cons_append, List.nil_append, List.length_cons, List.length_nil]
        rw [DecodeRune_four _ _ _ _ _ (by omega) (by omega) (by omega) (by omega) (by omega)
          (by omega) (by omega) (by omega) (by omega) (by omega)]
        simp only [Prod.mk.injEq, and_true]
        omega

/-! ## Lemmas: base64 round trip -/

set_option maxRecDepth 100000 in
theorem encodeByte_spec (i : Nat) (h : i < 64) :
    encodeByte i < 128 ∧ decodeMap (encodeByte i) = i ∧ decodeMap (encodeByte i) ≠ 0xFF := by
  have key : ∀ n, n < 64 →
      encodeByte n < 128 ∧ decodeMap (encodeByte n) = n ∧ decodeMap (encodeByte n) ≠ 0xFF := by
    decide
  exact key i h

theorem decodeMap_padChar : decodeMap 61 = 0xFF := by decide

theorem decodeQuantum_valid (srcLen : Nat) (dbuf : List Nat) (c : Nat) (cs : List Nat) (si : Nat)
    (hc : decodeMap c ≠ 0xFF) (hl : dbuf.length ≠ 3) :
    decodeQuantum srcLen dbuf (c :: cs) si =
      decodeQuantum srcLen (dbuf ++ [decodeMap c]) cs (si + 1) := by
  rw [decodeQuantum, if_pos hc, if_neg hl]

theorem decodeQuantum_last (srcLen : Nat) (dbuf : List Nat) (c : Nat) (cs : List Nat) (si : Nat)
    (hc : decodeMap c ≠ 0xFF) (hl : dbuf.length = 3) :
    decodeQuantum srcLen dbuf (c :: cs) si =
      { rest := cs, si := si + 1, out := quantumBytes (dbuf ++ [decodeMap c]), err := none } := by
  rw [decodeQuantum, if_pos hc, if_pos hl]

theorem decodeQuantum_full (srcLen : Nat) (i0 i1 i2 i3 : Nat) (rest : List Nat) (si : Nat)
    (h0 : i0 < 64) (h1 : i1 < 64) (h2 : i2 < 64) (h3 : i3 < 64) :
    decodeQuantum srcLen [] (encodeByte i0 :: encodeByte i1 :: encodeByte i2 :: encodeByte i3 :: rest)
        si =
      { rest := rest, si := si + 1 + 1 + 1 + 1, out := quantumBytes [i0, i1, i2, i3],
        err := none } := by
  obtain ⟨_, e0, n0⟩ := encodeByte_spec i0 h0
  obtain ⟨_, e1, n1⟩ := encodeByte_spec i1 h1
  obtain ⟨_, e2, n2⟩ := encodeByte_spec i2 h2
  obtain ⟨_, e3, n3⟩ := encodeByte_spec i3 h3
  rw [decodeQuantum_valid _ _ _ _ _ n0 (by simp), decodeQuantum_valid _ _ _ _ _ n1 (by simp),
    decodeQuantum_valid _ _ _ _ _ n2 (by simp), decodeQuantum_last _ _ _ _ _ n3 (by simp),
    e0, e1, e2, e3]
  rfl

theorem decodeQuantum_pad1 (srcLen : Nat) (i0 i1 i2 : Nat) (si : Nat)
    (h0 : i0 < 64) (h1 : i1 < 64) (h2 : i2 < 64) :
    decodeQuantum srcLen [] [encodeByte i0, encodeByte i1, encodeByte i2, padChar] si =
      { rest := [], si := si + 1 + 1 + 1 + 1, out := quantumBytes [i0, i1, i2], err := none } := by
  obtain ⟨_, e0, n0⟩ := encodeByte_spec i0 h0
  obtain ⟨_, e1, n1⟩ := encodeByte_spec i1 h1
  obtain ⟨_, e2, n2⟩ := encodeByte_spec i2 h2
  rw [decodeQuantum_valid _ _ _ _ _ n0 (by simp), decodeQuantum_valid _ _ _ _ _ n1 (by simp),
    decodeQuantum_valid _ _ _ _ _ n2 (by simp), e0, e1, e2]
  rw [decodeQuantum]
  simp [decodeMap_padChar, padChar, skipNewlines]

theorem decodeQuantum_pad2 (srcLen : Nat) (i0 i1 : Nat) (si : Nat)
    (h0 : i0 < 64) (h1 : i1 < 64) :
    decodeQuantum srcLen [] [encodeByte i0, encodeByte i1, padChar, padChar] si =
      { rest := [], si := si + 1 + 1 + 1 + 1, out := quantumBytes [i0, i1], err := none } := by
  obtain ⟨_, e0, n0⟩ := encodeByte_spec i0 h0
  obtain ⟨_, e1, n1⟩ := encodeByte_spec i1 h1
  rw [decodeQuantum_valid _ _ _ _ _ n0 (by simp), decodeQuantum_valid _ _ _ _ _ n1 (by simp),
    e0, e1]
  rw [decodeQuantum]
  simp [decodeMap_padChar, padChar, skipNewlines]

theorem quantumBytes_three (a b c : Nat) (ha : a < 256) (hb : b < 256) (hc : c < 256) :
    quantumBytes [(a * 65536 + b * 256 + c) / 262144 % 64, (a * 65536 + b * 256 + c) / 4096 % 64,
      (a * 65536 + b * 256 + c) / 64 % 64, (a * 65536 + b * 256 + c) % 64] = [a, b, c] := by
  simp only [quantumBytes, List.getD_cons_zero, List.getD_cons_succ, List.length_cons,
    List.length_nil]
  simp only [List.take, List.cons.injEq, and_true]
  refine ⟨?_, ?_, ?_⟩ <;> omega

theorem quantumBytes_two (a b : Nat) (ha : a < 256) (hb : b < 256) :
    quantumBytes [(a * 65536 + b * 256) / 262144 % 64, (a * 65536 + b * 256) / 4096 % 64,
      (a * 65536 + b * 256) / 64 % 64] = [a, b] := by
  simp only [quantumBytes, List.getD_cons_zero, List.getD_cons_succ, List.length_cons,
    List.length_nil, List.getD_nil]
  simp only [List.take, List.cons.injEq, and_true]
  refine ⟨?_, ?_⟩ <;> omega

theorem quantumBytes_one (a : Nat) (ha : a < 256) :
    quantumBytes [(a * 65536) / 262144 % 64, (a * 65536) / 4096 % 64] = [a] := by
  simp only [quantumBytes, List.getD_cons_zero, List.getD_cons_succ, List.length_cons,
    List.length_nil, List.getD_nil]
  simp only [List.take, List.cons.injEq, and_true]
  omega

theorem decodeLoop_nil (srcLen fuel si : Nat) : decodeLoop srcLen fuel [] si = ([], none) := by
  cases fuel with
  | zero => rfl
  | succ n => simp [decodeLoop]

theorem decodeLoop_encodeLoop (srcLen : Nat) (bs : List Nat) :
    ∀ (fuel si : Nat), (∀ b ∈ bs, b < 256) → (encodeLoop bs).length ≤ fuel →
      decodeLoop srcLen fuel (encodeLoop bs) si = (bs, none) := by
  induction bs using encodeLoop.induct with
  | case1 =>
    intro fuel si _ _
    exact decodeLoop_nil _ _ _
  | case2 a =>
    intro fuel si hb hf
    have ha : a < 256 := hb a (by simp)
    cases fuel with
    | zero => simp [encodeLoop] at hf
    | succ n =>
      simp only [encodeLoop]
      rw [decodeLoop, if_neg (by simp)]
      simp only
      rw [decodeQuantum_pad2 _ _ _ _ (Nat.mod_lt _ (by decide)) (Nat.mod_lt _ (by decide))]
      simp only [decodeLoop_nil, List.append_nil]
      rw [quantumBytes_one a ha]
  | case3 a b =>
    intro fuel si hb hf
    have ha : a < 256 := hb a (by simp)
    have hb' : b < 256 := hb b (by simp)
    cases fuel with
    | zero => simp [encodeLoop] at hf
    | succ n =>
      simp only [encodeLoop]
      rw [decodeLoop, if_neg (by simp)]
      simp only
      rw [decodeQuantum_pad1 _ _ _ _ _ (Nat.mod_lt _ (by decide)) (Nat.mod_lt _ (by decide))
        (Nat.mod_lt _ (by decide))]
      simp only [decodeLoop_nil, List.append_nil]
      rw [quantumBytes_two a b ha hb']
  | case4 a b c rest ih =>
    intro fuel si hb hf
    have ha : a < 256 := hb a (by simp)
    have hb' : b < 256 := hb b (by simp)
    have hc : c < 256 := hb c (by simp)
    have hrest : ∀ x ∈ rest, x < 256 := fun x hx => hb x (by simp [hx])
    cases fuel with
    | zero => simp [encodeLoop] at hf
    | succ n =>
      simp only [encodeLoop] at hf ⊢
      rw [decodeLoop, if_neg (by simp)]
      simp only
      rw [decodeQuantum_full _ _ _ _ _ _ _ (Nat.mod_lt _ (by decide))
        (Nat.mod_lt _ (by decide)) (Nat.mod_lt _ (by decide)) (Nat.mod_lt _ (by decide))]
      simp only
      rw [ih n _ hrest (by simp only [List.length_cons] at hf; omega)]
      rw [quantumBytes_three a b c ha hb' hc]
      rfl

theorem encodeLoop_lt (bs : List Nat) : ∀ x ∈ encodeLoop bs, x < 128 := by
  induction bs using encodeLoop.induct with
  | case1 => intro x hx; simp [encodeLoop] at hx
  | case2 a =>
    intro x hx
    simp only [encodeLoop, List.mem_cons, List.mem_singleton, List.not_mem_nil, or_false] at hx
    rcases hx with h | h | h | h
    · rw [h]; exact (encodeByte_spec _ (Nat.mod_lt _ (by decide))).1
    · rw [h]; exact (encodeByte_spec _ (Nat.mod_lt _ (by decide))).1
    · rw [h]; decide
    · rw [h]; decide
  | case3 a b =>
    intro x hx
    simp only [encodeLoop, List.mem_cons, List.mem_singleton, List.not_mem_nil, or_false] at hx
    rcases hx with h | h | h | h
    · rw [h]; exact (encodeByte_spec _ (Nat.mod_lt _ (by decide))).1
    · rw [h]; exact (encodeByte_spec _ (Nat.mod_lt _ (by decide))).1
    · rw [h]; exact (encodeByte_spec _ (Nat.mod_lt _ (by decide))).1
    · rw [h]; decide
  | case4 a b c rest ih =>
    intro x hx
    simp only [encodeLoop, List.mem_cons] at hx
    rcases hx with h | h | h | h | h
    · rw [h]; exact (encodeByte_spec _ (Nat.mod_lt _ (by decide))).1
    · rw [h]; exact (encodeByte_spec _ (Nat.mod_lt _ (by decide))).1
    · rw [h]; exact (encodeByte_spec _ (Nat.mod_lt _ (by decide))).1
    · rw [h]; exact (encodeByte_spec _ (Nat.mod_lt _ (by decide))).1
    · exact ih x h

theorem utf8EncodeChar_ofNat (b : Nat) (h : b < 128) : utf8EncodeChar (Char.ofNat b) = [b] := by
  unfold utf8EncodeChar
  simp only
  rw [toNat_ofNat_of_lt b (by omega), if_pos (by omega)]

theorem toBytes_map_ofNat (l : List Nat) (h : ∀ x ∈ l, x < 128) :
    toBytes (l.map Char.ofNat) = l := by
  induction l with
  | nil => rfl
  | cons x xs ih =>
    simp only [List.map_cons, toBytes]
    rw [utf8EncodeChar_ofNat x (h x (by simp)), ih (fun y hy => h y (by simp [hy]))]
    rfl

/-- Decoding what `EncodeToString` produced gives the bytes back. -/
theorem DecodeString_EncodeToString (bs : List Nat) (hb : ∀ b ∈ bs, b < 256) :
    DecodeString (EncodeToString bs) = (bs, none) := by
  unfold DecodeString EncodeToString
  rw [toBytes_map_ofNat _ (encodeLoop_lt bs)]
  exact decodeLoop_encodeLoop _ bs _ 0 hb (Nat.le_refl _)

/-! ## Lemmas: JSON string literals -/

theorem hexVal_hexDigits (n : Nat) (h : n < 16) : hexVal (hexDigits.getD n 0) = some n := by
  have key : ∀ k, k < 16 → hexVal (hexDigits.getD k 0) = some k := by decide
  exact key n h

theorem stringStep_plain (c : Nat) (cs : List Nat) (h1 : c ≠ 0x22) (h2 : c ≠ 0x5C)
    (h3 : ¬ c < 0x20) (h4 : c < 0x80) :
    stringStep (c :: cs) = StringStep.char (Char.ofNat c) cs := by
  unfold stringStep
  simp only [if_neg h1, if_neg h2, if_neg h3, if_pos h4]

theorem stringStep_esc (e : Nat) (cs : List Nat) (ch : Char) (he : e ≠ 0x75)
    (hs : simpleEscape e = some ch) :
    stringStep (0x5C :: e :: cs) = StringStep.char ch cs := by
  unfold stringStep
  simp only [if_neg (show ¬ (0x5C : Nat) = 0x22 by decide), if_true, if_neg he, hs]

theorem stringStep_u (a b c d : Nat) (cs : List Nat) (x y z w : Nat)
    (ha : hexVal a = some x) (hb : hexVal b = some y) (hc : hexVal c = some z)
    (hd : hexVal d = some w)
    (hns : ¬ (0xD800 ≤ ((x * 16 + y) * 16 + z) * 16 + w ∧
      ((x * 16 + y) * 16 + z) * 16 + w < 0xE000)) :
    stringStep (0x5C :: 0x75 :: a :: b :: c :: d :: cs) =
      StringStep.char (Char.ofNat (((x * 16 + y) * 16 + z) * 16 + w)) cs := by
  unfold stringStep
  simp only [if_neg (show ¬ (0x5C : Nat) = 0x22 by decide), if_true]
  unfold unicodeEscape getu4
  simp only [ha, hb, hc, hd, if_neg hns]
  rfl

theorem stringStep_multi (p0 : Nat) (cs : List Nat) (h : 0x80 ≤ p0) :
    stringStep (p0 :: cs) =
      StringStep.char (Char.ofNat (DecodeRune (p0 :: cs)).1)
        ((p0 :: cs).drop (DecodeRune (p0 :: cs)).2) := by
  unfold stringStep
  simp only [if_neg (show ¬ p0 = 0x22 by omega), if_neg (show ¬ p0 = 0x5C by omega),
    if_neg (show ¬ p0 < 0x20 by omega), if_neg (show ¬ p0 < 0x80 by omega)]

theorem utf8EncodeChar_head (c : Char) (h : 0x80 ≤ c.toNat) :
    ∃ p0 t, utf8EncodeChar c = p0 :: t ∧ 0x80 ≤ p0 := by
  unfold utf8EncodeChar
  simp only
  rw [if_neg (by omega)]
  by_cases h2 : c.toNat ≤ 0x7FF
  · rw [if_pos h2]; exact ⟨_, _, rfl, by omega⟩
  · rw [if_neg h2]
    by_cases h3 : c.toNat ≤ 0xFFFF
    · rw [if_pos h3]; exact ⟨_, _, rfl, by omega⟩
    · rw [if_neg h3]; exact ⟨_, _, rfl, by omega⟩

/-- One iteration of the string loop reads back exactly the code point that
`appendString` wrote. -/
theorem stringStep_appendStringChar (c : Char) (tail : List Nat) :
    stringStep (appendStringChar c ++ tail) = StringStep.char c tail := by
  have hof : Char.ofNat c.toNat = c := Char.ofNat_toNat c
  have hceq : ∀ d : Char, c.toNat = d.toNat → d = c :=
    fun d hd => ((char_eq_iff_toNat c d).mpr hd).symm
  unfold appendStringChar
  simp only
  by_cases h80 : c.toNat < 0x80
  · rw [if_pos h80]
    by_cases hs : htmlSafe c.toNat = true
    · rw [if_pos hs]
      have hs' := hs
      simp only [htmlSafe, Bool.and_eq_true, decide_eq_true_eq, bne_iff_ne, ne_eq] at hs'
      rw [List.singleton_append, stringStep_plain _ _ (by omega) (by omega) (by omega) h80, hof]
    · rw [if_neg hs]
      have hs' : ¬ (0x20 ≤ c.toNat ∧ c.toNat ≠ 0x22 ∧ c.toNat ≠ 0x26 ∧ c.toNat ≠ 0x3C ∧
          c.toNat ≠ 0x3E ∧ c.toNat ≠ 0x5C) := by
        intro hh
        apply hs
        simp only [htmlSafe, Bool.and_eq_true, decide_eq_true_eq, bne_iff_ne, ne_eq]
        omega
      by_cases hq : c.toNat = 0x5C ∨ c.toNat = 0x22
      · rw [if_pos hq]
        rcases hq with e | e
        · rw [e]
          exact (stringStep_esc _ _ '\\' (by decide) (by decide)).trans
            (by rw [hceq '\\' e]; rfl)
        · rw [e]
          exact (stringStep_esc _ _ '"' (by decide) (by decide)).trans
            (by rw [hceq '"' e]; rfl)
      · rw [if_neg hq]
        by_cases e8 : c.toNat = 0x08
        · rw [if_pos e8]
          exact (stringStep_esc _ _ (Char.ofNat 8) (by decide) (by decide)).trans
            (by rw [hceq (Char.ofNat 8) e8]; rfl)
        · rw [if_neg e8]
          by_cases eC : c.toNat = 0x0C
          · rw [if_pos eC]
            exact (stringStep_esc _ _ (Char.ofNat 12) (by decide) (by decide)).trans
              (by rw [hceq (Char.ofNat 12) eC]; rfl)
          · rw [if_neg eC]
            by_cases eA : c.toNat = 0x0A
            · rw [if_pos eA]
              exact (stringStep_esc _ _ (Char.ofNat 10) (by decide) (by decide)).trans
                (by rw [hceq (Char.ofNat 10) eA]; rfl)
            · rw [if_neg eA]
              by_cases eD : c.toNat = 0x0D
              · rw [if_pos eD]
                exact (stringStep_esc _ _ (Char.ofNat 13) (by decide) (by decide)).trans
                  (by rw [hceq (Char.ofNat 13) eD]; rfl)
              · rw [if_neg eD]
                by_cases e9 : c.toNat = 0x09
                · rw [if_pos e9]
                  exact (stringStep_esc _ _ (Char.ofNat 9) (by decide) (by decide)).trans
                    (by rw [hceq (Char.ofNat 9) e9]; rfl)
                · rw [if_neg e9]
                  have hx := stringStep_u 0x30 0x30 (hexDigits.getD (c.toNat / 16) 0)
                    (hexDigits.getD (c.toNat % 16) 0) tail 0 0 (c.toNat / 16) (c.toNat % 16)
                    (by decide) (by decide) (hexVal_hexDigits _ (by omega))
                    (hexVal_hexDigits _ (by omega)) (by omega)
                  have hval : ((0 * 16 + 0) * 16 + c.toNat / 16) * 16 + c.toNat % 16 = c.toNat := by
                    omega
                  rw [hval, hof] at hx
                  exact hx
  · rw [if_neg h80]
    by_cases hls : c.toNat = 0x2028 ∨ c.toNat = 0x2029
    · rw [if_pos hls]
      have hx := stringStep_u 0x32 0x30 0x32 (hexDigits.getD (c.toNat % 16) 0) tail 2 0 2
        (c.toNat % 16) (by decide) (by decide) (by decide) (hexVal_hexDigits _ (by omega))
        (by omega)
      have hval : ((2 * 16 + 0) * 16 + 2) * 16 + c.toNat % 16 = c.toNat := by omega
      rw [hval, hof] at hx
      exact hx
    · rw [if_neg hls]
      obtain ⟨p0, t, hp, hp0⟩ := utf8EncodeChar_head c (by omega)
      have hd := DecodeRune_utf8EncodeChar c tail
      rw [hp] at hd ⊢
      rw [List.cons_append, stringStep_multi _ _ hp0]
      rw [← List.cons_append, hd]
      simp only [List.drop_left, hof]

/-- The string loop reads back the text that `appendString` wrote. -/
theorem parseStringBody_appendStringBody (s : GoString) :
    ∀ (fuel : Nat) (tail : List Nat), s.length + 1 ≤ fuel →
      parseStringBody fuel (appendStringBody s ++ 0x22 :: tail) = some (s, tail) := by
  induction s with
  | nil =>
    intro fuel tail hf
    cases fuel with
    | zero => omega
    | succ n =>
      simp only [appendStringBody, List.nil_append, parseStringBody]
      have : stringStep (0x22 :: tail) = StringStep.done tail := by
        unfold stringStep
        simp only [if_true]
      rw [this]
  | cons c cs ih =>
    intro fuel tail hf
    cases fuel with
    | zero => omega
    | succ n =>
      simp only [appendStringBody, List.append_assoc, parseStringBody]
      rw [stringStep_appendStringChar]
      simp only
      rw [ih n tail (by simp only [List.length_cons] at hf; omega)]
      rfl

/-! ## Lemmas: JSON objects -/

theorem appendStringChar_length (c : Char) : 1 ≤ (appendStringChar c).length := by
  unfold appendStringChar utf8EncodeChar
  simp only
  split_ifs <;> simp

theorem appendStringBody_length (s : GoString) : s.length ≤ (appendStringBody s).length := by
  induction s with
  | nil => simp [appendStringBody]
  | cons c cs ih =>
    simp only [appendStringBody, List.length_cons, List.length_append]
    have := appendStringChar_length c
    omega

theorem parseString_appendString (s : GoString) (tail : List Nat) :
    parseStringBody (appendStringBody s ++ 0x22 :: tail).length
      (appendStringBody s ++ 0x22 :: tail) = some (s, tail) := by
  apply parseStringBody_appendStringBody
  have := appendStringBody_length s
  simp only [List.length_append, List.length_cons]
  omega

theorem parseValue_string (fuel depth : Nat) (s : GoString) (tail : List Nat) :
    parseValue (fuel + 1) depth (appendString s ++ tail) = some (JValue.str s, tail) := by
  unfold appendString
  rw [List.cons_append, List.append_assoc, List.singleton_append]
  rw [parseValue]
  simp only [if_neg (show ¬ (0x22 : Nat) = 0x7B by decide),
    if_neg (show ¬ (0x22 : Nat) = 0x5B by decide), if_true, parseString_appendString]

theorem skipSpace_cons (c : Nat) (cs : List Nat) (h : isJsonSpace c = false) :
    skipSpace (c :: cs) = c :: cs := by
  unfold skipSpace
  rw [List.dropWhile_cons_of_neg (by rw [h]; exact Bool.noConfusion)]

theorem skipSpace_appendString (s : GoString) (tail : List Nat) :
    skipSpace (appendString s ++ tail) = appendString s ++ tail := by
  unfold appendString
  rw [List.cons_append]
  exact skipSpace_cons _ _ (by decide)

theorem parseValue_string_le (fuel depth : Nat) (s : GoString) (tail : List Nat)
    (hf : 1 ≤ fuel) :
    parseValue fuel depth (appendString s ++ tail) = some (JValue.str s, tail) := by
  obtain ⟨f, rfl⟩ : ∃ f, fuel = f + 1 := ⟨fuel - 1, by omega⟩
  exact parseValue_string f depth s tail

/-- One member of an object followed by the closing brace. -/
theorem parseMembers_last (fuel depth : Nat) (k : GoString) (venc : List Nat) (v : JValue)
    (tail : List Nat) (hsp : skipSpace (venc ++ 0x7D :: tail) = venc ++ 0x7D :: tail)
    (hv : parseValue fuel depth (venc ++ 0x7D :: tail) = some (v, 0x7D :: tail)) :
    parseMembers (fuel + 1) depth (appendString k ++ 0x3A :: (venc ++ 0x7D :: tail)) =
      some (JValue.obj [(k, v)], tail) := by
  unfold appendString
  rw [List.cons_append, List.append_assoc, List.singleton_append]
  rw [parseMembers]
  simp only [if_true, parseString_appendString, skipSpace_cons 0x3A _ (by decide), hsp, hv,
    skipSpace_cons 0x7D _ (by decide)]

/-- One member of an object followed by a comma and further members. -/
theorem parseMembers_more (fuel depth : Nat) (k : GoString) (venc : List Nat) (v : JValue)
    (more : List Nat) (ms : List (GoString × JValue)) (tail : List Nat)
    (hsp : skipSpace (venc ++ 0x2C :: more) = venc ++ 0x2C :: more)
    (hv : parseValue fuel depth (venc ++ 0x2C :: more) = some (v, 0x2C :: more))
    (hsm : skipSpace more = more)
    (hm : parseMembers fuel depth more = some (JValue.obj ms, tail)) :
    parseMembers (fuel + 1) depth (appendString k ++ 0x3A :: (venc ++ 0x2C :: more)) =
      some (JValue.obj ((k, v) :: ms), tail) := by
  unfold appendString
  rw [List.cons_append, List.append_assoc, List.singleton_append]
  rw [parseMembers]
  simp only [if_true, parseString_appendString, skipSpace_cons 0x3A _ (by decide), hsp, hv,
    skipSpace_cons 0x2C _ (by decide), hsm, hm,
    if_neg (show ¬ (0x2C : Nat) = 0x7D by decide)]

theorem encodeEntries_cons_nil (k v : GoString) :
    encodeEntries [(k, v)] = appendString k ++ 0x3A :: appendString v := by
  simp [encodeEntries]

theorem encodeEntries_cons_cons (k v : GoString) (p : GoString × GoString)
    (rest : List (GoString × GoString)) :
    encodeEntries ((k, v) :: p :: rest) =
      appendString k ++ 0x3A :: (appendString v ++ 0x2C :: encodeEntries (p :: rest)) := by
  simp [encodeEntries]

theorem skipSpace_encodeEntries (p : GoString × GoString) (rest : List (GoString × GoString))
    (tail : List Nat) :
    skipSpace (encodeEntries (p :: rest) ++ tail) = encodeEntries (p :: rest) ++ tail := by
  obtain ⟨k, v⟩ := p
  cases rest with
  | nil =>
    rw [encodeEntries_cons_nil, List.append_assoc]
    exact skipSpace_appendString _ _
  | cons q rest =>
    rw [encodeEntries_cons_cons, List.append_assoc]
    exact skipSpace_appendString _ _

/-- The members written by `mapEncoder` are read back as string members. -/
theorem parseMembers_encodeEntries (depth : Nat) (es : List (GoString × GoString)) :
    ∀ (p : GoString × GoString) (fuel : Nat) (tail : List Nat), es.length + 2 ≤ fuel →
      parseMembers fuel depth (encodeEntries (p :: es) ++ 0x7D :: tail) =
        some (JValue.obj ((p :: es).map (fun q => (q.1, JValue.str q.2))), tail) := by
  induction es with
  | nil =>
    intro p fuel tail hf
    obtain ⟨k, v⟩ := p
    obtain ⟨f, rfl⟩ : ∃ f, fuel = f + 1 := ⟨fuel - 1, by simp at hf; omega⟩
    rw [encodeEntries_cons_nil, List.append_assoc, List.cons_append]
    exact parseMembers_last f depth k (appendString v) (JValue.str v) tail
      (skipSpace_appendString _ _) (parseValue_string_le _ _ _ _ (by simp at hf; omega))
  | cons q rest ih =>
    intro p fuel tail hf
    obtain ⟨k, v⟩ := p
    obtain ⟨f, rfl⟩ : ∃ f, fuel = f + 1 := ⟨fuel - 1, by simp at hf; omega⟩
    simp only [List.length_cons] at hf
    rw [encodeEntries_cons_cons, List.append_assoc, List.cons_append, List.append_assoc,
      List.cons_append]
    exact parseMembers_more f depth k (appendString v) (JValue.str v) _ _ tail
      (skipSpace_appendString _ _) (parseValue_string_le _ _ _ _ (by omega))
      (skipSpace_encodeEntries _ _ _) (ih q f tail (by omega))

theorem sortEntries_length (l : List (GoString × GoString)) :
    (sortEntries l).length = l.length := List.length_insertionSort _ l

theorem skipSpace_encodeMap (m : StringMap) (tail : List Nat) :
    skipSpace (encodeMap m ++ tail) = encodeMap m ++ tail := by
  cases m with
  | none => exact skipSpace_cons _ _ (by decide)
  | some l => exact skipSpace_cons _ _ (by decide)

theorem parseValue_encodeMap (m : StringMap) (fuel depth : Nat) (tail : List Nat)
    (hd : depth < maxNestingDepth) (hf : (m.getD []).length + 3 ≤ fuel) :
    parseValue fuel depth (encodeMap m ++ tail) = some (jsonOfMap m, tail) := by
  obtain ⟨f, rfl⟩ : ∃ f, fuel = f + 1 := ⟨fuel - 1, by omega⟩
  cases m with
  | none =>
    show parseValue (f + 1) depth (0x6E :: 0x75 :: 0x6C :: 0x6C :: tail) = _
    rw [parseValue]
    simp [parseLiteral, jsonOfMap]
  | some l =>
    simp only [Option.getD_some] at hf
    show parseValue (f + 1) depth (0x7B :: (encodeEntries (sortEntries l) ++ [0x7D]) ++ tail) = _
    rw [List.cons_append, List.append_assoc, List.singleton_append, parseValue]
    simp only [if_true, if_neg (Nat.not_le.mpr hd), jsonOfMap]
    have hlen := sortEntries_length l
    cases hs : sortEntries l with
    | nil =>
      simp only [encodeEntries, List.nil_append, skipSpace_cons 0x7D _ (by decide), if_true,
        List.map_nil]
    | cons p es =>
      rw [hs] at hlen
      simp only [List.length_cons] at hlen
      rw [skipSpace_encodeEntries]
      have hne : ∃ c1 r1, encodeEntries (p :: es) ++ 0x7D :: tail = c1 :: r1 ∧ c1 = 0x22 := by
        obtain ⟨k, v⟩ := p
        cases es with
        | nil => exact ⟨_, _, by rw [encodeEntries_cons_nil]; rfl, rfl⟩
        | cons q es => exact ⟨_, _, by rw [encodeEntries_cons_cons]; rfl, rfl⟩
      obtain ⟨c1, r1, he, hc1⟩ := hne
      have hpm := parseMembers_encodeEntries (depth + 1) es p f tail (by omega)
      rw [he] at hpm ⊢
      simp only [if_neg (show ¬ c1 = 0x7D by omega), hpm]

theorem encodeEntries_length (es : List (GoString × GoString)) :
    es.length ≤ (encodeEntries es).length := by
  induction es with
  | nil => simp
  | cons p rest ih =>
    obtain ⟨k, v⟩ := p
    cases rest with
    | nil => simp [encodeEntries, appendString]
    | cons q rest =>
      rw [encodeEntries_cons_cons]
      simp only [List.length_append, List.length_cons] at ih ⊢
      omega

theorem encodeMap_length (m : StringMap) : (m.getD []).length + 2 ≤ (encodeMap m).length := by
  cases m with
  | none => decide
  | some l =>
    have h1 := encodeEntries_length (sortEntries l)
    rw [sortEntries_length] at h1
    simp only [Option.getD_some, encodeMap, List.length_cons, List.length_append,
      List.length_nil]
    omega

theorem parseMembers_struct (d : CursorData) (fuel : Nat)
    (hf : (d.Extra.getD []).length + 6 ≤ fuel) :
    parseMembers fuel 1
        (appendString "v".toList ++ 0x3A :: (appendString d.Value ++
          0x2C :: (appendString "d".toList ++ 0x3A :: (appendString d.Direction ++
          0x2C :: (appendString "e".toList ++ 0x3A :: (encodeMap d.Extra ++ [0x7D])))))) =
      some (JValue.obj [("v".toList, JValue.str d.Value), ("d".toList, JValue.str d.Direction),
        ("e".toList, jsonOfMap d.Extra)], []) := by
  obtain ⟨f1, rfl⟩ : ∃ f, fuel = f + 1 := ⟨fuel - 1, by omega⟩
  obtain ⟨f2, rfl⟩ : ∃ f, f1 = f + 1 := ⟨f1 - 1, by omega⟩
  obtain ⟨f3, rfl⟩ : ∃ f, f2 = f + 1 := ⟨f2 - 1, by omega⟩
  have h3 : parseMembers (f3 + 1) 1 (appendString "e".toList ++ 0x3A :: (encodeMap d.Extra ++ [0x7D]))
      = some (JValue.obj [("e".toList, jsonOfMap d.Extra)], []) :=
    parseMembers_last f3 1 _ (encodeMap d.Extra) _ [] (skipSpace_encodeMap _ _)
      (parseValue_encodeMap _ _ _ _ (by decide) (by omega))
  have h2 := parseMembers_more (f3 + 1) 1 "d".toList (appendString d.Direction)
    (JValue.str d.Direction) _ _ [] (skipSpace_appendString _ _)
    (parseValue_string_le _ _ _ _ (by omega)) (skipSpace_appendString _ _) h3
  exact parseMembers_more (f3 + 1 + 1) 1 "v".toList (appendString d.Value)
    (JValue.str d.Value) _ _ [] (skipSpace_appendString _ _)
    (parseValue_string_le _ _ _ _ (by omega)) (skipSpace_appendString _ _) h2

theorem Marshal_length (d : CursorData) :
    (d.Extra.getD []).length + 6 ≤ (Marshal d).1.length := by
  have h := encodeMap_length d.Extra
  simp only [Marshal, List.length_cons, List.length_append, List.length_nil]
  omega

theorem Marshal_parse (d : CursorData) :
    parseTop (Marshal d).1 =
      some (JValue.obj [("v".toList, JValue.str d.Value), ("d".toList, JValue.str d.Direction),
        ("e".toList, jsonOfMap d.Extra)]) := by
  have hlen := Marshal_length d
  have hpm := parseMembers_struct d (Marshal d).1.length hlen
  unfold parseTop
  generalize (Marshal d).1.length = n at hpm ⊢
  have hm : (Marshal d).1 = 0x7B :: (0x22 :: (appendStringBody "v".toList ++ [0x22]) ++
      0x3A :: (appendString d.Value ++
          0x2C :: (appendString "d".toList ++ 0x3A :: (appendString d.Direction ++
          0x2C :: (appendString "e".toList ++ 0x3A :: (encodeMap d.Extra ++ [0x7D])))))) := rfl
  rw [hm, skipSpace_cons 0x7B _ (by decide), parseValue]
  simp only [if_true, if_neg (show ¬ maxNestingDepth ≤ 0 by decide), List.cons_append,
    skipSpace_cons 0x22 _ (by decide), if_neg (show ¬ (0x22 : Nat) = 0x7D by decide)]
  have hpm2 : parseMembers n (0 + 1)
      (0x22 :: (appendStringBody "v".toList ++ [0x22] ++
      0x3A :: (appendString d.Value ++
          0x2C :: (appendString "d".toList ++ 0x3A :: (appendString d.Direction ++
          0x2C :: (appendString "e".toList ++ 0x3A :: (encodeMap d.Extra ++ [0x7D]))))))) = _ :=
    hpm
  rw [hpm2]
  rfl

/-! ## Lemmas: storing parsed values -/

theorem mapSet_of_not_mem (m : List (GoString × GoString)) (k e : GoString)
    (h : k ∉ m.map Prod.fst) : mapSet m k e = m ++ [(k, e)] := by
  unfold mapSet
  rw [if_neg]
  intro ha
  obtain ⟨p, hp, hk⟩ := List.any_eq_true.mp ha
  apply h
  simp only [decide_eq_true_eq] at hk
  exact List.mem_map.mpr ⟨p, hp, hk⟩

theorem storeMapMembers_strings (es : List (GoString × GoString)) :
    ∀ (acc : List (GoString × GoString)) (saved : Option GoError),
      ((acc ++ es).map Prod.fst).Nodup →
      storeMapMembers (es.map (fun q => (q.1, JValue.str q.2))) acc saved = (acc ++ es, saved) := by
  induction es with
  | nil => intro acc saved _; simp [storeMapMembers]
  | cons p rest ih =>
    intro acc saved h
    obtain ⟨k, v⟩ := p
    have hk : k ∉ acc.map Prod.fst := by
      intro hm
      rw [List.map_append, List.map_cons] at h
      have := (List.nodup_append.mp h).2.2
      exact this hm (List.mem_cons_self _ _)
    simp only [List.map_cons, storeMapMembers, storeString]
    rw [mapSet_of_not_mem _ _ _ hk, ih]
    · simp
    · simpa using h

theorem sortEntries_perm (l : List (GoString × GoString)) : (sortEntries l).Perm l :=
  List.perm_insertionSort _ l

theorem sortEntries_nodup (l : List (GoString × GoString)) (h : (l.map Prod.fst).Nodup) :
    ((sortEntries l).map Prod.fst).Nodup :=
  ((sortEntries_perm l).map Prod.fst).nodup_iff.mpr h

theorem storeMap_jsonOfMap (m : StringMap) (h : ((m.getD []).map Prod.fst).Nodup) :
    storeMap (jsonOfMap m) none none = (m.map sortEntries, none) := by
  cases m with
  | none => rfl
  | some l =>
    simp only [Option.getD_some] at h
    simp only [jsonOfMap, storeMap, Option.getD_none, Option.map_some']
    rw [storeMapMembers_strings _ _ _ (by simpa using sortEntries_nodup l h)]
    simp

theorem storeStructMembers_v (v : JValue) (rest : List (GoString × JValue)) (d : CursorData)
    (saved : Option GoError) :
    storeStructMembers (("v".toList, v) :: rest) d saved =
      storeStructMembers rest { d with Value := (storeString v d.Value saved).1 }
        (storeString v d.Value saved).2 := by
  rw [storeStructMembers, if_pos (Or.inl rfl)]

theorem storeStructMembers_d (v : JValue) (rest : List (GoString × JValue)) (d : CursorData)
    (saved : Option GoError) :
    storeStructMembers (("d".toList, v) :: rest) d saved =
      storeStructMembers rest { d with Direction := (storeString v d.Direction saved).1 }
        (storeString v d.Direction saved).2 := by
  rw [storeStructMembers, if_neg (by decide), if_pos (Or.inl rfl)]

theorem storeStructMembers_e (v : JValue) (rest : List (GoString × JValue)) (d : CursorData)
    (saved : Option GoError) :
    storeStructMembers (("e".toList, v) :: rest) d saved =
      storeStructMembers rest { d with Extra := (storeMap v d.Extra saved).1 }
        (storeMap v d.Extra saved).2 := by
  rw [storeStructMembers, if_neg (by decide), if_neg (by decide), if_pos (Or.inl rfl)]

/-- Decoding the JSON text of a cursor gives the cursor back, its map entries
in key order. -/
theorem Unmarshal_Marshal (d : CursorData) (h : ((d.Extra.getD []).map Prod.fst).Nodup) :
    Unmarshal (Marshal d).1 CursorData.zero =
      ({ Value := d.Value, Direction := d.Direction, Extra := d.Extra.map sortEntries },
        none) := by
  unfold Unmarshal
  rw [Marshal_parse]
  simp only [storeStruct]
  rw [storeStructMembers_v, storeStructMembers_d, storeStructMembers_e, storeStructMembers]
  simp only [storeString, CursorData.zero, storeMap_jsonOfMap d.Extra h]

/-! ## Lemmas: byte bounds -/

theorem utf8EncodeChar_lt (c : Char) : ∀ b ∈ utf8EncodeChar c, b < 256 := by
  have hv := char_valid c
  intro b hb
  unfold utf8EncodeChar at hb
  simp only at hb
  split_ifs at hb <;> simp only [List.mem_cons, List.mem_singleton, List.not_mem_nil,
    or_false] at hb <;> omega

theorem hexDigits_lt (n : Nat) (h : n < 16) : hexDigits.getD n 0 < 256 := by
  have key : ∀ k, k < 16 → hexDigits.getD k 0 < 256 := by decide
  exact key n h

theorem appendStringChar_lt (c : Char) : ∀ b ∈ appendStringChar c, b < 256 := by
  intro b hb
  unfold appendStringChar at hb
  simp only at hb
  by_cases h80 : c.toNat < 0x80
  · rw [if_pos h80] at hb
    have h1 := hexDigits_lt (c.toNat / 16) (by omega)
    have h2 := hexDigits_lt (c.toNat % 16) (by omega)
    split_ifs at hb <;> simp only [List.mem_cons, List.mem_singleton, List.not_mem_nil,
      or_false] at hb <;> omega
  · rw [if_neg h80] at hb
    have h2 := hexDigits_lt (c.toNat % 16) (by omega)
    by_cases hls : c.toNat = 0x2028 ∨ c.toNat = 0x2029
    · rw [if_pos hls] at hb
      simp only [List.mem_cons, List.mem_singleton, List.not_mem_nil, or_false] at hb
      omega
    · rw [if_neg hls] at hb
      exact utf8EncodeChar_lt c b hb

theorem appendStringBody_lt (s : GoString) : ∀ b ∈ appendStringBody s, b < 256 := by
  induction s with
  | nil => intro b hb; simp [appendStringBody] at hb
  | cons c cs ih =>
    intro b hb
    simp only [appendStringBody, List.mem_append] at hb
    rcases hb with h | h
    · exact appendStringChar_lt c b h
    · exact ih b h

theorem appendString_lt (s : GoString) : ∀ b ∈ appendString s, b < 256 := by
  intro b hb
  simp only [appendString, List.mem_cons, List.mem_append, List.mem_singleton,
    List.not_mem_nil, or_false] at hb
  rcases hb with h | h | h
  · omega
  · exact appendStringBody_lt s b h
  · omega

theorem encodeEntries_lt (es : List (GoString × GoString)) : ∀ b ∈ encodeEntries es, b < 256 := by
  induction es with
  | nil => intro b hb; simp [encodeEntries] at hb
  | cons p rest ih =>
    obtain ⟨k, v⟩ := p
    intro b hb
    cases rest with
    | nil =>
      rw [encodeEntries_cons_nil] at hb
      simp only [List.mem_append, List.mem_cons] at hb
      rcases hb with h | h | h
      · exact appendString_lt k b h
      · omega
      · exact appendString_lt v b h
    | cons q rest =>
      rw [encodeEntries_cons_cons] at hb
      simp only [List.mem_append, List.mem_cons] at hb
      rcases hb with h | h | h | h | h
      · exact appendString_lt k b h
      · omega
      · exact appendString_lt v b h
      · omega
      · exact ih b h

theorem encodeMap_lt (m : StringMap) : ∀ b ∈ encodeMap m, b < 256 := by
  cases m with
  | none => decide
  | some l =>
    intro b hb
    simp only [encodeMap, List.mem_cons, List.mem_append, List.mem_singleton,
      List.not_mem_nil, or_false] at hb
    rcases hb with h | h | h
    · omega
    · exact encodeEntries_lt _ b h
    · omega

theorem Marshal_lt (d : CursorData) : ∀ b ∈ (Marshal d).1, b < 256 := by
  intro b hb
  simp only [Marshal, List.mem_cons, List.mem_append, List.mem_singleton, List.not_mem_nil,
    or_false] at hb
  rcases hb with h | h | h | h | h | h | h | h | h | h | h | h | h
  · omega
  · exact appendString_lt _ b h
  · omega
  · exact appendString_lt _ b h
  · omega
  · exact appendString_lt _ b h
  · omega
  · exact appendString_lt _ b h
  · omega
  · exact appendString_lt _ b h
  · omega
  · exact encodeMap_lt _ b h
  · omega

/-! ## Theorems: cursor round trip -/

/-- C1: for every cursor data (a map being a list of entries with pairwise
distinct keys), `EncodeCursor` succeeds, and `DecodeCursor` of the token
succeeds with the same value and direction and a map holding exactly the same
entries; a `nil` map decodes to `nil`, an empty map to an empty map. -/
theorem Cursor_roundtrip (d : CursorData) (h : ((d.Extra.getD []).map Prod.fst).Nodup) :
    (EncodeCursor d).2 = none ∧
      DecodeCursor (EncodeCursor d).1 =
        ({ Value := d.Value, Direction := d.Direction, Extra := d.Extra.map sortEntries },
          none) ∧
      (d.Extra = none → (DecodeCursor (EncodeCursor d).1).1.Extra = none) ∧
      (d.Extra = some [] → (DecodeCursor (EncodeCursor d).1).1.Extra = some []) ∧
      (∀ m, d.Extra = some m →
        ∃ m2, (DecodeCursor (EncodeCursor d).1).1.Extra = some m2 ∧ m2.Perm m ∧
          ∀ k v, (k, v) ∈ m2 ↔ (k, v) ∈ m) := by
  have henc : EncodeCursor d = (EncodeToString (Marshal d).1, none) := rfl
  have hdec : DecodeCursor (EncodeCursor d).1 =
      ({ Value := d.Value, Direction := d.Direction, Extra := d.Extra.map sortEntries },
        none) := by
    rw [henc]
    unfold DecodeCursor
    simp only
    rw [DecodeString_EncodeToString _ (Marshal_lt d)]
    simp only
    rw [Unmarshal_Marshal d h]
  refine ⟨rfl, hdec, ?_, ?_, ?_⟩
  · intro he
    rw [hdec, he]
    rfl
  · intro he
    rw [hdec, he]
    rfl
  · intro m he
    rw [hdec, he]
    exact ⟨sortEntries m, rfl, sortEntries_perm m, fun k v => (sortEntries_perm m).mem_iff⟩

/-- C1 at a cursor with a non-ASCII value, characters that are escaped and two
map entries. -/
theorem Cursor_roundtrip_witness :
    DecodeCursor (EncodeCursor
        { Value := "a<é>\n".toList, Direction := Next,
          Extra := some [("name".toList, "alice".toList), ("at".toList, "2024".toList)] }).1 =
      ({ Value := "a<é>\n".toList, Direction := Next,
         Extra := some (sortEntries
          [("name".toList, "alice".toList), ("at".toList, "2024".toList)]) }, none) :=
  (Cursor_roundtrip
    { Value := "a<é>\n".toList, Direction := Next,
      Extra := some [("name".toList, "alice".toList), ("at".toList, "2024".toList)] }
    (by decide)).2.1

/-! ## Lemmas: key order -/

theorem utf8EncodeChar_ne_nil (c : Char) : utf8EncodeChar c ≠ [] := by
  unfold utf8EncodeChar
  simp only
  split_ifs <;> simp

theorem toBytes_injective : ∀ (s t : GoString), toBytes s = toBytes t → s = t := by
  intro s
  induction s with
  | nil =>
    intro t h
    cases t with
    | nil => rfl
    | cons c cs =>
      exfalso
      simp only [toBytes] at h
      have := congrArg List.length h
      have hne := utf8EncodeChar_ne_nil c
      cases hc : utf8EncodeChar c with
      | nil => exact hne hc
      | cons x xs => rw [hc] at this; simp at this
  | cons a as ih =>
    intro t h
    cases t with
    | nil =>
      exfalso
      simp only [toBytes] at h
      have := congrArg List.length h
      have hne := utf8EncodeChar_ne_nil a
      cases hc : utf8EncodeChar a with
      | nil => exact hne hc
      | cons x xs => rw [hc] at this; simp at this
    | cons c cs =>
      simp only [toBytes] at h
      have h1 := DecodeRune_utf8EncodeChar a (toBytes as)
      have h2 := DecodeRune_utf8EncodeChar c (toBytes cs)
      rw [h] at h1
      rw [h1] at h2
      have hac : a = c := (char_eq_iff_toNat a c).mpr (congrArg Prod.fst h2)
      subst hac
      rw [ih cs (List.append_cancel_left h)]

theorem bytesLE_refl (a : List Nat) : bytesLE a a = true := by
  induction a with
  | nil => rfl
  | cons x xs ih => simp [bytesLE, ih]

theorem bytesLE_total (a b : List Nat) : bytesLE a b = true ∨ bytesLE b a = true := by
  induction a generalizing b with
  | nil => left; rfl
  | cons x xs ih =>
    cases b with
    | nil => right; rfl
    | cons y ys =>
      simp only [bytesLE, Bool.or_eq_true, decide_eq_true_eq, Bool.and_eq_true, beq_iff_eq]
      rcases Nat.lt_trichotomy x y with h | h | h
      · left; left; exact h
      · rcases ih ys with h1 | h1
        · left; right; exact ⟨h, h1⟩
        · right; right; exact ⟨h.symm, h1⟩
      · right; left; exact h

theorem bytesLE_trans (a b c : List Nat) (h1 : bytesLE a b = true) (h2 : bytesLE b c = true) :
    bytesLE a c = true := by
  induction a generalizing b c with
  | nil => rfl
  | cons x xs ih =>
    cases b with
    | nil => simp [bytesLE] at h1
    | cons y ys =>
      cases c with
      | nil => simp [bytesLE] at h2
      | cons z zs =>
        simp only [bytesLE, Bool.or_eq_true, decide_eq_true_eq, Bool.and_eq_true,
          beq_iff_eq] at h1 h2 ⊢
        rcases h1 with h1 | ⟨e1, h1⟩
        · rcases h2 with h2 | ⟨e2, h2⟩
          · left; omega
          · left; omega
        · rcases h2 with h2 | ⟨e2, h2⟩
          · left; omega
          · right; exact ⟨by omega, ih ys zs h1 h2⟩

theorem bytesLE_antisymm (a b : List Nat) (h1 : bytesLE a b = true) (h2 : bytesLE b a = true) :
    a = b := by
  induction a generalizing b with
  | nil =>
    cases b with
    | nil => rfl
    | cons y ys => simp [bytesLE] at h2
  | cons x xs ih =>
    cases b with
    | nil => simp [bytesLE] at h1
    | cons y ys =>
      simp only [bytesLE, Bool.or_eq_true, decide_eq_true_eq, Bool.and_eq_true,
        beq_iff_eq] at h1 h2
      rcases h1 with h1 | ⟨e1, h1⟩
      · rcases h2 with h2 | ⟨e2, h2⟩
        · omega
        · omega
      · rcases h2 with h2 | ⟨e2, h2⟩
        · omega
        · rw [e1, ih ys h1 h2]

theorem keyLE_total : IsTotal (GoString × GoString) keyLE :=
  ⟨fun _ _ => bytesLE_total _ _⟩

theorem keyLE_trans : IsTrans (GoString × GoString) keyLE :=
  ⟨fun _ _ _ h1 h2 => bytesLE_trans _ _ _ h1 h2⟩

theorem sortEntries_sorted (l : List (GoString × GoString)) : (sortEntries l).Sorted keyLE := by
  haveI := keyLE_total
  haveI := keyLE_trans
  exact List.sorted_insertionSort keyLE l

theorem keyLE_antisymm_key (a b : GoString × GoString) (h1 : keyLE a b) (h2 : keyLE b a) :
    a.1 = b.1 :=
  toBytes_injective _ _ (bytesLE_antisymm _ _ h1 h2)

theorem sorted_perm_eq (l1 : List (GoString × GoString)) :
    ∀ l2 : List (GoString × GoString), l1.Perm l2 → l1.Sorted keyLE → l2.Sorted keyLE →
      (l1.map Prod.fst).Nodup → l1 = l2 := by
  induction l1 with
  | nil =>
    intro l2 hp _ _ _
    exact (List.Perm.nil_eq hp)
  | cons a t1 ih =>
    intro l2 hp hs1 hs2 hn
    cases l2 with
    | nil => exact absurd hp.symm.nil_eq (by simp)
    | cons b t2 =>
      have hab : a = b := by
        by_contra hne
        have ha : a ∈ t2 := by
          have : a ∈ b :: t2 := hp.subset (List.mem_cons_self _ _)
          rcases List.mem_cons.mp this with e | e
          · exact absurd e hne
          · exact e
        have hb : b ∈ t1 := by
          have : b ∈ a :: t1 := hp.symm.subset (List.mem_cons_self _ _)
          rcases List.mem_cons.mp this with e | e
          · exact absurd e.symm hne
          · exact e
        have h1 : keyLE a b := List.rel_of_sorted_cons hs1 b hb
        have h2 : keyLE b a := List.rel_of_sorted_cons hs2 a ha
        have hk := keyLE_antisymm_key a b h1 h2
        rw [List.map_cons, List.nodup_cons] at hn
        exact hn.1 (List.mem_map.mpr ⟨b, hb, hk.symm⟩)
      subst hab
      rw [ih t2 (List.Perm.cons_inv hp) hs1.of_cons hs2.of_cons
        (by rw [List.map_cons, List.nodup_cons] at hn; exact hn.2)]

theorem sortEntries_perm_eq (m1 m2 : List (GoString × GoString)) (hp : m1.Perm m2)
    (hn : (m1.map Prod.fst).Nodup) : sortEntries m1 = sortEntries m2 :=
  sorted_perm_eq _ _
    (((List.perm_insertionSort keyLE m1).trans hp).trans (List.perm_insertionSort keyLE m2).symm)
    (sortEntries_sorted m1) (sortEntries_sorted m2)
    (((List.perm_insertionSort keyLE m1).map Prod.fst).nodup_iff.mpr hn)

/-! ## Theorems: determinism of the encoding -/

/-- C10 as stated fails between a `nil` map and an empty map: both hold the
same (no) entries, and the tokens differ (`"e":null` against an empty object). -/
theorem EncodeCursor_nil_vs_empty :
    (∀ k v : GoString, (k, v) ∈ (none : StringMap).getD [] ↔
        (k, v) ∈ (some [] : StringMap).getD []) ∧
      EncodeCursor { Value := "test-123".toList, Direction := [], Extra := none } ≠
        EncodeCursor { Value := "test-123".toList, Direction := [], Extra := some [] } :=
  ⟨fun _ _ => Iff.rfl, by decide⟩

/-- C10, amended: two cursor data with equal value and direction whose maps
are both `nil`, or both present with the same entries in any order (keys
pairwise distinct), get identical tokens. -/
theorem EncodeCursor_deterministic (d1 d2 : CursorData) (hv : d1.Value = d2.Value)
    (hd : d1.Direction = d2.Direction)
    (he : (d1.Extra = none ∧ d2.Extra = none) ∨
      ∃ m1 m2, d1.Extra = some m1 ∧ d2.Extra = some m2 ∧ m1.Perm m2 ∧
        (m1.map Prod.fst).Nodup) :
    EncodeCursor d1 = EncodeCursor d2 := by
  have hm : encodeMap d1.Extra = encodeMap d2.Extra := by
    rcases he with ⟨h1, h2⟩ | ⟨m1, m2, h1, h2, hp, hn⟩
    · rw [h1, h2]
    · rw [h1, h2]
      simp only [encodeMap, sortEntries_perm_eq m1 m2 hp hn]
  have hM : Marshal d1 = Marshal d2 := by
    simp only [Marshal, hv, hd, hm]
  simp only [EncodeCursor, hM]

/-- C10, amended, at two maps holding the same two entries in opposite order. -/
theorem EncodeCursor_deterministic_witness :
    EncodeCursor
        { Value := "test-123".toList, Direction := Next,
          Extra := some [("b".toList, "2".toList), ("a".toList, "1".toList)] } =
      EncodeCursor
        { Value := "test-123".toList, Direction := Next,
          Extra := some [("a".toList, "1".toList), ("b".toList, "2".toList)] } :=
  EncodeCursor_deterministic _ _ rfl rfl
    (Or.inr ⟨_, _, rfl, rfl, List.Perm.swap _ _ _, by decide⟩)

/-! ## Lemmas: the fuel of the loops is enough -/

theorem decodeQuantum_rest_length (srcLen : Nat) (src : List Nat) :
    ∀ (dbuf : List Nat) (si : Nat), src ≠ [] →
      (decodeQuantum srcLen dbuf src si).rest.length < src.length := by
  induction src with
  | nil => intro _ _ h; exact absurd rfl h
  | cons c cs ih =>
    intro dbuf si _
    have hcs : ∀ (db : List Nat) (k : Nat),
        (decodeQuantum srcLen db cs k).rest.length < (c :: cs).length := by
      intro db k
      cases cs with
      | nil =>
        rw [decodeQuantum]
        split_ifs <;> simp
      | cons x xs =>
        have := ih db k (by simp)
        simp only [List.length_cons] at this ⊢
        omega
    have hsk : ∀ (l : List Nat) (k : Nat), l.length ≤ cs.length →
        (skipNewlines l k).1.length < (c :: cs).length := by
      intro l k hl
      have := skipNewlines_length l k
      simp only [List.length_cons]
      omega
    rw [decodeQuantum]
    split_ifs
    · simp
    · exact hcs _ _
    · exact hcs _ _
    · simp
    · simp
    · rcases hs : skipNewlines cs (si + 1) with ⟨r2, si2⟩
      have h2 := skipNewlines_length cs (si + 1)
      rw [hs] at h2
      cases r2 with
      | nil => simp
      | cons c2 r3 =>
        simp only
        have h3 := skipNewlines_length r3 (si2 + 1)
        split_ifs <;> simp only [List.length_cons] at h2 ⊢ <;> omega
    · exact hsk cs _ (Nat.le_refl _)

/-- The result of the decoding loop does not depend on the fuel once it
reaches the length of the input: the loop never stops for lack of fuel. -/
theorem decodeLoop_fuel (srcLen : Nat) (fuel : Nat) :
    ∀ (src : List Nat) (si : Nat), src.length ≤ fuel →
      decodeLoop srcLen fuel src si = decodeLoop srcLen src.length src si := by
  induction fuel using Nat.strong_induction_on with
  | _ fuel ih =>
    intro src si hf
    cases src with
    | nil => rw [decodeLoop_nil, decodeLoop_nil]
    | cons c cs =>
      obtain ⟨f, rfl⟩ : ∃ f, fuel = f + 1 := ⟨fuel - 1, by simp at hf; omega⟩
      simp only [List.length_cons] at hf ⊢
      rw [decodeLoop, decodeLoop]
      simp only [if_neg (List.cons_ne_nil c cs)]
      have hlt := decodeQuantum_rest_length srcLen (c :: cs) [] si (by simp)
      simp only [List.length_cons] at hlt
      cases he : (decodeQuantum srcLen [] (c :: cs) si).err with
      | some e => rfl
      | none =>
        simp only
        rw [ih f (by omega) _ _ (by omega), ih cs.length (by omega) _ _ (by omega)]

theorem DecodeRune_width_pos (p0 : Nat) (rest : List Nat) : 1 ≤ (DecodeRune (p0 :: rest)).2 := by
  unfold DecodeRune
  simp only
  by_cases h1 : p0 < 0x80
  · rw [if_pos h1]
  · rw [if_neg h1]
    by_cases h2 : p0 < 0xC2 ∨ 0xF4 < p0
    · rw [if_pos h2]
    · rw [if_neg h2]
      generalize (if p0 < 0xE0 then 2 else if p0 < 0xF0 then 3 else 4) = sz
      generalize (if p0 = 0xE0 then 0xA0 else if p0 = 0xF0 then 0x90 else 0x80) = lo
      generalize (if p0 = 0xED then 0x9F else if p0 = 0xF4 then 0x8F else 0xBF) = hi
      by_cases h3 : (p0 :: rest).length < sz
      · rw [if_pos h3]
      · rw [if_neg h3]
        cases rest with
        | nil => exact Nat.le_refl 1
        | cons b1 rest1 =>
          simp only
          by_cases h4 : b1 < lo ∨ hi < b1
          · rw [if_pos h4]
          · rw [if_neg h4]
            by_cases h5 : sz ≤ 2
            · rw [if_pos h5]; exact Nat.le_succ 1
            · rw [if_neg h5]
              cases rest1 with
              | nil => exact Nat.le_refl 1
              | cons b2 rest2 =>
                simp only
                by_cases h6 : b2 < 0x80 ∨ 0xBF < b2
                · rw [if_pos h6]
                · rw [if_neg h6]
                  by_cases h7 : sz ≤ 3
                  · rw [if_pos h7]; exact Nat.le_add_left 1 2
                  · rw [if_neg h7]
                    cases rest2 with
                    | nil => exact Nat.le_refl 1
                    | cons b3 rest3 =>
                      simp only
                      by_cases h8 : b3 < 0x80 ∨ 0xBF < b3
                      · rw [if_pos h8]
                      · rw [if_neg h8]; exact Nat.le_add_left 1 3

theorem unicodeEscape_rest (s : List Nat) (c : Char) (rest : List Nat) (hs : s ≠ [])
    (h : unicodeEscape s = StringStep.char c rest) : rest.length < s.length := by
  have hpos : 0 < s.length := List.length_pos.mpr hs
  have h6 : (s.drop 6).length < s.length := by rw [List.length_drop]; omega
  have h12 : (s.drop 12).length < s.length := by rw [List.length_drop]; omega
  unfold unicodeEscape at h
  cases hg : getu4 s with
  | none => rw [hg] at h; exact StringStep.noConfusion h
  | some rr =>
    rw [hg] at h
    simp only at h
    by_cases hp : 0xD800 ≤ rr ∧ rr < 0xE000
    · rw [if_pos hp] at h
      cases hg2 : getu4 (s.drop 6) with
      | none =>
        rw [hg2] at h
        simp only at h
        injection h with _ h2
        rw [← h2]; exact h6
      | some rr1 =>
        rw [hg2] at h
        simp only at h
        by_cases hp2 : rr < 0xDC00 ∧ 0xDC00 ≤ rr1 ∧ rr1 < 0xE000
        · rw [if_pos hp2] at h
          injection h with _ h2
          rw [← h2]; exact h12
        · rw [if_neg hp2] at h
          injection h with _ h2
          rw [← h2]; exact h6
    · rw [if_neg hp] at h
      injection h with _ h2
      rw [← h2]; exact h6

theorem unicodeEscape_not_done (s : List Nat) (rest : List Nat) :
    unicodeEscape s ≠ StringStep.done rest := by
  intro h
  unfold unicodeEscape at h
  cases hg : getu4 s with
  | none => rw [hg] at h; exact StringStep.noConfusion h
  | some rr =>
    rw [hg] at h
    simp only at h
    by_cases hp : 0xD800 ≤ rr ∧ rr < 0xE000
    · rw [if_pos hp] at h
      cases hg2 : getu4 (s.drop 6) with
      | none => rw [hg2] at h; exact StringStep.noConfusion h
      | some rr1 =>
        rw [hg2] at h
        simp only at h
        by_cases hp2 : rr < 0xDC00 ∧ 0xDC00 ≤ rr1 ∧ rr1 < 0xE000
        · rw [if_pos hp2] at h; exact StringStep.noConfusion h
        · rw [if_neg hp2] at h; exact StringStep.noConfusion h
    · rw [if_neg hp] at h; exact StringStep.noConfusion h

theorem stringStep_char_rest (s : List Nat) (c : Char) (rest : List Nat)
    (h : stringStep s = StringStep.char c rest) : rest.length < s.length := by
  cases s with
  | nil => exact StringStep.noConfusion h
  | cons b bs =>
    unfold stringStep at h
    simp only at h
    split_ifs at h
    · cases bs with
      | nil => exact StringStep.noConfusion h
      | cons e cs1 =>
        simp only at h
        split_ifs at h
        · exact unicodeEscape_rest _ c rest (by simp) h
        · cases hse : simpleEscape e with
          | none => rw [hse] at h; exact StringStep.noConfusion h
          | some ch =>
            rw [hse] at h
            cases h
            simp only [List.length_cons]
            omega
    · cases h
      simp
    · cases h
      have := DecodeRune_width_pos b bs
      rw [List.length_drop]
      simp only [List.length_cons]
      omega

theorem stringStep_done_rest (s : List Nat) (rest : List Nat)
    (h : stringStep s = StringStep.done rest) : rest.length < s.length := by
  cases s with
  | nil => exact StringStep.noConfusion h
  | cons b bs =>
    unfold stringStep at h
    simp only at h
    split_ifs at h
    · cases h
      simp
    · cases bs with
      | nil => exact StringStep.noConfusion h
      | cons e cs1 =>
        simp only at h
        split_ifs at h
        · exact absurd h (unicodeEscape_not_done _ _)
        · cases hse : simpleEscape e with
          | none => rw [hse] at h; exact StringStep.noConfusion h
          | some ch => rw [hse] at h; exact StringStep.noConfusion h

/-- The string loop never stops for lack of fuel: with fuel at least the length
of the input the result does not depend on the fuel. -/
theorem parseStringBody_fuel (fuel : Nat) :
    ∀ (s : List Nat), s.length ≤ fuel →
      parseStringBody fuel s = parseStringBody s.length s := by
  induction fuel using Nat.strong_induction_on with
  | _ fuel ih =>
    intro s hf
    cases s with
    | nil =>
      cases fuel with
      | zero => rfl
      | succ n => simp [parseStringBody, stringStep]
    | cons b bs =>
      obtain ⟨f, rfl⟩ : ∃ f, fuel = f + 1 := ⟨fuel - 1, by simp at hf; omega⟩
      simp only [List.length_cons] at hf ⊢
      rw [parseStringBody, parseStringBody]
      cases hst : stringStep (b :: bs) with
      | fail => rfl
      | done rest => rfl
      | char c rest =>
        have hlt := stringStep_char_rest _ c rest hst
        simp only [List.length_cons] at hlt
        simp only
        rw [ih f (by omega) rest (by omega), ih bs.length (by omega) rest (by omega)]

theorem skipSpace_length (s : List Nat) : (skipSpace s).length ≤ s.length :=
  (List.dropWhile_suffix isJsonSpace).length_le

theorem dropWhile_digits_length (s : List Nat) :
    (s.dropWhile isDigitByte).length ≤ s.length :=
  (List.dropWhile_suffix isDigitByte).length_le

theorem parseStringBody_rest (fuel : Nat) :
    ∀ (s : List Nat) (str : GoString) (rest : List Nat),
      parseStringBody fuel s = some (str, rest) → rest.length < s.length := by
  induction fuel with
  | zero => intro s str rest h; simp [parseStringBody] at h
  | succ n ih =>
    intro s str rest h
    rw [parseStringBody] at h
    cases hst : stringStep s with
    | fail => rw [hst] at h; simp at h
    | done r =>
      rw [hst] at h
      simp only [Option.some.injEq, Prod.mk.injEq] at h
      rw [← h.2]
      exact stringStep_done_rest s r hst
    | char c r =>
      rw [hst] at h
      simp only at h
      have h1 := stringStep_char_rest s c r hst
      cases hp : parseStringBody n r with
      | none => rw [hp] at h; simp [consChar] at h
      | some pr =>
        obtain ⟨s2, r2⟩ := pr
        rw [hp] at h
        simp only [consChar, Option.some.injEq, Prod.mk.injEq] at h
        have h2 := ih r s2 r2 hp
        rw [← h.2]
        omega

theorem parseExponent_rest (s t : List Nat) (h : parseExponent s = some t) :
    t.length ≤ s.length := by
  unfold parseExponent at h
  cases s with
  | nil => simp only [Option.some.injEq] at h; rw [← h]
  | cons e r =>
    simp only at h
    by_cases he : e = 0x65 ∨ e = 0x45
    · rw [if_pos he] at h
      have hr1 : ∀ r1 : List Nat, r1.length ≤ r.length →
          (match r1 with
            | d :: r3 => if isDigitByte d = true then some (r3.dropWhile isDigitByte) else none
            | [] => none) = some t → t.length ≤ (e :: r).length := by
        intro r1 hl hm
        cases r1 with
        | nil => simp at hm
        | cons d r3 =>
          simp only at hm
          by_cases hd : isDigitByte d = true
          · rw [if_pos hd] at hm
            simp only [Option.some.injEq] at hm
            have := dropWhile_digits_length r3
            rw [← hm]
            simp only [List.length_cons] at hl ⊢
            omega
          · rw [if_neg hd] at hm
            simp at hm
      cases r with
      | nil => exact hr1 [] (Nat.le_refl _) h
      | cons sg r2 =>
        simp only at h
        by_cases hsg : sg = 0x2B ∨ sg = 0x2D
        · rw [if_pos hsg] at h
          exact hr1 r2 (by simp) h
        · rw [if_neg hsg] at h
          exact hr1 (sg :: r2) (Nat.le_refl _) h
    · rw [if_neg he] at h
      simp only [Option.some.injEq] at h
      rw [← h]

theorem parseFraction_rest (s t : List Nat) (h : parseFraction s = some t) :
    t.length ≤ s.length := by
  unfold parseFraction at h
  cases s with
  | nil => exact parseExponent_rest _ _ h
  | cons dot r =>
    simp only at h
    by_cases hd : dot = 0x2E
    · rw [if_pos hd] at h
      cases r with
      | nil => simp at h
      | cons d r1 =>
        simp only at h
        by_cases hdg : isDigitByte d = true
        · rw [if_pos hdg] at h
          have h1 := parseExponent_rest _ _ h
          have h2 := dropWhile_digits_length r1
          simp only [List.length_cons]
          omega
        · rw [if_neg hdg] at h
          simp at h
    · rw [if_neg hd] at h
      exact parseExponent_rest _ _ h

theorem parseNumber_rest (s t : List Nat) (h : parseNumber s = some t) :
    t.length < s.length := by
  unfold parseNumber at h
  have key : ∀ s1 : List Nat, s1.length ≤ s.length →
      (match s1 with
        | d :: r =>
          if d = 0x30 then parseFraction r
          else if 0x31 ≤ d ∧ d ≤ 0x39 then parseFraction (r.dropWhile isDigitByte)
          else none
        | [] => none) = some t → t.length < s.length := by
    intro s1 hl hm
    cases s1 with
    | nil => simp at hm
    | cons d r =>
      simp only at hm
      simp only [List.length_cons] at hl
      by_cases h0 : d = 0x30
      · rw [if_pos h0] at hm
        have := parseFraction_rest _ _ hm
        omega
      · rw [if_neg h0] at hm
        by_cases h19 : 0x31 ≤ d ∧ d ≤ 0x39
        · rw [if_pos h19] at hm
          have h1 := parseFraction_rest _ _ hm
          have h2 := dropWhile_digits_length r
          omega
        · rw [if_neg h19] at hm
          simp at hm
  cases s with
  | nil => exact key [] (Nat.le_refl _) h
  | cons m r =>
    simp only at h
    by_cases hm : m = 0x2D
    · rw [if_pos hm] at h
      exact key r (by simp) h
    · rw [if_neg hm] at h
      exact key (m :: r) (Nat.le_refl _) h

theorem parseLiteral_rest (s : List Nat) (v : JValue) (t : List Nat)
    (h : parseLiteral s = some (v, t)) : t.length < s.length := by
  unfold parseLiteral at h
  split at h
  · simp only [Option.some.injEq, Prod.mk.injEq] at h
    rw [← h.2]; simp only [List.length_cons]; omega
  · simp only [Option.some.injEq, Prod.mk.injEq] at h
    rw [← h.2]; simp only [List.length_cons]; omega
  · simp only [Option.some.injEq, Prod.mk.injEq] at h
    rw [← h.2]; simp only [List.length_cons]; omega
  · simp at h

theorem parseValue_zero (d : Nat) (s : List Nat) : parseValue 0 d s = none := by
  rw [parseValue]

theorem parseMembers_zero (d : Nat) (s : List Nat) : parseMembers 0 d s = none := by
  rw [parseMembers]

theorem parseElements_zero (d : Nat) (s : List Nat) : parseElements 0 d s = none := by
  rw [parseElements]

theorem parseValue_nil (f d : Nat) : parseValue f d [] = none := by
  cases f with
  | zero => exact parseValue_zero d []
  | succ n => rw [parseValue]

theorem parseValue_obj_depth (F d : Nat) (cs : List Nat) (hd : maxNestingDepth ≤ d) :
    parseValue (F + 1) d (0x7B :: cs) = none := by
  rw [parseValue, if_pos rfl, if_pos hd]

theorem parseValue_obj_eof (F d : Nat) (cs : List Nat) (hsk : skipSpace cs = []) :
    parseValue (F + 1) d (0x7B :: cs) = none := by
  rw [parseValue, if_pos rfl]
  by_cases hd : maxNestingDepth ≤ d
  · rw [if_pos hd]
  · rw [if_neg hd, hsk]

theorem parseValue_obj_empty (F d : Nat) (cs r1 : List Nat) (hd : ¬ maxNestingDepth ≤ d)
    (hsk : skipSpace cs = 0x7D :: r1) :
    parseValue (F + 1) d (0x7B :: cs) = some (JValue.obj [], r1) := by
  rw [parseValue, if_pos rfl, if_neg hd, hsk]
  simp only [if_true]

theorem parseValue_obj_members (F d : Nat) (cs : List Nat) (c1 : Nat) (r1 : List Nat)
    (hd : ¬ maxNestingDepth ≤ d) (hsk : skipSpace cs = c1 :: r1) (hc1 : ¬ c1 = 0x7D) :
    parseValue (F + 1) d (0x7B :: cs) = parseMembers F (d + 1) (c1 :: r1) := by
  rw [parseValue, if_pos rfl, if_neg hd, hsk]
  simp only [if_neg hc1]

theorem parseValue_arr_depth (F d : Nat) (cs : List Nat) (hd : maxNestingDepth ≤ d) :
    parseValue (F + 1) d (0x5B :: cs) = none := by
  rw [parseValue, if_neg (by decide), if_pos rfl, if_pos hd]

theorem parseValue_arr_eof (F d : Nat) (cs : List Nat) (hsk : skipSpace cs = []) :
    parseValue (F + 1) d (0x5B :: cs) = none := by
  rw [parseValue, if_neg (by decide), if_pos rfl]
  by_cases hd : maxNestingDepth ≤ d
  · rw [if_pos hd]
  · rw [if_neg hd, hsk]

theorem parseValue_arr_empty (F d : Nat) (cs r1 : List Nat) (hd : ¬ maxNestingDepth ≤ d)
    (hsk : skipSpace cs = 0x5D :: r1) :
    parseValue (F + 1) d (0x5B :: cs) = some (JValue.arr, r1) := by
  rw [parseValue, if_neg (by decide), if_pos rfl, if_neg hd, hsk]
  simp only [if_true]

theorem parseValue_arr_elements (F d : Nat) (cs : List Nat) (c1 : Nat) (r1 : List Nat)
    (hd : ¬ maxNestingDepth ≤ d) (hsk : skipSpace cs = c1 :: r1) (hc1 : ¬ c1 = 0x5D) :
    parseValue (F + 1) d (0x5B :: cs) = parseElements F (d + 1) (c1 :: r1) := by
  rw [parseValue, if_neg (by decide), if_pos rfl, if_neg hd, hsk]
  simp only [if_neg hc1]

/-- A value that is not an object or an array is parsed without recursion. -/
theorem parseValue_scalar (F G d : Nat) (c : Nat) (cs : List Nat) (h1 : ¬ c = 0x7B)
    (h2 : ¬ c = 0x5B) :
    parseValue (F + 1) d (c :: cs) = parseValue (G + 1) d (c :: cs) := by
  rw [parseValue, parseValue, if_neg h1, if_neg h2, if_neg h1, if_neg h2]

theorem parseValue_scalar_rest (F d : Nat) (c : Nat) (cs : List Nat) (h1 : ¬ c = 0x7B)
    (h2 : ¬ c = 0x5B) (v : JValue) (rest : List Nat)
    (h : parseValue (F + 1) d (c :: cs) = some (v, rest)) : rest.length < (c :: cs).length := by
  rw [parseValue, if_neg h1, if_neg h2] at h
  by_cases h3 : c = 0x22
  · rw [if_pos h3] at h
    cases hp : parseStringBody cs.length cs with
    | none => rw [hp] at h; simp at h
    | some pr =>
      obtain ⟨s, r⟩ := pr
      rw [hp] at h
      simp only [Option.some.injEq, Prod.mk.injEq] at h
      have := parseStringBody_rest _ _ _ _ hp
      rw [← h.2]
      simp only [List.length_cons]
      omega
  · rw [if_neg h3] at h
    by_cases h4 : c = 0x2D ∨ (0x30 ≤ c ∧ c ≤ 0x39)
    · rw [if_pos h4] at h
      cases hp : parseNumber (c :: cs) with
      | none => rw [hp] at h; simp at h
      | some r =>
        rw [hp] at h
        simp only [Option.some.injEq, Prod.mk.injEq] at h
        have := parseNumber_rest _ _ hp
        rw [← h.2]
        exact this
    · rw [if_neg h4] at h
      exact parseLiteral_rest _ _ _ h

theorem stableV_succ (f : Nat) (hM : StableM f) (hE : StableE f) : StableV (f + 1) := by
  intro d s v rest h
  cases s with
  | nil => rw [parseValue_nil] at h; simp at h
  | cons c cs =>
    by_cases hb : c = 0x7B
    · subst hb
      by_cases hd : maxNestingDepth ≤ d
      · rw [parseValue_obj_depth _ _ _ hd] at h; simp at h
      · cases hsk : skipSpace cs with
        | nil => rw [parseValue_obj_eof _ _ _ hsk] at h; simp at h
        | cons c1 r1 =>
          have hl := skipSpace_length cs
          rw [hsk] at hl
          simp only [List.length_cons] at hl
          by_cases hc1 : c1 = 0x7D
          · subst hc1
            rw [parseValue_obj_empty _ _ _ _ hd hsk] at h
            simp only [Option.some.injEq, Prod.mk.injEq] at h
            obtain ⟨hv, hr⟩ := h
            subst hv hr
            refine ⟨by simp only [List.length_cons]; omega, ?_⟩
            intro F hF
            obtain ⟨G, rfl⟩ : ∃ G, F = G + 1 :=
              ⟨F - 1, by simp only [List.length_cons] at hF; omega⟩
            exact parseValue_obj_empty _ _ _ _ hd hsk
          · rw [parseValue_obj_members _ _ _ _ _ hd hsk hc1] at h
            obtain ⟨h1, h2⟩ := hM _ _ _ _ h
            simp only [List.length_cons] at h1
            refine ⟨by simp only [List.length_cons]; omega, ?_⟩
            intro F hF
            obtain ⟨G, rfl⟩ : ∃ G, F = G + 1 :=
              ⟨F - 1, by simp only [List.length_cons] at hF; omega⟩
            rw [parseValue_obj_members _ _ _ _ _ hd hsk hc1]
            exact h2 G (by simp only [List.length_cons] at hF ⊢; omega)
    · by_cases hb2 : c = 0x5B
      · subst hb2
        by_cases hd : maxNestingDepth ≤ d
        · rw [parseValue_arr_depth _ _ _ hd] at h; simp at h
        · cases hsk : skipSpace cs with
          | nil => rw [parseValue_arr_eof _ _ _ hsk] at h; simp at h
          | cons c1 r1 =>
            have hl := skipSpace_length cs
            rw [hsk] at hl
            simp only [List.length_cons] at hl
            by_cases hc1 : c1 = 0x5D
            · subst hc1
              rw [parseValue_arr_empty _ _ _ _ hd hsk] at h
              simp only [Option.some.injEq, Prod.mk.injEq] at h
              obtain ⟨hv, hr⟩ := h
              subst hv hr
              refine ⟨by simp only [List.length_cons]; omega, ?_⟩
              intro F hF
              obtain ⟨G, rfl⟩ : ∃ G, F = G + 1 :=
                ⟨F - 1, by simp only [List.length_cons] at hF; omega⟩
              exact parseValue_arr_empty _ _ _ _ hd hsk
            · rw [parseValue_arr_elements _ _ _ _ _ hd hsk hc1] at h
              obtain ⟨h1, h2⟩ := hE _ _ _ _ h
              simp only [List.length_cons] at h1
              refine ⟨by simp only [List.length_cons]; omega, ?_⟩
              intro F hF
              obtain ⟨G, rfl⟩ : ∃ G, F = G + 1 :=
                ⟨F - 1, by simp only [List.length_cons] at hF; omega⟩
              rw [parseValue_arr_elements _ _ _ _ _ hd hsk hc1]
              exact h2 G (by simp only [List.length_cons] at hF ⊢; omega)
      · have hr := parseValue_scalar_rest f d c cs hb hb2 v rest h
        refine ⟨hr, ?_⟩
        intro F hF
        obtain ⟨G, rfl⟩ : ∃ G, F = G + 1 := ⟨F - 1, by omega⟩
        rw [parseValue_scalar G f d c cs hb hb2]
        exact h

theorem stableE_succ (f : Nat) (hV : StableV f) (hE : StableE f) : StableE (f + 1) := by
  intro d s v rest h
  rw [parseElements] at h
  cases hpv : parseValue f d s with
  | none => rw [hpv] at h; simp at h
  | some pr =>
    obtain ⟨v1, r1⟩ := pr
    rw [hpv] at h
    simp only at h
    obtain ⟨hl1, hs1⟩ := hV _ _ _ _ hpv
    cases hsk : skipSpace r1 with
    | nil => rw [hsk] at h; simp at h
    | cons sep r2 =>
      have hl2 := skipSpace_length r1
      rw [hsk] at hl2 h
      simp only [List.length_cons] at hl2
      simp only at h
      by_cases hsep : sep = 0x5D
      · rw [if_pos hsep] at h
        simp only [Option.some.injEq, Prod.mk.injEq] at h
        obtain ⟨hv, hr⟩ := h
        subst hv hr
        refine ⟨by omega, ?_⟩
        intro F hF
        obtain ⟨G, rfl⟩ : ∃ G, F = G + 1 := ⟨F - 1, by omega⟩
        rw [parseElements, hs1 G (by omega)]
        simp only [hsk, if_pos hsep]
      · rw [if_neg hsep] at h
        by_cases hcm : sep = 0x2C
        · rw [if_pos hcm] at h
          obtain ⟨hl3, hs3⟩ := hE _ _ _ _ h
          have hl4 := skipSpace_length r2
          refine ⟨by omega, ?_⟩
          intro F hF
          obtain ⟨G, rfl⟩ : ∃ G, F = G + 1 := ⟨F - 1, by omega⟩
          rw [parseElements, hs1 G (by omega)]
          simp only [hsk, if_neg hsep, if_pos hcm]
          exact hs3 G (by omega)
        · rw [if_neg hcm] at h
          simp at h

theorem stableM_succ (f : Nat) (hV : StableV f) (hM : StableM f) : StableM (f + 1) := by
  intro d s v rest h
  cases s with
  | nil => rw [parseMembers] at h; simp at h
  | cons q cs =>
    rw [parseMembers] at h
    by_cases hq : q = 0x22
    · rw [if_pos hq] at h
      cases hps : parseStringBody cs.length cs with
      | none => rw [hps] at h; simp at h
      | some pr =>
        obtain ⟨key, r1⟩ := pr
        rw [hps] at h
        simp only at h
        have hl1 := parseStringBody_rest _ _ _ _ hps
        cases hs1 : skipSpace r1 with
        | nil => rw [hs1] at h; simp at h
        | cons colon r2 =>
          have hl2 := skipSpace_length r1
          rw [hs1] at hl2 h
          simp only [List.length_cons] at hl2
          simp only at h
          by_cases hcol : colon = 0x3A
          · rw [if_pos hcol] at h
            have hl3 := skipSpace_length r2
            cases hpv : parseValue f d (skipSpace r2) with
            | none => rw [hpv] at h; simp at h
            | some pv =>
              obtain ⟨v1, r3⟩ := pv
              rw [hpv] at h
              simp only at h
              obtain ⟨hl4, hsV⟩ := hV _ _ _ _ hpv
              cases hs3 : skipSpace r3 with
              | nil => rw [hs3] at h; simp at h
              | cons sep r4 =>
                have hl5 := skipSpace_length r3
                rw [hs3] at hl5 h
                simp only [List.length_cons] at hl5
                simp only at h
                by_cases hsep : sep = 0x7D
                · rw [if_pos hsep] at h
                  simp only [Option.some.injEq, Prod.mk.injEq] at h
                  obtain ⟨hv, hr⟩ := h
                  subst hv hr
                  refine ⟨by simp only [List.length_cons]; omega, ?_⟩
                  intro F hF
                  simp only [List.length_cons] at hF
                  obtain ⟨G, rfl⟩ : ∃ G, F = G + 1 := ⟨F - 1, by omega⟩
                  rw [parseMembers]
                  simp only [if_pos hq, hps, hs1, if_pos hcol, hsV G (by omega), hs3,
                    if_pos hsep]
                · rw [if_neg hsep] at h
                  by_cases hcm : sep = 0x2C
                  · rw [if_pos hcm] at h
                    have hl6 := skipSpace_length r4
                    cases hpm : parseMembers f d (skipSpace r4) with
                    | none => rw [hpm] at h; simp at h
                    | some pm =>
                      obtain ⟨v2, r5⟩ := pm
                      obtain ⟨hl7, hsM⟩ := hM _ _ _ _ hpm
                      rw [hpm] at h
                      cases v2 with
                      | obj ms =>
                        simp only [Option.some.injEq, Prod.mk.injEq] at h
                        obtain ⟨hv, hr⟩ := h
                        subst hv hr
                        refine ⟨by simp only [List.length_cons]; omega, ?_⟩
                        intro F hF
                        simp only [List.length_cons] at hF
                        obtain ⟨G, rfl⟩ : ∃ G, F = G + 1 := ⟨F - 1, by omega⟩
                        rw [parseMembers]
                        simp only [if_pos hq, hps, hs1, if_pos hcol, hsV G (by omega), hs3,
                          if_neg hsep, if_pos hcm, hsM G (by omega)]
                      | null => simp at h
                      | bool b => simp at h
                      | number => simp at h
                      | str s2 => simp at h
                      | arr => simp at h
                  · rw [if_neg hcm] at h
                    simp at h
          · rw [if_neg hcol] at h
            simp at h
    · rw [if_neg hq] at h
      simp at h

theorem parse_stable (f : Nat) : StableV f ∧ StableM f ∧ StableE f := by
  induction f with
  | zero =>
    refine ⟨?_, ?_, ?_⟩
    · intro d s v rest h; rw [parseValue_zero] at h; simp at h
    · intro d s v rest h; rw [parseMembers_zero] at h; simp at h
    · intro d s v rest h; rw [parseElements_zero] at h; simp at h
  | succ n ih =>
    exact ⟨stableV_succ n ih.2.1 ih.2.2, stableM_succ n ih.1 ih.2.1,
      stableE_succ n ih.1 ih.2.2⟩

/-- The fuel `parseTop` supplies is enough: whenever some amount of fuel parses
the whole input as one JSON value, `parseTop` returns that value. -/
theorem parseTop_complete (data : List Nat) (f : Nat) (v : JValue) (rest : List Nat)
    (h : parseValue f 0 (skipSpace data) = some (v, rest)) (hr : skipSpace rest = []) :
    parseTop data = some v := by
  obtain ⟨h1, h2⟩ := (parse_stable f).1 _ _ _ _ h
  have hl := skipSpace_length data
  unfold parseTop
  rw [h2 (data.length + 1) (by omega)]
  simp only [hr, if_true]

/-! ## Lemmas: the alphabet of the tokens -/

set_option maxRecDepth 100000 in
theorem encodeByte_mem (i : Nat) (h : i < 64) : encodeByte i ∈ encodeURL := by
  have key : ∀ n, n < 64 → encodeByte n ∈ encodeURL := by decide
  exact key i h

theorem encodeLoop_alphabet (bs : List Nat) :
    ∀ x ∈ encodeLoop bs, x ∈ encodeURL ∨ x = padChar := by
  induction bs using encodeLoop.induct with
  | case1 => intro x hx; simp [encodeLoop] at hx
  | case2 a =>
    intro x hx
    simp only [encodeLoop, List.mem_cons, List.mem_singleton, List.not_mem_nil, or_false] at hx
    rcases hx with h | h | h | h
    · rw [h]; exact Or.inl (encodeByte_mem _ (Nat.mod_lt _ (by decide)))
    · rw [h]; exact Or.inl (encodeByte_mem _ (Nat.mod_lt _ (by decide)))
    · exact Or.inr h
    · exact Or.inr h
  | case3 a b =>
    intro x hx
    simp only [encodeLoop, List.mem_cons, List.mem_singleton, List.not_mem_nil, or_false] at hx
    rcases hx with h | h | h | h
    · rw [h]; exact Or.inl (encodeByte_mem _ (Nat.mod_lt _ (by decide)))
    · rw [h]; exact Or.inl (encodeByte_mem _ (Nat.mod_lt _ (by decide)))
    · rw [h]; exact Or.inl (encodeByte_mem _ (Nat.mod_lt _ (by decide)))
    · exact Or.inr h
  | case4 a b c rest ih =>
    intro x hx
    simp only [encodeLoop, List.mem_cons] at hx
    rcases hx with h | h | h | h | h
    · rw [h]; exact Or.inl (encodeByte_mem _ (Nat.mod_lt _ (by decide)))
    · rw [h]; exact Or.inl (encodeByte_mem _ (Nat.mod_lt _ (by decide)))
    · rw [h]; exact Or.inl (encodeByte_mem _ (Nat.mod_lt _ (by decide)))
    · rw [h]; exact Or.inl (encodeByte_mem _ (Nat.mod_lt _ (by decide)))
    · exact ih x h

theorem EncodeToString_mem (src : List Nat) (c : Char) (h : c ∈ EncodeToString src) :
    c.toNat ∈ encodeURL ∨ c.toNat = padChar := by
  unfold EncodeToString at h
  rw [List.mem_map] at h
  obtain ⟨x, hx, rfl⟩ := h
  have hlt := encodeLoop_lt src x hx
  rw [toNat_ofNat_of_lt x (by omega)]
  exact encodeLoop_alphabet src x hx

/-! ## Theorems: the alphabet of the tokens -/

/-- C11: for every cursor data, the token returned by `EncodeCursor` contains
neither the character `+` nor the character `/`. -/
theorem EncodeCursor_url_safe (d : CursorData) :
    '+' ∉ (EncodeCursor d).1 ∧ '/' ∉ (EncodeCursor d).1 := by
  have henc : EncodeCursor d = (EncodeToString (Marshal d).1, none) := rfl
  rw [henc]
  constructor
  · intro h
    have := EncodeToString_mem _ _ h
    revert this
    decide
  · intro h
    have := EncodeToString_mem _ _ h
    revert this
    decide

/-! ## Lemmas: machine integers -/

theorem wrap64_of_isInt64 (x : Int) (h : isInt64 x) : wrap64 x = x := by
  unfold isInt64 MinInt64 MaxInt64 at h
  unfold wrap64
  omega

theorem wrap64_isInt64 (x : Int) : isInt64 (wrap64 x) := by
  unfold isInt64 MinInt64 MaxInt64 wrap64
  omega

theorem wrap64_modEq (x : Int) : wrap64 x ≡ x [ZMOD 18446744073709551616] := by
  unfold wrap64
  have h := (Int.mod_modEq (x + 9223372036854775808) 18446744073709551616).sub_right
    9223372036854775808
  simpa using h

theorem wrap64_congr (x y : Int) (h : x ≡ y [ZMOD 18446744073709551616]) :
    wrap64 x = wrap64 y := by
  unfold wrap64
  have h2 : (x + 9223372036854775808) % 18446744073709551616 =
      (y + 9223372036854775808) % 18446744073709551616 := h.add_right 9223372036854775808
  rw [h2]

theorem wrap64_mul_left (a b : Int) : wrap64 (wrap64 a * b) = wrap64 (a * b) :=
  wrap64_congr _ _ ((wrap64_modEq a).mul_right b)

/-! ## Theorems: page requests -/

/-- C12: for all integers `page` and `size` and every sort list,
`NewPageRequest page size sort` has `Page = page` when `page >= 1` and
`DefaultPage = 1` otherwise; `Size = DefaultSize = 10` when `size < 1`,
`MaxSize = 1000` when `size > MaxSize`, and `size` otherwise (so size 0 gives
10); and the sort list unchanged. -/
theorem NewPageRequest_spec (page size : Int) (sort : Slice GoSort) :
    (NewPageRequest page size sort).Page = (if page ≥ 1 then page else DefaultPage) ∧
      (NewPageRequest page size sort).Size =
        (if size < 1 then DefaultSize else if size > MaxSize then MaxSize else size) ∧
      (NewPageRequest page size sort).Sorts = sort ∧
      DefaultPage = 1 ∧ DefaultSize = 10 ∧ MaxSize = 1000 ∧
      (NewPageRequest page 0 sort).Size = 10 := by
  refine ⟨?_, ?_, rfl, rfl, rfl, rfl, rfl⟩
  · simp only [NewPageRequest, DefaultPage]
    split_ifs <;> omega
  · simp only [NewPageRequest, DefaultSize, MaxSize]
    split_ifs <;> omega

/-- C15, counterexample: the request `NewPageRequest 9223372036854775807 1000 nil`
has page 9223372036854775807, the largest Go `int`, and size 1000; its
`Offset` is -2000, while `(Page - 1) * Size` is 9223372036854775806000. -/
theorem Offset_wraps :
    NewPageRequest 9223372036854775807 1000 none =
        { Page := 9223372036854775807, Size := 1000, Sorts := none } ∧
      isInt64 9223372036854775807 ∧
      PageRequest.Offset (NewPageRequest 9223372036854775807 1000 none) = -2000 ∧
      ((NewPageRequest 9223372036854775807 1000 none).Page - 1) *
        (NewPageRequest 9223372036854775807 1000 none).Size = 9223372036854775806000 := by
  decide

/-- C15, amended: for every page request whose product `(Page - 1) * Size` is a
value of a Go `int`, `Offset` equals `(Page - 1) * Size`; page 1 gives 0 for
every size.  In general `Offset` is that product wrapped to 64 bits. -/
theorem Offset_spec (r : PageRequest) :
    (isInt64 ((r.Page - 1) * r.Size) → r.Offset = (r.Page - 1) * r.Size) ∧
      (r.Page = 1 → r.Offset = 0) ∧
      r.Offset = wrap64 ((r.Page - 1) * r.Size) := by
  have h1 : r.Offset = wrap64 ((r.Page - 1) * r.Size) := wrap64_mul_left _ _
  refine ⟨?_, ?_, h1⟩
  · intro h
    rw [h1, wrap64_of_isInt64 _ h]
  · intro hp
    rw [h1, hp]
    have : ((1 : Int) - 1) * r.Size = 0 := by simp
    rw [this]
    rfl

/-- C15, amended, at page 3 and size 20: the offset is 40. -/
theorem Offset_spec_witness :
    isInt64 (((3 : Int) - 1) * 20) ∧
      PageRequest.Offset { Page := 3, Size := 20, Sorts := none } = (3 - 1) * 20 :=
  ⟨by decide, (Offset_spec { Page := 3, Size := 20, Sorts := none }).1 (by decide)⟩

/-- C17: for a page request and a cursor request alike, `WithDefaultSort ds`
returns the request itself when its sort is set, a present list of length zero
included; when the sort is unset the result has sort `ds` and the other
fields of the request. -/
theorem WithDefaultSort_spec (r : PageRequest) (c : CursorRequest) (ds : Slice GoSort) :
    (r.Sorts ≠ none → r.WithDefaultSort ds = r) ∧
      (r.Sorts = some [] → r.WithDefaultSort ds = r) ∧
      (r.Sorts = none →
        (r.WithDefaultSort ds).Sorts = ds ∧ (r.WithDefaultSort ds).Page = r.Page ∧
          (r.WithDefaultSort ds).Size = r.Size) ∧
      (c.Sorts ≠ none → c.WithDefaultSort ds = c) ∧
      (c.Sorts = some [] → c.WithDefaultSort ds = c) ∧
      (c.Sorts = none →
        (c.WithDefaultSort ds).Sorts = ds ∧ (c.WithDefaultSort ds).Cursor = c.Cursor ∧
          (c.WithDefaultSort ds).Size = c.Size) := by
  obtain ⟨p, s, so⟩ := r
  obtain ⟨cu, cs, cso⟩ := c
  refine ⟨?_, ?_, ?_, ?_, ?_, ?_⟩
  · intro h
    cases so with
    | none => exact absurd rfl h
    | some l => rfl
  · intro h
    simp only at h
    subst h
    rfl
  · intro h
    simp only at h
    subst h
    exact ⟨rfl, rfl, rfl⟩
  · intro h
    cases cso with
    | none => exact absurd rfl h
    | some l => rfl
  · intro h
    simp only at h
    subst h
    rfl
  · intro h
    simp only at h
    subst h
    exact ⟨rfl, rfl, rfl⟩

/-- C17 at a page request whose sort is a present empty list and at a cursor
request whose sort is unset. -/
theorem WithDefaultSort_spec_witness :
    PageRequest.WithDefaultSort { Page := 2, Size := 10, Sorts := some [] }
        (some [{ Field := "id".toList, Direction := ASC }]) =
      { Page := 2, Size := 10, Sorts := some [] } ∧
    (CursorRequest.WithDefaultSort { Cursor := "abc".toList, Size := 10, Sorts := none }
        (some [{ Field := "id".toList, Direction := ASC }])).Sorts =
      some [{ Field := "id".toList, Direction := ASC }] :=
  ⟨(WithDefaultSort_spec { Page := 2, Size := 10, Sorts := some [] }
      { Cursor := "abc".toList, Size := 10, Sorts := none }
      (some [{ Field := "id".toList, Direction := ASC }])).2.1 rfl,
    ((WithDefaultSort_spec { Page := 2, Size := 10, Sorts := some [] }
      { Cursor := "abc".toList, Size := 10, Sorts := none }
      (some [{ Field := "id".toList, Direction := ASC }])).2.2.2.2.2 rfl).1⟩

/-- C18: when the cursor of a request is the empty string, `DecodedCursor`
returns the zero cursor data and no error; when it is not empty,
`DecodedCursor` returns what `DecodeCursor` returns for it, data and error
alike. -/
theorem DecodedCursor_spec (r : CursorRequest) :
    (r.Cursor = [] → r.DecodedCursor = (CursorData.zero, none)) ∧
      (r.Cursor ≠ [] → r.DecodedCursor = DecodeCursor r.Cursor) := by
  constructor
  · intro h
    unfold CursorRequest.DecodedCursor
    rw [if_pos h]
  · intro h
    unfold CursorRequest.DecodedCursor
    rw [if_neg h]

/-- C18 at the empty cursor and at the cursor `!`, which is not a token. -/
theorem DecodedCursor_spec_witness :
    CursorRequest.DecodedCursor { Cursor := [], Size := 10, Sorts := none } =
        (CursorData.zero, none) ∧
      CursorRequest.DecodedCursor { Cursor := "!".toList, Size := 10, Sorts := none } =
        DecodeCursor "!".toList :=
  ⟨(DecodedCursor_spec { Cursor := [], Size := 10, Sorts := none }).1 rfl,
    (DecodedCursor_spec { Cursor := "!".toList, Size := 10, Sorts := none }).2 (by decide)⟩

/-- C19: for every cursor string, integer `size` and sort list,
`NewCursorRequest cursor size sort` has `Size = DefaultCursorSize = 10` when
`size < 1`, `MaxCursorSize = 1000` when `size > MaxCursorSize`, and `size`
otherwise; the cursor, the empty one included, and the sort list are passed
through unchanged. -/
theorem NewCursorRequest_spec (cursor : GoString) (size : Int) (sort : Slice GoSort) :
    (NewCursorRequest cursor size sort).Size =
        (if size < 1 then DefaultCursorSize
          else if size > MaxCursorSize then MaxCursorSize else size) ∧
      (NewCursorRequest cursor size sort).Cursor = cursor ∧
      (NewCursorRequest [] size sort).Cursor = [] ∧
      (NewCursorRequest cursor size sort).Sorts = sort ∧
      DefaultCursorSize = 10 ∧ MaxCursorSize = 1000 := by
  refine ⟨?_, rfl, rfl, rfl, rfl, rfl⟩
  simp only [NewCursorRequest, DefaultCursorSize, MaxCursorSize]
  split_ifs <;> omega

/-! ## Lemmas: `strings.Join` -/

theorem Join_foldl (sep : GoString) (rest : List GoString) (e : GoString) :
    rest.foldl (fun b s => b ++ sep ++ s) e =
      e ++ (rest.map (fun s => sep ++ s)).flatten := by
  induction rest generalizing e with
  | nil => simp
  | cons x xs ih =>
    simp only [List.foldl_cons, List.map_cons, List.flatten_cons]
    rw [ih]
    simp [List.append_assoc]

theorem intercalate_cons (sep : GoString) (e : GoString) (rest : List GoString) :
    sep.intercalate (e :: rest) = e ++ (rest.map (fun s => sep ++ s)).flatten := by
  induction rest generalizing e with
  | nil => simp [List.intercalate]
  | cons x xs ih =>
    have h := ih x
    simp only [List.intercalate, List.intersperse, List.flatten_cons, List.map_cons] at h ⊢
    rw [h]
    simp [List.append_assoc]

theorem Join_eq_intercalate (elems : List GoString) (sep : GoString) :
    Join elems sep = sep.intercalate elems := by
  cases elems with
  | nil => rfl
  | cons e rest =>
    cases rest with
    | nil => simp [Join, List.intercalate]
    | cons x xs =>
      rw [intercalate_cons]
      simp only [Join]
      rw [Join_foldl]

/-! ## Lemmas: sizes of the requests read from a query -/

theorem CursorRequestFromQuery_size (lowerTable : Char → Char) (q : Values) :
    1 ≤ (CursorRequestFromQuery lowerTable q).Size ∧
      (CursorRequestFromQuery lowerTable q).Size ≤ 1000 := by
  simp only [CursorRequestFromQuery, DefaultCursorSize, MaxCursorSize]
  generalize Atoi (Values.Get q "size".toList) = a
  obtain ⟨s, e⟩ := a
  cases e with
  | none =>
    simp only
    split_ifs <;> omega
  | some err =>
    simp only
    split_ifs <;> omega

theorem NewCursorRequest_size (cursor : GoString) (size : Int) (sort : Slice GoSort) :
    1 ≤ (NewCursorRequest cursor size sort).Size ∧
      (NewCursorRequest cursor size sort).Size ≤ 1000 := by
  simp only [NewCursorRequest, DefaultCursorSize, MaxCursorSize]
  split_ifs <;> omega

theorem Limit_of_size (r : CursorRequest) (h1 : 1 ≤ r.Size) (h2 : r.Size ≤ 1000) :
    r.Limit = r.Size + 1 ∧ r.Size < r.Limit ∧ 2 ≤ r.Limit ∧ r.Limit ≤ MaxCursorSize + 1 := by
  have h : r.Limit = r.Size + 1 := by
    unfold CursorRequest.Limit wrap64
    omega
  rw [h]
  unfold MaxCursorSize
  omega

/-! ## Theorems: derived values of the requests -/

/-- C20, counterexample: a cursor request whose size is the largest `int` has a
limit that is not `Size + 1`: the sum wraps to the smallest `int`. -/
theorem Limit_wraps :
    isInt64 9223372036854775807 ∧
      CursorRequest.Limit { Cursor := [], Size := 9223372036854775807, Sorts := none } =
        -9223372036854775808 ∧
      CursorRequest.Limit { Cursor := [], Size := 9223372036854775807, Sorts := none } ≠
        9223372036854775807 + 1 := by
  decide

/-- C20, amended: for every cursor request whose size is a Go `int` other than
the largest one, `Limit` equals `Size + 1`; and for every request returned by
`NewCursorRequest` or `CursorRequestFromQuery`, `Limit` equals `Size + 1`, is
strictly greater than `Size` and lies between 2 and `MaxCursorSize + 1`. -/
theorem Limit_spec (lowerTable : Char → Char) (cursor : GoString) (size : Int)
    (sort : Slice GoSort) (q : Values) (r : CursorRequest) :
    (isInt64 r.Size → r.Size ≠ MaxInt64 → r.Limit = r.Size + 1) ∧
      ((NewCursorRequest cursor size sort).Limit = (NewCursorRequest cursor size sort).Size + 1 ∧
        (NewCursorRequest cursor size sort).Size < (NewCursorRequest cursor size sort).Limit ∧
        2 ≤ (NewCursorRequest cursor size sort).Limit ∧
        (NewCursorRequest cursor size sort).Limit ≤ MaxCursorSize + 1) ∧
      ((CursorRequestFromQuery lowerTable q).Limit =
          (CursorRequestFromQuery lowerTable q).Size + 1 ∧
        (CursorRequestFromQuery lowerTable q).Size < (CursorRequestFromQuery lowerTable q).Limit ∧
        2 ≤ (CursorRequestFromQuery lowerTable q).Limit ∧
        (CursorRequestFromQuery lowerTable q).Limit ≤ MaxCursorSize + 1) := by
  refine ⟨?_, ?_, ?_⟩
  · intro hr hmax
    unfold isInt64 MinInt64 MaxInt64 at hr
    unfold MaxInt64 at hmax
    unfold CursorRequest.Limit wrap64
    omega
  · exact Limit_of_size _ (NewCursorRequest_size cursor size sort).1
      (NewCursorRequest_size cursor size sort).2
  · exact Limit_of_size _ (CursorRequestFromQuery_size lowerTable q).1
      (CursorRequestFromQuery_size lowerTable q).2

/-- C20, amended, at a request of size 25: the limit is 26. -/
theorem Limit_spec_witness :
    isInt64 25 ∧ (25 : Int) ≠ MaxInt64 ∧
      CursorRequest.Limit { Cursor := [], Size := 25, Sorts := none } = 25 + 1 :=
  ⟨by decide, by decide,
    (Limit_spec id [] 25 none (fun _ => none) { Cursor := [], Size := 25, Sorts := none }).1
      (by decide) (by decide)⟩

/-! ## Lemmas: the number of pages -/

theorem NewPage_totalPages_zero {T : Type} (items : Slice T) (r : PageRequest) (t : Int)
    (h : ¬ (t > 0 ∧ r.Size > 0)) : (NewPage items r t).Metadata.TotalPages = 0 := by
  simp only [NewPage]
  rw [if_neg h]

theorem NewPage_totalPages_ceil {T : Type} (items : Slice T) (r : PageRequest) (t : Int)
    (ht : t > 0) (hs : r.Size > 0) (hfit : t + r.Size - 1 ≤ MaxInt64) :
    (NewPage items r t).Metadata.TotalPages * r.Size ≥ t ∧
      ∀ m : Int, m * r.Size ≥ t → (NewPage items r t).Metadata.TotalPages ≤ m := by
  have hv : (NewPage items r t).Metadata.TotalPages = (t + r.Size - 1) / r.Size := by
    simp only [NewPage]
    rw [if_pos ⟨ht, hs⟩]
    have h1 : wrap64 (wrap64 (t + r.Size) - 1) = t + r.Size - 1 := by
      unfold MaxInt64 at hfit
      unfold wrap64
      omega
    rw [h1, Int.tdiv_eq_ediv (by omega) (by omega)]
  rw [hv]
  have h1 : (t + r.Size - 1) / r.Size * r.Size ≤ t + r.Size - 1 :=
    Int.ediv_mul_le _ (by omega)
  have h2 : t + r.Size - 1 < ((t + r.Size - 1) / r.Size + 1) * r.Size :=
    Int.lt_ediv_add_one_mul_self _ hs
  constructor
  · have h3 : ((t + r.Size - 1) / r.Size + 1) * r.Size =
        (t + r.Size - 1) / r.Size * r.Size + r.Size := by ring
    omega
  · intro m hm
    by_contra hlt
    have h4 : m + 1 ≤ (t + r.Size - 1) / r.Size := by omega
    have h5 : (m + 1) * r.Size ≤ (t + r.Size - 1) / r.Size * r.Size :=
      Int.mul_le_mul_of_nonneg_right h4 (by omega)
    have h6 : (m + 1) * r.Size = m * r.Size + r.Size := by ring
    omega

/-! ## Theorems: the number of pages -/

/-- C14, failing input: for the request `NewPageRequest 1 10 nil` and a total
of 9223372036854775807 items, the largest `int64`, the sum
`totalItems + Size - 1` wraps and `NewPage` reports -922337203685477580 pages,
while the least `n` with `n * 10 >= totalItems` is 922337203685477581. -/
theorem NewPage_totalPages_overflow :
    (NewPage (none : Slice Nat) (NewPageRequest 1 10 none)
        9223372036854775807).Metadata.TotalPages = -922337203685477580 ∧
      isInt64 9223372036854775807 ∧
      (922337203685477581 : Int) * (NewPageRequest 1 10 none).Size ≥ 9223372036854775807 ∧
      ((922337203685477581 : Int) - 1) * (NewPageRequest 1 10 none).Size <
        9223372036854775807 := by
  decide

/-! ## Lemmas: `strconv.Atoi` -/

theorem bytesValue_ge (ds : List Nat) (n : Nat) : n ≤ bytesValue ds n := by
  induction ds generalizing n with
  | nil => exact Nat.le_refl _
  | cons c rest ih =>
    have h := ih (n * 10 + (c - 48))
    simp only [bytesValue, List.foldl_cons] at h ⊢
    omega

theorem bytesValue_lt (ds : List Nat) (n : Nat) (hd : ds.all isDigitByte = true) :
    bytesValue ds n < (n + 1) * 10 ^ ds.length := by
  induction ds generalizing n with
  | nil => simp [bytesValue]
  | cons c rest ih =>
    simp only [List.all_cons, Bool.and_eq_true] at hd
    have hc := hd.1
    simp only [isDigitByte, decide_eq_true_eq] at hc
    have h := ih (n * 10 + (c - 48)) hd.2
    simp only [bytesValue, List.foldl_cons, List.length_cons] at h ⊢
    have h2 : (n * 10 + (c - 48) + 1) * 10 ^ rest.length ≤ (n + 1) * 10 ^ (rest.length + 1) := by
      rw [pow_succ]
      have : n * 10 + (c - 48) + 1 ≤ (n + 1) * 10 := by omega
      calc (n * 10 + (c - 48) + 1) * 10 ^ rest.length
          ≤ ((n + 1) * 10) * 10 ^ rest.length := Nat.mul_le_mul_right _ this
        _ = (n + 1) * (10 ^ rest.length * 10) := by ring
    omega

theorem atoiFastLoop_eq (ds : List Nat) (hb : ∀ c ∈ ds, c < 256) (n : Nat) :
    atoiFastLoop ds (n : Int) =
      if ds.all isDigitByte = true then some ((bytesValue ds n : Nat) : Int) else none := by
  induction ds generalizing n with
  | nil => simp [atoiFastLoop, bytesValue]
  | cons c rest ih =>
    have hc : c < 256 := hb c (by simp)
    have hrest : ∀ x ∈ rest, x < 256 := fun x hx => hb x (by simp [hx])
    simp only [atoiFastLoop, List.all_cons]
    by_cases hd : 48 ≤ c ∧ c ≤ 57
    · have h1 : ¬ ((c + 256 - 48) % 256 > 9) := by omega
      have h2 : (c + 256 - 48) % 256 = c - 48 := by omega
      have h3 : isDigitByte c = true := by simp [isDigitByte, hd]
      rw [if_neg h1, h2]
      simp only [h3, Bool.true_and]
      have h4 : ((n : Int) * 10 + ((c - 48 : Nat) : Int)) = ((n * 10 + (c - 48) : Nat) : Int) := by
        push_cast
        rfl
      rw [h4, ih hrest]
      simp [bytesValue]
    · have h1 : (c + 256 - 48) % 256 > 9 := by omega
      have h3 : isDigitByte c = false := by simp [isDigitByte]; omega
      rw [if_pos h1]
      simp [h3]

theorem parseUintLoop_ok (ds : List Nat) (n : Nat)
    (hd : ds.all isDigitByte = true) (hv : bytesValue ds n ≤ maxUint64) :
    parseUintLoop ds n = (bytesValue ds n, none) := by
  induction ds generalizing n with
  | nil => rfl
  | cons c rest ih =>
    simp only [List.all_cons, Bool.and_eq_true] at hd
    have hc := hd.1
    simp only [isDigitByte, decide_eq_true_eq] at hc
    have hge := bytesValue_ge rest (n * 10 + (c - 48))
    simp only [bytesValue, List.foldl_cons] at hv hge ⊢
    unfold maxUint64 at hv
    unfold parseUintLoop
    simp only
    rw [if_pos hc]
    simp only
    rw [if_neg (by omega), if_neg (by unfold maxUint64; omega)]
    have h1 : (n * 10 + (c - 48)) % 18446744073709551616 = n * 10 + (c - 48) := by omega
    rw [h1, if_neg (by unfold maxUint64; omega)]
    exact ih _ hd.2 (by unfold maxUint64; exact hv)

theorem parseUintLoop_nondigit (c : Nat) (rest : List Nat) (n : Nat)
    (hc : ¬ (48 ≤ c ∧ c ≤ 57)) :
    parseUintLoop (c :: rest) n = (0, some NumError.ErrSyntax) := by
  unfold parseUintLoop
  simp only
  rw [if_neg hc]
  by_cases hl : 97 ≤ c ||| 32 ∧ c ||| 32 ≤ 122
  · rw [if_pos hl]
    simp only
    rw [if_pos (by omega)]
  · rw [if_neg hl]

theorem parseUintLoop_bad (ds : List Nat) (n : Nat) (hn : n ≤ maxUint64)
    (h : ¬ (ds.all isDigitByte = true ∧ bytesValue ds n ≤ maxUint64)) :
    (∃ v e, parseUintLoop ds n = (v, some e)) ∧
      ∀ v, parseUintLoop ds n = (v, some NumError.ErrRange) → v = maxUint64 := by
  induction ds generalizing n with
  | nil =>
    exfalso
    apply h
    exact ⟨rfl, hn⟩
  | cons c rest ih =>
    by_cases hc : 48 ≤ c ∧ c ≤ 57
    · have h3 : isDigitByte c = true := by simp [isDigitByte, hc]
      have hstep : bytesValue (c :: rest) n = bytesValue rest (n * 10 + (c - 48)) := rfl
      unfold parseUintLoop
      simp only
      rw [if_pos hc]
      simp only
      rw [if_neg (by omega)]
      by_cases hcut : n ≥ maxUint64 / 10 + 1
      · rw [if_pos hcut]
        exact ⟨⟨_, _, rfl⟩, fun v hv => by injection hv with h1 _; exact h1.symm⟩
      · rw [if_neg hcut]
        unfold maxUint64 at hcut
        by_cases hw : (n * 10 + (c - 48)) % 18446744073709551616 < n * 10 ∨
            (n * 10 + (c - 48)) % 18446744073709551616 > maxUint64
        · rw [if_pos hw]
          exact ⟨⟨_, _, rfl⟩, fun v hv => by injection hv with h1 _; exact h1.symm⟩
        · rw [if_neg hw]
          unfold maxUint64 at hw
          have h1 : (n * 10 + (c - 48)) % 18446744073709551616 = n * 10 + (c - 48) := by omega
          rw [h1]
          apply ih
          · unfold maxUint64; omega
          · intro hh
            apply h
            rw [hstep]
            simp only [List.all_cons, h3, Bool.true_and]
            exact hh
    · rw [parseUintLoop_nondigit c rest n hc]
      exact ⟨⟨_, _, rfl⟩, fun v hv => by injection hv with _ h2; injection h2 with h3; cases h3⟩

theorem ParseUint_cases (s : List Nat) :
    (s ≠ [] ∧ s.all isDigitByte = true ∧ bytesValue s 0 ≤ maxUint64 ∧
        ParseUint s = (bytesValue s 0, none)) ∨
      (¬ (s ≠ [] ∧ s.all isDigitByte = true ∧ bytesValue s 0 ≤ maxUint64) ∧
        ∃ v e, ParseUint s = (v, some e) ∧ (e = NumError.ErrRange → v = maxUint64)) := by
  by_cases hs : s = []
  · right
    subst hs
    exact ⟨by simp, 0, NumError.ErrSyntax, rfl, by intro h; cases h⟩
  · unfold ParseUint
    rw [if_neg hs]
    by_cases h : s.all isDigitByte = true ∧ bytesValue s 0 ≤ maxUint64
    · left
      exact ⟨hs, h.1, h.2, parseUintLoop_ok s 0 h.1 h.2⟩
    · right
      obtain ⟨⟨v, e, hve⟩, hr⟩ := parseUintLoop_bad s 0 (by decide) h
      refine ⟨fun hh => h ⟨hh.2.1, hh.2.2⟩, v, e, hve, ?_⟩
      intro he
      subst he
      exact hr v hve

theorem ParseInt_iff (b : List Nat) (hne : b ≠ []) (n : Int) :
    ParseInt b = (n, none) ↔ decimalBytes b = some n ∧ isInt64 n := by
  have hbody : (if b.head? = some 45 ∨ b.head? = some 43 then b.tail else b) =
      (if b.head? = some 43 ∨ b.head? = some 45 then b.tail else b) := by
    by_cases h1 : b.head? = some 43 <;> by_cases h2 : b.head? = some 45 <;> simp [h1, h2]
  unfold ParseInt decimalBytes
  rw [if_neg hne]
  simp only [hbody]
  generalize (if b.head? = some 43 ∨ b.head? = some 45 then b.tail else b) = s1
  rcases ParseUint_cases s1 with ⟨hs, hd, hv, hp⟩ | ⟨hbad, v, e, hp, hr⟩
  · rw [hp]
    simp only
    rw [if_pos (⟨hs, hd⟩ : s1 ≠ [] ∧ s1.all isDigitByte = true)]
    unfold maxUint64 at hv
    generalize bytesValue s1 0 = un at hv
    unfold isInt64 MinInt64 MaxInt64 wrap64
    by_cases hneg : b.head? = some 45
    · have hdec : decide (b.head? = some 45) = true := by simp [hneg]
      simp only [hdec, if_pos hneg, if_true, Option.some.injEq]
      rw [if_neg (by simp)]
      by_cases h2 : un > 9223372036854775808
      · rw [if_pos ⟨trivial, h2⟩]
        constructor
        · intro h
          injection h with _ h3
          cases h3
        · intro h
          exfalso
          omega
      · rw [if_neg (fun h => h2 h.2)]
        rw [Prod.mk.injEq]
        constructor
        · intro h
          omega
        · intro h
          exact ⟨by omega, rfl⟩
    · have hdec : decide (b.head? = some 45) = false := by simp [hneg]
      simp only [hdec, if_neg hneg, Option.some.injEq, Bool.false_eq_true, if_false]
      by_cases h2 : un ≥ 9223372036854775808
      · rw [if_pos ⟨trivial, h2⟩]
        constructor
        · intro h
          injection h with _ h3
          cases h3
        · intro h
          exfalso
          omega
      · rw [if_neg (fun h => h2 h.2), if_neg (by simp)]
        rw [Prod.mk.injEq]
        constructor
        · intro h
          omega
        · intro h
          exact ⟨by omega, rfl⟩
  · have hl : (match (Pageable.ParseUint s1 : Nat × Option NumError) with
        | (_, some NumError.ErrSyntax) => ((0 : Int), some NumError.ErrSyntax)
        | (un, _) =>
          if decide (b.head? = some 45) = false ∧ un ≥ 9223372036854775808 then
            (((9223372036854775808 : Nat) : Int) - 1, some NumError.ErrRange)
          else if decide (b.head? = some 45) = true ∧ un > 9223372036854775808 then
            (-((9223372036854775808 : Nat) : Int), some NumError.ErrRange)
          else
            (if decide (b.head? = some 45) = true then wrap64 (-(wrap64 (un : Int)))
              else wrap64 (un : Int), none)) ≠ (n, none) := by
      rw [hp]
      cases e with
      | ErrSyntax =>
        simp only
        intro h
        injection h with _ h3
        cases h3
      | ErrRange =>
        simp only
        have hvv := hr rfl
        subst hvv
        unfold maxUint64
        by_cases hneg : b.head? = some 45
        · have hdec : decide (b.head? = some 45) = true := by simp [hneg]
          simp only [hdec]
          rw [if_neg (by simp), if_pos ⟨trivial, by omega⟩]
          intro h
          injection h with _ h3
          cases h3
        · have hdec : decide (b.head? = some 45) = false := by simp [hneg]
          simp only [hdec]
          rw [if_pos ⟨trivial, by omega⟩]
          intro h
          injection h with _ h3
          cases h3
    constructor
    · intro h
      exact absurd h hl
    · intro h
      exfalso
      apply hbad
      by_cases hb2 : s1 ≠ [] ∧ s1.all isDigitByte = true
      · rw [if_pos hb2] at h
        refine ⟨hb2.1, hb2.2, ?_⟩
        obtain ⟨h1, h2⟩ := h
        unfold isInt64 MinInt64 MaxInt64 at h2
        unfold maxUint64
        rw [Option.some.injEq] at h1
        split_ifs at h1 <;> omega
      · rw [if_neg hb2] at h
        cases h.1

theorem atoiFast_core (ds : List Nat) (hds : ∀ c ∈ ds, c < 256) (hne : ds ≠ [])
    (hlen : ds.length < 19) (neg : Prop) [Decidable neg] (n : Int) :
    (match atoiFastLoop ds 0 with
      | none => ((0 : Int), some NumError.ErrSyntax)
      | some m => (if neg then -m else m, none)) = (n, none) ↔
      (if ds ≠ [] ∧ ds.all isDigitByte = true then
          some (if neg then -(bytesValue ds 0 : Int) else (bytesValue ds 0 : Int))
        else none) = some n ∧ isInt64 n := by
  have h := atoiFastLoop_eq ds hds 0
  rw [Nat.cast_zero] at h
  rw [h]
  by_cases hall : ds.all isDigitByte = true
  · rw [if_pos hall, if_pos ⟨hne, hall⟩]
    simp only
    have hlt := bytesValue_lt ds 0 hall
    have hpow : 10 ^ ds.length ≤ 10 ^ 18 := Nat.pow_le_pow_right (by decide) (by omega)
    have hb : bytesValue ds 0 < 1000000000000000000 := by
      have : (10 : Nat) ^ 18 = 1000000000000000000 := by norm_num
      omega
    generalize bytesValue ds 0 = v at hb
    unfold isInt64 MinInt64 MaxInt64
    rw [Prod.mk.injEq, Option.some.injEq]
    constructor
    · intro hh
      refine ⟨hh.1, ?_⟩
      have h1 := hh.1
      split_ifs at h1 <;> omega
    · intro hh
      exact ⟨hh.1, rfl⟩
  · rw [if_neg hall, if_neg (fun hh => hall hh.2)]
    simp only
    constructor
    · intro hh
      injection hh with _ h3
      cases h3
    · intro hh
      cases hh.1

theorem atoiBytes_iff (b : List Nat) (hb : ∀ c ∈ b, c < 256) (n : Int) :
    atoiBytes b = (n, none) ↔ decimalBytes b = some n ∧ isInt64 n := by
  by_cases hfast : 0 < b.length ∧ b.length < 19
  · unfold atoiBytes decimalBytes
    rw [if_pos hfast]
    simp only
    have hne : b ≠ [] := by
      intro h
      rw [h] at hfast
      simp at hfast
    by_cases hsign : b.head? = some 45 ∨ b.head? = some 43
    · have hdec : decide (b.head? = some 45 ∨ b.head? = some 43) = true := by simp [hsign]
      simp only [hdec, if_pos hsign, if_true, true_and]
      by_cases ht : b.tail = []
      · have hl : b.tail.length < 1 := by rw [ht]; decide
        rw [if_pos hl, if_neg (fun hh => hh.1 ht)]
        constructor
        · intro h
          injection h with _ h3
          cases h3
        · intro h
          cases h.1
      · have hl : ¬ b.tail.length < 1 := by
          intro hh
          apply ht
          apply List.length_eq_zero.mp
          omega
        rw [if_neg hl]
        have hlen : b.tail.length < 19 := by
          rw [List.length_tail]
          omega
        exact atoiFast_core b.tail (fun c hc => hb c (List.mem_of_mem_tail hc)) ht hlen _ n
    · have hdec : decide (b.head? = some 45 ∨ b.head? = some 43) = false := by simp [hsign]
      simp only [hdec, if_neg hsign, Bool.false_eq_true, if_false, false_and]
      exact atoiFast_core b hb hne hfast.2 _ n
  · unfold atoiBytes
    rw [if_neg hfast]
    by_cases hne : b = []
    · subst hne
      constructor
      · intro h
        injection h with _ h3
        cases h3
      · intro h
        cases h.1
    · exact ParseInt_iff b hne n

/-! ## Lemmas: the bytes of a decimal text -/

theorem toBytes_lt (s : GoString) : ∀ b ∈ toBytes s, b < 256 := by
  induction s with
  | nil => intro b hb; simp [toBytes] at hb
  | cons c cs ih =>
    intro b hb
    simp only [toBytes, List.mem_append] at hb
    rcases hb with h | h
    · exact utf8EncodeChar_lt c b h
    · exact ih b h

theorem isDigitChar_iff (c : Char) : isDigitChar c = true ↔ 48 ≤ c.toNat ∧ c.toNat ≤ 57 := by
  unfold isDigitChar
  rw [decide_eq_true_eq]
  exact Iff.rfl

theorem utf8EncodeChar_ascii (c : Char) (h : c.toNat ≤ 0x7F) : utf8EncodeChar c = [c.toNat] := by
  unfold utf8EncodeChar
  simp only
  rw [if_pos h]

theorem utf8EncodeChar_digits (c : Char) :
    (utf8EncodeChar c).all isDigitByte = isDigitChar c := by
  by_cases h : c.toNat ≤ 0x7F
  · rw [utf8EncodeChar_ascii c h]
    simp only [List.all_cons, List.all_nil, Bool.and_true]
    rfl
  · obtain ⟨p0, t, he, hp0⟩ := utf8EncodeChar_head c (by omega)
    rw [he]
    have h1 : isDigitByte p0 = false := by
      simp only [isDigitByte, decide_eq_false_iff_not]
      omega
    have h2 : isDigitChar c = false := by
      rw [← Bool.not_eq_true, isDigitChar_iff]
      omega
    simp [h1, h2]

theorem toBytes_digits (cs : List Char) :
    (toBytes cs).all isDigitByte = cs.all isDigitChar := by
  induction cs with
  | nil => rfl
  | cons c cs ih =>
    simp only [toBytes, List.all_append, List.all_cons]
    rw [utf8EncodeChar_digits, ih]

theorem bytesValue_toBytes (cs : List Char) (n : Nat) (h : cs.all isDigitChar = true) :
    bytesValue (toBytes cs) n = cs.foldl (fun n c => n * 10 + (c.toNat - 48)) n := by
  induction cs generalizing n with
  | nil => rfl
  | cons c cs ih =>
    simp only [List.all_cons, Bool.and_eq_true] at h
    have hc := (isDigitChar_iff c).mp h.1
    simp only [toBytes, List.foldl_cons]
    rw [utf8EncodeChar_ascii c (by omega)]
    simp only [bytesValue, List.singleton_append, List.foldl_cons]
    exact ih _ h.2

theorem toBytes_eq_nil (cs : List Char) : toBytes cs = [] ↔ cs = [] := by
  cases cs with
  | nil => simp [toBytes]
  | cons c cs =>
    simp only [toBytes, List.append_eq_nil, reduceCtorEq, iff_false, not_and]
    intro h
    exact absurd h (utf8EncodeChar_ne_nil c)

theorem toBytes_head (s : GoString) (k : Nat) (hk : k < 128) :
    (toBytes s).head? = some k ↔ s.head? = some (Char.ofNat k) := by
  cases s with
  | nil => simp [toBytes]
  | cons c cs =>
    simp only [toBytes, List.head?_cons, Option.some.injEq]
    rw [char_eq_iff_toNat, toNat_ofNat_of_lt k (by omega)]
    by_cases h : c.toNat ≤ 0x7F
    · rw [utf8EncodeChar_ascii c h]
      simp
    · obtain ⟨p0, t, he, hp0⟩ := utf8EncodeChar_head c (by omega)
      rw [he]
      simp only [List.cons_append, List.head?_cons, Option.some.injEq]
      omega

theorem toBytes_tail (s : GoString) (k : Nat) (hk : k < 128)
    (h : s.head? = some (Char.ofNat k)) : (toBytes s).tail = toBytes s.tail := by
  cases s with
  | nil => rfl
  | cons c cs =>
    simp only [List.head?_cons, Option.some.injEq] at h
    subst h
    simp only [toBytes, List.tail_cons]
    rw [utf8EncodeChar_ofNat k hk]
    rfl

theorem decimalBytes_toBytes (s : GoString) : decimalBytes (toBytes s) = decimalInteger s := by
  unfold decimalBytes decimalInteger
  have h45 := toBytes_head s 45 (by decide)
  have h43 := toBytes_head s 43 (by decide)
  have e45 : Char.ofNat 45 = '-' := rfl
  have e43 : Char.ofNat 43 = '+' := rfl
  rw [e45] at h45
  rw [e43] at h43
  simp only [h45, h43]
  have hbody : (if s.head? = some '-' ∨ s.head? = some '+' then (toBytes s).tail else toBytes s) =
      toBytes (if s.head? = some '-' ∨ s.head? = some '+' then s.tail else s) := by
    by_cases hs : s.head? = some '-' ∨ s.head? = some '+'
    · rw [if_pos hs, if_pos hs]
      rcases hs with h | h
      · exact toBytes_tail s 45 (by decide) h
      · exact toBytes_tail s 43 (by decide) h
    · rw [if_neg hs, if_neg hs]
  rw [hbody]
  generalize (if s.head? = some '-' ∨ s.head? = some '+' then s.tail else s) = body
  rw [toBytes_digits]
  by_cases hb : body ≠ [] ∧ body.all isDigitChar = true
  · have hb2 : toBytes body ≠ [] ∧ body.all isDigitChar = true :=
      ⟨fun h => hb.1 ((toBytes_eq_nil body).mp h), hb.2⟩
    rw [if_pos hb, if_pos hb2, bytesValue_toBytes body 0 hb.2]
    rfl
  · have hb2 : ¬ (toBytes body ≠ [] ∧ body.all isDigitChar = true) :=
      fun h => hb ⟨fun h2 => h.1 ((toBytes_eq_nil body).mpr h2), h.2⟩
    rw [if_neg hb, if_neg hb2]

theorem Atoi_iff (s : GoString) (n : Int) :
    Atoi s = (n, none) ↔ decimalInteger s = some n ∧ isInt64 n := by
  unfold Atoi
  rw [atoiBytes_iff (toBytes s) (toBytes_lt s) n, decimalBytes_toBytes]

/-! ## Lemmas: requests read from a query -/

theorem positiveInt_some (v : GoString) (n : Int) (h : decimalInteger v = some n) :
    positiveInt v = if 0 < n ∧ n ≤ MaxInt64 then some n else none := by
  unfold positiveInt
  rw [h]

theorem positiveInt_nil : positiveInt [] = none := rfl

theorem atoi_positive (v : GoString) (D : Int) :
    (if v ≠ [] then
        (match Atoi v with
          | (p, none) => if p > 0 then p else D
          | (_, some _) => D)
      else D) = (positiveInt v).getD D := by
  by_cases hv : v = []
  · subst hv
    rfl
  · rw [if_pos hv]
    rcases ha : Atoi v with ⟨p, e⟩
    cases e with
    | none =>
      obtain ⟨hd, hi⟩ := (Atoi_iff v p).mp ha
      rw [positiveInt_some v p hd]
      unfold isInt64 MinInt64 MaxInt64 at hi
      unfold MaxInt64
      simp only
      by_cases hp : p > 0
      · rw [if_pos hp, if_pos ⟨hp, hi.2⟩]
        rfl
      · rw [if_neg hp, if_neg (fun h => hp h.1)]
        rfl
    | some err =>
      simp only
      have hnone : positiveInt v = none := by
        cases hd : decimalInteger v with
        | none =>
          unfold positiveInt
          rw [hd]
        | some n =>
          rw [positiveInt_some v n hd]
          by_cases hn : 0 < n ∧ n ≤ MaxInt64
          · exfalso
            have hi : isInt64 n := by
              unfold isInt64 MinInt64
              unfold MaxInt64 at hn ⊢
              omega
            have := (Atoi_iff v n).mpr ⟨hd, hi⟩
            rw [ha] at this
            injection this with _ h3
            cases h3
          · rw [if_neg hn]
      rw [hnone]
      rfl

theorem ParseSorts_filterMap (lowerTable : Char → Char) (raw : Slice GoString) :
    ParseSorts lowerTable raw =
      (if (Slice.elems raw).filterMap (ParseSort lowerTable) = [] then none
       else some ((Slice.elems raw).filterMap (ParseSort lowerTable))) := by
  unfold ParseSorts
  simp only [parseSortsLoop_eq]
  generalize (Slice.elems raw).filterMap (ParseSort lowerTable) = kept
  cases kept with
  | nil => simp [Slice.len, Slice.elems]
  | cons a l => simp [Slice.len, Slice.elems]

theorem ParseSorts_of_len_zero (lowerTable : Char → Char) (raw : Slice GoString)
    (h : Slice.len raw = 0) : ParseSorts lowerTable raw = none := by
  rw [ParseSorts_filterMap]
  unfold Slice.len at h
  rw [List.length_eq_zero] at h
  rw [h]
  rfl

theorem query_sort (lowerTable : Char → Char) (raw : Slice GoString) :
    (if Slice.len raw > 0 then ParseSorts lowerTable raw else none) =
      ParseSorts lowerTable raw := by
  by_cases h : Slice.len raw > 0
  · rw [if_pos h]
  · rw [if_neg h, ParseSorts_of_len_zero lowerTable raw (by omega)]

theorem Values_Get_eq (q : Values) (k : GoString) :
    Values.Get q k = ((Slice.elems (q k)).head?).getD [] := by
  unfold Values.Get
  rcases q k with _ | l
  · rfl
  · cases l <;> rfl

/-! ## Theorems: requests read from a query -/

/-- C13, counterexample: the size value `9223372036854775808` is a decimal
integer `n > 0` with `min n MaxSize = 1000`, but it is not a value of a Go
`int`; `strconv.Atoi` reports a range error and the size stays at
`DefaultSize = 10`. -/
theorem PageRequestFromQuery_out_of_range :
    decimalInteger "9223372036854775808".toList = some 9223372036854775808 ∧
      min (9223372036854775808 : Int) MaxSize = 1000 ∧
      (PageRequestFromQuery id
        (fun k => if k = "size".toList then some ["9223372036854775808".toList]
          else none)).Size = 10 := by
  decide

/-- C13, amended: `PageRequestFromQuery` has `Page = n` when the first `page`
value is a decimal integer (an optional sign and digits) with `0 < n` and `n`
within the range of a Go `int`, and `DefaultPage` otherwise (missing, empty,
not a decimal integer, out of range, zero or negative); `Size = min n MaxSize`
when the first `size` value is such an integer and `DefaultSize` otherwise;
and its sort is `ParseSorts` of all `sort` values, unset when there are none
or none is valid.  The function is total. -/
theorem PageRequestFromQuery_spec (lowerTable : Char → Char) (q : Values) :
    (PageRequestFromQuery lowerTable q).Page =
        (positiveInt (((Slice.elems (q "page".toList)).head?).getD [])).getD DefaultPage ∧
      (PageRequestFromQuery lowerTable q).Size =
        (match positiveInt (((Slice.elems (q "size".toList)).head?).getD []) with
          | some n => min n MaxSize
          | none => DefaultSize) ∧
      (PageRequestFromQuery lowerTable q).Sorts = ParseSorts lowerTable (q "sort".toList) ∧
      (Slice.len (q "sort".toList) = 0 → (PageRequestFromQuery lowerTable q).Sorts = none) ∧
      ((∀ v ∈ Slice.elems (q "sort".toList), ParseSort lowerTable v = none) →
        (PageRequestFromQuery lowerTable q).Sorts = none) ∧
      DefaultPage = 1 ∧ DefaultSize = 10 ∧ MaxSize = 1000 := by
  have hsort : (PageRequestFromQuery lowerTable q).Sorts =
      ParseSorts lowerTable (q "sort".toList) := by
    simp only [PageRequestFromQuery]
    exact query_sort lowerTable _
  refine ⟨?_, ?_, hsort, ?_, ?_, rfl, rfl, rfl⟩
  · rw [← Values_Get_eq]
    exact atoi_positive (Values.Get q "page".toList) DefaultPage
  · rw [← Values_Get_eq]
    refine (congrArg (fun size : Int => if size > MaxSize then MaxSize else size)
      (atoi_positive (Values.Get q "size".toList) DefaultSize)).trans ?_
    cases positiveInt (Values.Get q "size".toList) with
    | none => rfl
    | some n =>
      simp only [Option.getD_some, MaxSize, min_def]
      split_ifs <;> omega
  · intro h
    rw [hsort]
    exact ParseSorts_of_len_zero lowerTable _ h
  · intro h
    rw [hsort, ParseSorts_filterMap]
    have : (Slice.elems (q "sort".toList)).filterMap (ParseSort lowerTable) = [] := by
      rw [List.filterMap_eq_nil_iff]
      exact h
    rw [if_pos this]

/-- C13, amended, at the query `page=3&size=5000`: page 3 and size `MaxSize`. -/
theorem PageRequestFromQuery_spec_witness :
    (PageRequestFromQuery id
        (fun k => if k = "page".toList then some ["3".toList]
          else if k = "size".toList then some ["5000".toList] else none)).Page = 3 ∧
      (PageRequestFromQuery id
        (fun k => if k = "page".toList then some ["3".toList]
          else if k = "size".toList then some ["5000".toList] else none)).Size = 1000 :=
  ⟨(PageRequestFromQuery_spec id
      (fun k => if k = "page".toList then some ["3".toList]
        else if k = "size".toList then some ["5000".toList] else none)).1.trans (by decide),
    (PageRequestFromQuery_spec id
      (fun k => if k = "page".toList then some ["3".toList]
        else if k = "size".toList then some ["5000".toList] else none)).2.1.trans (by decide)⟩

/-! ## Theorems: cursor requests read from a query, pages -/

/-- C21: for every query, `CursorRequestFromQuery` has the size and the sort
of `PageRequestFromQuery`, and its cursor is the first `cursor` value of the
query, unmodified, or the empty string when there is none. -/
theorem CursorRequestFromQuery_spec (lowerTable : Char → Char) (q : Values) :
    (CursorRequestFromQuery lowerTable q).Size = (PageRequestFromQuery lowerTable q).Size ∧
      (CursorRequestFromQuery lowerTable q).Sorts = (PageRequestFromQuery lowerTable q).Sorts ∧
      (CursorRequestFromQuery lowerTable q).Cursor =
        ((Slice.elems (q "cursor".toList)).head?).getD [] ∧
      DefaultCursorSize = DefaultSize ∧ MaxCursorSize = MaxSize := by
  refine ⟨rfl, rfl, ?_, rfl, rfl⟩
  exact Values_Get_eq q "cursor".toList

/-- C22: `NewPage` and `NewCursorPage` called with `nil` items return a
present, empty item slice, which `encoding/json` writes as `[]` and not as
`null`; called with present items they return those items, the same elements
in the same order. -/
theorem NewPage_items {T : Type} (enc : T → List Nat) (l : List T) (r : PageRequest)
    (totalItems : Int) (nextCursor prevCursor : GoString) (hasNext hasPrev : Bool)
    (size : Int) :
    (NewPage (none : Slice T) r totalItems).Items = some [] ∧
      (NewCursorPage (none : Slice T) nextCursor prevCursor hasNext hasPrev size).Items =
        some [] ∧
      encodeSlice enc (NewPage (none : Slice T) r totalItems).Items =
        "[]".toList.map Char.toNat ∧
      encodeSlice enc
          (NewCursorPage (none : Slice T) nextCursor prevCursor hasNext hasPrev size).Items =
        "[]".toList.map Char.toNat ∧
      encodeSlice enc (none : Slice T) = "null".toList.map Char.toNat ∧
      (NewPage (some l) r totalItems).Items = some l ∧
      (NewCursorPage (some l) nextCursor prevCursor hasNext hasPrev size).Items = some l :=
  ⟨rfl, rfl, rfl, rfl, rfl, rfl, rfl⟩

/-- C23: for every item slice, every page request, whatever its page and size,
and every total, `NewPage` stores the page and the size of the request and the
total in the metadata as they are. -/
theorem NewPage_metadata {T : Type} (items : Slice T) (r : PageRequest) (totalItems : Int) :
    (NewPage items r totalItems).Metadata.Page = r.Page ∧
      (NewPage items r totalItems).Metadata.Size = r.Size ∧
      (NewPage items r totalItems).Metadata.TotalItems = totalItems ∧
      (NewPage (none : Slice T) { Page := -3, Size := 0, Sorts := none } (-7)).Metadata =
        { Page := -3, Size := 0, TotalItems := -7, TotalPages := 0 } :=
  ⟨rfl, rfl, rfl, rfl⟩

/-! ## Lemmas: the token of a cursor -/

theorem encodeLoop_ne_nil (bs : List Nat) (h : bs ≠ []) : encodeLoop bs ≠ [] := by
  match bs, h with
  | [a], _ => simp [encodeLoop]
  | [a, b], _ => simp [encodeLoop]
  | a :: b :: c :: rest, _ => simp [encodeLoop]

theorem EncodeCursor_eq (d : CursorData) :
    EncodeCursor d = (EncodeToString (Marshal d).1, none) := rfl

theorem DecodeCursor_EncodeCursor (d : CursorData)
    (h : ((d.Extra.getD []).map Prod.fst).Nodup) :
    DecodeCursor (EncodeCursor d).1 =
      ({ Value := d.Value, Direction := d.Direction, Extra := d.Extra.map sortEntries },
        none) := by
  rw [EncodeCursor_eq]
  unfold DecodeCursor
  simp only
  rw [DecodeString_EncodeToString _ (Marshal_lt d)]
  simp only
  rw [Unmarshal_Marshal d h]

/-! ## Lemmas: the shape of a token -/

set_option maxRecDepth 100000 in
theorem encodeURL_alphabet : ∀ x ∈ encodeURL, isAlphabetChar (Char.ofNat x) = true := by
  decide

theorem encodeLoop_shape (bs : List Nat) :
    ∃ body pad, encodeLoop bs = body ++ pad ∧ (∀ x ∈ body, x ∈ encodeURL) ∧
      (pad = [] ∨ pad = [padChar] ∨ pad = [padChar, padChar]) := by
  induction bs using encodeLoop.induct with
  | case1 => exact ⟨[], [], rfl, by simp, Or.inl rfl⟩
  | case2 a =>
    refine ⟨[encodeByte (a * 65536 / 262144 % 64), encodeByte (a * 65536 / 4096 % 64)],
      [padChar, padChar], rfl, ?_, Or.inr (Or.inr rfl)⟩
    intro x hx
    simp only [List.mem_cons, List.mem_singleton, List.not_mem_nil, or_false] at hx
    rcases hx with h | h
    · rw [h]; exact encodeByte_mem _ (Nat.mod_lt _ (by decide))
    · rw [h]; exact encodeByte_mem _ (Nat.mod_lt _ (by decide))
  | case3 a b =>
    refine ⟨[encodeByte ((a * 65536 + b * 256) / 262144 % 64),
      encodeByte ((a * 65536 + b * 256) / 4096 % 64),
      encodeByte ((a * 65536 + b * 256) / 64 % 64)], [padChar], rfl, ?_, Or.inr (Or.inl rfl)⟩
    intro x hx
    simp only [List.mem_cons, List.mem_singleton, List.not_mem_nil, or_false] at hx
    rcases hx with h | h | h
    · rw [h]; exact encodeByte_mem _ (Nat.mod_lt _ (by decide))
    · rw [h]; exact encodeByte_mem _ (Nat.mod_lt _ (by decide))
    · rw [h]; exact encodeByte_mem _ (Nat.mod_lt _ (by decide))
  | case4 a b c rest ih =>
    obtain ⟨body, pad, he, hb, hp⟩ := ih
    refine ⟨encodeByte ((a * 65536 + b * 256 + c) / 262144 % 64) ::
      encodeByte ((a * 65536 + b * 256 + c) / 4096 % 64) ::
      encodeByte ((a * 65536 + b * 256 + c) / 64 % 64) ::
      encodeByte ((a * 65536 + b * 256 + c) % 64) :: body, pad, ?_, ?_, hp⟩
    · simp only [encodeLoop, he, List.cons_append]
    · intro x hx
      simp only [List.mem_cons] at hx
      rcases hx with h | h | h | h | h
      · rw [h]; exact encodeByte_mem _ (Nat.mod_lt _ (by decide))
      · rw [h]; exact encodeByte_mem _ (Nat.mod_lt _ (by decide))
      · rw [h]; exact encodeByte_mem _ (Nat.mod_lt _ (by decide))
      · rw [h]; exact encodeByte_mem _ (Nat.mod_lt _ (by decide))
      · exact hb x h

theorem EncodeToString_shape (src : List Nat) :
    ∃ body pad : GoString, EncodeToString src = body ++ pad ∧
      (∀ c ∈ body, isAlphabetChar c = true) ∧
      (pad = [] ∨ pad = ['='] ∨ pad = ['=', '=']) := by
  obtain ⟨body, pad, he, hb, hp⟩ := encodeLoop_shape src
  refine ⟨body.map Char.ofNat, pad.map Char.ofNat, ?_, ?_, ?_⟩
  · unfold EncodeToString
    rw [he, List.map_append]
  · intro c hc
    rw [List.mem_map] at hc
    obtain ⟨x, hx, rfl⟩ := hc
    exact encodeURL_alphabet x (hb x hx)
  · rcases hp with h | h | h
    · left; rw [h]; rfl
    · right; left; rw [h]; rfl
    · right; right; rw [h]; rfl

/-! ## Theorems: the shape of a token -/

/-- C25, counterexample: the token of `CursorData{Value: "test-value-123"}`
ends with the padding character `=`, which is not a letter, a digit, `-` or
`_`. -/
theorem EncodeCursor_padding :
    (EncodeCursor { Value := "test-value-123".toList, Direction := [], Extra := none }).1 =
        "eyJ2IjoidGVzdC12YWx1ZS0xMjMiLCJkIjoiIiwiZSI6bnVsbH0=".toList ∧
      '=' ∈ (EncodeCursor
        { Value := "test-value-123".toList, Direction := [], Extra := none }).1 ∧
      isAlphabetChar '=' = false := by
  decide

/-- C25, amended: for every cursor data, the token returned by `EncodeCursor`
consists only of characters of the URL-safe base64 alphabet (ASCII letters,
digits, `-` and `_`) and of the padding character `=`; the padding is at most
two characters and stands at the end. -/
theorem EncodeCursor_alphabet (d : CursorData) :
    (∀ c ∈ (EncodeCursor d).1, isAlphabetChar c = true ∨ c = '=') ∧
      ∃ body pad : GoString, (EncodeCursor d).1 = body ++ pad ∧
        (∀ c ∈ body, isAlphabetChar c = true) ∧
        (pad = [] ∨ pad = ['='] ∨ pad = ['=', '=']) := by
  rw [EncodeCursor_eq]
  obtain ⟨body, pad, he, hb, hp⟩ := EncodeToString_shape (Marshal d).1
  refine ⟨?_, body, pad, he, hb, hp⟩
  intro c hc
  simp only at hc
  rw [he, List.mem_append] at hc
  rcases hc with h | h
  · exact Or.inl (hb c h)
  · right
    rcases hp with h2 | h2 | h2
    · rw [h2] at h; simp at h
    · rw [h2] at h; simpa using h
    · rw [h2] at h; simpa using h

/-- C24, counterexample: `DecodeCursor` accepts the token
`eyJ2IjoiMiIsImQiOiJzaWRld2F5cyIsImUiOm51bGx9` and returns the direction
`sideways`; it accepts the token of `CursorData{Value: "2"}` and returns the
empty direction.  Neither is `Next` or `Prev`. -/
theorem DecodeCursor_direction_unchecked :
    DecodeCursor "eyJ2IjoiMiIsImQiOiJzaWRld2F5cyIsImUiOm51bGx9".toList =
        ({ Value := "2".toList, Direction := "sideways".toList, Extra := none }, none) ∧
      "sideways".toList ≠ Next ∧ "sideways".toList ≠ Prev ∧
      DecodeCursor (EncodeCursor { Value := "2".toList, Direction := [], Extra := none }).1 =
        ({ Value := "2".toList, Direction := [], Extra := none }, none) ∧
      ([] : CursorDirection) ≠ Next ∧ ([] : CursorDirection) ≠ Prev := by
  have h1 : (EncodeCursor
      { Value := "2".toList, Direction := "sideways".toList, Extra := none }).1 =
      "eyJ2IjoiMiIsImQiOiJzaWRld2F5cyIsImUiOm51bGx9".toList := by decide
  have h2 := DecodeCursor_EncodeCursor
    { Value := "2".toList, Direction := "sideways".toList, Extra := none } (by decide)
  rw [h1] at h2
  have h3 := DecodeCursor_EncodeCursor
    { Value := "2".toList, Direction := [], Extra := none } (by decide)
  exact ⟨h2, by decide, by decide, h3, by decide, by decide⟩

/-! ## Lemmas: the sorts of a request read from a query -/

/-- What `ParseSort` returns is safe: a non-empty field of identifier
characters and one of the two directions. -/
theorem ParseSort_safe (lowerTable : Char → Char) (raw : GoString) (s : GoSort)
    (h : ParseSort lowerTable raw = some s) :
    s.Field ≠ [] ∧ (∀ c ∈ s.Field, isIdentChar c = true) ∧
      (s.Direction = ASC ∨ s.Direction = DESC) := by
  rw [ParseSort_eq] at h
  by_cases hc : TrimSpace (beforeComma (TrimSpace raw)) = [] ∨
      ¬ (∀ c ∈ TrimSpace (beforeComma (TrimSpace raw)), isIdentChar c = true)
  · rw [if_pos hc] at h
    cases h
  · rw [if_neg hc] at h
    rw [not_or, not_not] at hc
    injection h with h
    subst h
    refine ⟨hc.1, hc.2, ?_⟩
    simp only
    split_ifs
    · exact Or.inr rfl
    · exact Or.inl rfl

theorem ParseSorts_safe (lowerTable : Char → Char) (raw : Slice GoString) :
    ∀ s ∈ Slice.elems (ParseSorts lowerTable raw),
      s.Field ≠ [] ∧ (∀ c ∈ s.Field, isIdentChar c = true) ∧
        (s.Direction = ASC ∨ s.Direction = DESC) := by
  intro s hs
  rw [ParseSorts_filterMap] at hs
  by_cases he : (Slice.elems raw).filterMap (ParseSort lowerTable) = []
  · rw [if_pos he] at hs
    simp [Slice.elems] at hs
  · rw [if_neg he] at hs
    simp only [Slice.elems] at hs
    rw [List.mem_filterMap] at hs
    obtain ⟨r, _, hr⟩ := hs
    exact ParseSort_safe lowerTable r s hr

theorem filterSortsByFields_subset (sorts : Slice GoSort) (fields : Slice GoString) :
    ∀ s ∈ Slice.elems (filterSortsByFields sorts fields), s ∈ Slice.elems sorts := by
  intro s hs
  rw [filterSortsByFields_eq] at hs
  split_ifs at hs
  · simp [Slice.elems] at hs
  · simp only [Slice.elems] at hs
    exact List.mem_of_mem_filter hs

theorem PageRequestFromQuery_sorts (lowerTable : Char → Char) (q : Values) :
    (PageRequestFromQuery lowerTable q).Sorts = ParseSorts lowerTable (q "sort".toList) := by
  simp only [PageRequestFromQuery]
  exact query_sort lowerTable _

theorem CursorRequestFromQuery_sorts (lowerTable : Char → Char) (q : Values) :
    (CursorRequestFromQuery lowerTable q).Sorts = ParseSorts lowerTable (q "sort".toList) := by
  simp only [CursorRequestFromQuery]
  exact query_sort lowerTable _

theorem orderBy_eq (sorts : Slice GoSort) :
    (if Slice.len sorts = 0 then []
      else Join ((Slice.elems sorts).map (fun s => s.Field ++ " ".toList ++ s.Direction))
        ", ".toList) =
      (", ".toList).intercalate
        ((Slice.elems sorts).map (fun s => s.Field ++ " ".toList ++ s.Direction)) := by
  by_cases h : Slice.len sorts = 0
  · rw [if_pos h]
    unfold Slice.len at h
    rw [List.length_eq_zero] at h
    rw [h]
    rfl
  · rw [if_neg h, Join_eq_intercalate]

theorem mem_intercalate (sep : GoString) (l : List GoString) (c : Char)
    (h : c ∈ sep.intercalate l) : c ∈ sep ∨ ∃ f ∈ l, c ∈ f := by
  cases l with
  | nil => simp [List.intercalate] at h
  | cons e rest =>
    rw [intercalate_cons, List.mem_append] at h
    rcases h with h | h
    · exact Or.inr ⟨e, by simp, h⟩
    · rw [List.mem_flatten] at h
      obtain ⟨x, hx, hcx⟩ := h
      rw [List.mem_map] at hx
      obtain ⟨r, hr, rfl⟩ := hx
      rw [List.mem_append] at hcx
      rcases hcx with h2 | h2
      · exact Or.inl h2
      · exact Or.inr ⟨r, by simp [hr], h2⟩

theorem SafeOrderBy_of_sorts (l : List GoSort)
    (h : ∀ s ∈ l, s.Field ≠ [] ∧ (∀ c ∈ s.Field, isIdentChar c = true) ∧
      (s.Direction = ASC ∨ s.Direction = DESC)) :
    SafeOrderBy ((", ".toList).intercalate
      (l.map (fun s => s.Field ++ " ".toList ++ s.Direction))) := by
  have hfrag : ∀ f ∈ l.map (fun s : GoSort => s.Field ++ " ".toList ++ s.Direction),
      isSafeFragment f := by
    intro f hf
    rw [List.mem_map] at hf
    obtain ⟨s, hs, rfl⟩ := hf
    obtain ⟨h1, h2, h3⟩ := h s hs
    refine ⟨s.Field, h1, h2, ?_⟩
    rcases h3 with h3 | h3
    · left
      rw [h3, List.append_assoc]
      rfl
    · right
      rw [h3, List.append_assoc]
      rfl
  refine ⟨?_, _, rfl, hfrag⟩
  intro c hc
  rcases mem_intercalate _ _ c hc with h1 | ⟨f, hf, hcf⟩
  · have : ∀ x ∈ ", ".toList, isOrderByChar x = true := by decide
    exact this c h1
  · obtain ⟨field, _, hid, hfe⟩ := hfrag f hf
    have hasc : ∀ x ∈ " asc".toList, isOrderByChar x = true := by decide
    have hdesc : ∀ x ∈ " desc".toList, isOrderByChar x = true := by decide
    rcases hfe with h2 | h2
    · rw [h2, List.mem_append] at hcf
      rcases hcf with h3 | h3
      · simp [isOrderByChar, hid c h3]
      · exact hasc c h3
    · rw [h2, List.mem_append] at hcf
      rcases hcf with h3 | h3
      · simp [isOrderByChar, hid c h3]
      · exact hdesc c h3

/-! ## Theorems: the `ORDER BY` text of a request read from a query -/

/-- C27: for every query, the `OrderBy` text of `PageRequestFromQuery` and of
`CursorRequestFromQuery` holds only ASCII letters, ASCII digits, `_`, `.`,
spaces and commas, and is a list of fragments joined by a comma and a space,
each a non-empty safe identifier followed by ` asc` or ` desc`; the same holds
after `SortableFields` with any list of allowed fields. -/
theorem OrderBy_injection_safe (lowerTable : Char → Char) (q : Values)
    (fields : Slice GoString) :
    SafeOrderBy (PageRequestFromQuery lowerTable q).OrderBy ∧
      SafeOrderBy (CursorRequestFromQuery lowerTable q).OrderBy ∧
      SafeOrderBy ((PageRequestFromQuery lowerTable q).SortableFields fields).OrderBy ∧
      SafeOrderBy ((CursorRequestFromQuery lowerTable q).SortableFields fields).OrderBy := by
  have hp := ParseSorts_safe lowerTable (q "sort".toList)
  refine ⟨?_, ?_, ?_, ?_⟩
  · unfold PageRequest.OrderBy
    rw [orderBy_eq, PageRequestFromQuery_sorts]
    exact SafeOrderBy_of_sorts _ hp
  · unfold CursorRequest.OrderBy
    rw [orderBy_eq, CursorRequestFromQuery_sorts]
    exact SafeOrderBy_of_sorts _ hp
  · unfold PageRequest.OrderBy PageRequest.SortableFields
    simp only
    rw [orderBy_eq, PageRequestFromQuery_sorts]
    exact SafeOrderBy_of_sorts _
      (fun s hs => hp s (filterSortsByFields_subset _ _ s hs))
  · unfold CursorRequest.OrderBy CursorRequest.SortableFields
    simp only
    rw [orderBy_eq, CursorRequestFromQuery_sorts]
    exact SafeOrderBy_of_sorts _
      (fun s hs => hp s (filterSortsByFields_subset _ _ s hs))

/-! ## Lemmas: the query parser and the constructor -/

theorem positiveInt_parsedInt (v : GoString) (D : Int) :
    (positiveInt v).getD D = if parsedInt v < 1 then D else parsedInt v := by
  unfold positiveInt parsedInt
  cases decimalInteger v with
  | none => rfl
  | some n =>
    simp only
    unfold isInt64 MinInt64 MaxInt64
    by_cases h1 : 0 < n ∧ n ≤ 9223372036854775807
    · have h2 : -9223372036854775808 ≤ n ∧ n ≤ 9223372036854775807 := ⟨by omega, h1.2⟩
      simp only [if_pos h1, if_pos h2, Option.getD_some]
      rw [if_neg (by omega)]
    · simp only [if_neg h1, Option.getD_none]
      by_cases h2 : -9223372036854775808 ≤ n ∧ n ≤ 9223372036854775807
      · simp only [if_pos h2]
        rw [if_pos (by omega)]
      · simp only [if_neg h2]
        rfl

theorem PageRequestFromQuery_page (lowerTable : Char → Char) (q : Values) :
    (PageRequestFromQuery lowerTable q).Page =
      (positiveInt (Values.Get q "page".toList)).getD DefaultPage :=
  atoi_positive (Values.Get q "page".toList) DefaultPage

theorem PageRequestFromQuery_size (lowerTable : Char → Char) (q : Values) :
    (PageRequestFromQuery lowerTable q).Size =
      (if (positiveInt (Values.Get q "size".toList)).getD DefaultSize > MaxSize then MaxSize
        else (positiveInt (Values.Get q "size".toList)).getD DefaultSize) :=
  congrArg (fun size : Int => if size > MaxSize then MaxSize else size)
    (atoi_positive (Values.Get q "size".toList) DefaultSize)

theorem positiveInt_bounds (v : GoString) (D : Int) (h1 : 1 ≤ D) (h2 : D ≤ MaxInt64) :
    1 ≤ (positiveInt v).getD D ∧ (positiveInt v).getD D ≤ MaxInt64 := by
  unfold positiveInt
  cases decimalInteger v with
  | none => exact ⟨h1, h2⟩
  | some n =>
    simp only
    by_cases h : 0 < n ∧ n ≤ MaxInt64
    · rw [if_pos h]
      simp only [Option.getD_some]
      exact ⟨by omega, h.2⟩
    · rw [if_neg h]
      exact ⟨h1, h2⟩

theorem PageRequestFromQuery_bounds (lowerTable : Char → Char) (q : Values) :
    1 ≤ (PageRequestFromQuery lowerTable q).Page ∧
      (PageRequestFromQuery lowerTable q).Page ≤ MaxInt64 ∧
      1 ≤ (PageRequestFromQuery lowerTable q).Size ∧
      (PageRequestFromQuery lowerTable q).Size ≤ 1000 := by
  rw [PageRequestFromQuery_page, PageRequestFromQuery_size]
  have hp := positiveInt_bounds (Values.Get q "page".toList) DefaultPage (by decide) (by decide)
  have hs := positiveInt_bounds (Values.Get q "size".toList) DefaultSize (by decide) (by decide)
  refine ⟨hp.1, hp.2, ?_, ?_⟩
  · unfold MaxSize
    split_ifs <;> omega
  · unfold MaxSize
    split_ifs <;> omega

theorem NewPageRequest_bounds (page size : Int) (sort : Slice GoSort) :
    1 ≤ (NewPageRequest page size sort).Page ∧
      1 ≤ (NewPageRequest page size sort).Size ∧
      (NewPageRequest page size sort).Size ≤ 1000 := by
  simp only [NewPageRequest, DefaultPage, DefaultSize, MaxSize]
  refine ⟨?_, ?_, ?_⟩ <;> split_ifs <;> omega

theorem Offset_of_bounds (r : PageRequest) (h1 : 1 ≤ r.Page) (h2 : r.Page ≤ 9223372036854776)
    (h3 : 1 ≤ r.Size) (h4 : r.Size ≤ 1000) :
    r.Offset = (r.Page - 1) * r.Size ∧ 0 ≤ r.Offset := by
  have hlo : 0 ≤ (r.Page - 1) * r.Size := Int.mul_nonneg (by omega) (by omega)
  have hhi : (r.Page - 1) * r.Size ≤ 9223372036854775 * 1000 :=
    Int.mul_le_mul (by omega) h4 (by omega) (by decide)
  have he : r.Offset = (r.Page - 1) * r.Size := by
    unfold PageRequest.Offset
    rw [wrap64_mul_left]
    apply wrap64_of_isInt64
    unfold isInt64 MinInt64 MaxInt64
    omega
  rw [he]
  exact ⟨rfl, hlo⟩

/-! ## Theorems: the query parser and the constructor -/

/-- C29, counterexample: the size value `9223372036854775808` is a decimal
integer; `strconv.Atoi` returns the largest `int` with a range error for it;
`PageRequestFromQuery` keeps the size 10, while `NewPageRequest` with either
integer as its size returns the size 1000. -/
theorem PageRequestFromQuery_ne_NewPageRequest :
    decimalInteger "9223372036854775808".toList = some 9223372036854775808 ∧
      Atoi "9223372036854775808".toList = (9223372036854775807, some NumError.ErrRange) ∧
      (PageRequestFromQuery id
        (fun k => if k = "size".toList then some ["9223372036854775808".toList]
          else none)).Size = 10 ∧
      (NewPageRequest 0 9223372036854775808 (ParseSorts id none)).Size = 1000 ∧
      (NewPageRequest 0 9223372036854775807 (ParseSorts id none)).Size = 1000 := by
  decide

/-- C29, amended: for every query, with `p` and `s` the integers written by
the first `page` and the first `size` value, each taken as 0 when the value is
missing, empty, not a decimal integer or beyond the range of a Go `int`,
`PageRequestFromQuery` equals `NewPageRequest p s` of `ParseSorts` of all
`sort` values, field for field. -/
theorem PageRequestFromQuery_eq_NewPageRequest (lowerTable : Char → Char) (q : Values) :
    PageRequestFromQuery lowerTable q =
      NewPageRequest (parsedInt (((Slice.elems (q "page".toList)).head?).getD []))
        (parsedInt (((Slice.elems (q "size".toList)).head?).getD []))
        (ParseSorts lowerTable (q "sort".toList)) := by
  have hP := PageRequestFromQuery_page lowerTable q
  have hS := PageRequestFromQuery_size lowerTable q
  have hSo := PageRequestFromQuery_sorts lowerTable q
  rw [positiveInt_parsedInt, Values_Get_eq] at hP
  rw [positiveInt_parsedInt, Values_Get_eq] at hS
  rcases hr : PageRequestFromQuery lowerTable q with ⟨p, s, so⟩
  rw [hr] at hP hS hSo
  simp only at hP hS hSo
  simp only [NewPageRequest, PageRequest.mk.injEq]
  exact ⟨hP, hS, hSo⟩

/-- C29, amended, at the query `page=-2&size=5000&sort=name,desc`. -/
theorem PageRequestFromQuery_eq_NewPageRequest_witness :
    PageRequestFromQuery id
        (fun k => if k = "page".toList then some ["-2".toList]
          else if k = "size".toList then some ["5000".toList]
          else if k = "sort".toList then some ["name,desc".toList] else none) =
      NewPageRequest (-2) 5000 (some [{ Field := "name".toList, Direction := DESC }]) :=
  (PageRequestFromQuery_eq_NewPageRequest id
    (fun k => if k = "page".toList then some ["-2".toList]
      else if k = "size".toList then some ["5000".toList]
      else if k = "sort".toList then some ["name,desc".toList] else none)).trans (by decide)

/-- C30, counterexample: `NewPageRequest 9223372036854775807 2 nil` has the
largest `int` as its page and size 2, and its `Offset` is -4; the request
`PageRequestFromQuery` returns for `page=9223372036854775807&size=1000` has
`Offset` -2000; and already page 9223372036854777 with size 1000 gives a
negative `Offset`. -/
theorem Offset_negative :
    (NewPageRequest 9223372036854775807 2 none).Page = 9223372036854775807 ∧
      (NewPageRequest 9223372036854775807 2 none).Size = 2 ∧
      isInt64 9223372036854775807 ∧
      PageRequest.Offset (NewPageRequest 9223372036854775807 2 none) = -4 ∧
      PageRequest.Offset (PageRequestFromQuery id
        (fun k => if k = "page".toList then some ["9223372036854775807".toList]
          else if k = "size".toList then some ["1000".toList] else none)) = -2000 ∧
      PageRequest.Offset (NewPageRequest 9223372036854777 1000 none) =
        -9223372036854775616 := by
  decide

/-- C30, amended: for every page request returned by `NewPageRequest` or
`PageRequestFromQuery` whose page is at most 9223372036854776, so that
`(Page - 1) * MaxSize` is a value of a Go `int`, `Offset` equals
`(Page - 1) * Size` and is non-negative. -/
theorem Offset_nonneg (lowerTable : Char → Char) (page size : Int) (sort : Slice GoSort)
    (q : Values) :
    ((NewPageRequest page size sort).Page ≤ 9223372036854776 →
        0 ≤ (NewPageRequest page size sort).Offset ∧
          (NewPageRequest page size sort).Offset =
            ((NewPageRequest page size sort).Page - 1) * (NewPageRequest page size sort).Size) ∧
      ((PageRequestFromQuery lowerTable q).Page ≤ 9223372036854776 →
        0 ≤ (PageRequestFromQuery lowerTable q).Offset ∧
          (PageRequestFromQuery lowerTable q).Offset =
            ((PageRequestFromQuery lowerTable q).Page - 1) *
              (PageRequestFromQuery lowerTable q).Size) := by
  constructor
  · intro h
    have hb := NewPageRequest_bounds page size sort
    have ho := Offset_of_bounds _ hb.1 h hb.2.1 hb.2.2
    exact ⟨ho.2, ho.1⟩
  · intro h
    have hb := PageRequestFromQuery_bounds lowerTable q
    have ho := Offset_of_bounds _ hb.1 h hb.2.2.1 hb.2.2.2
    exact ⟨ho.2, ho.1⟩

/-- C30, amended, at page 9223372036854776 with size 1000, the largest page for
which every size is safe: the offset is 9223372036854775000. -/
theorem Offset_nonneg_witness :
    (NewPageRequest 9223372036854776 1000 none).Page ≤ 9223372036854776 ∧
      0 ≤ (NewPageRequest 9223372036854776 1000 none).Offset ∧
      (NewPageRequest 9223372036854776 1000 none).Offset = 9223372036854775000 :=
  ⟨by decide,
    ((Offset_nonneg id 9223372036854776 1000 none (fun _ => none)).1 (by decide)).1,
    ((Offset_nonneg id 9223372036854776 1000 none (fun _ => none)).1 (by decide)).2.trans
      (by decide)⟩

/-! ## Theorems: the allowed fields and the default sort -/

/-- C31: for every page request, every list of allowed fields and every list
of default sorts, `SortableFields` followed by `WithDefaultSort` has the
default sorts when no sort of the request has its field among the allowed
ones, the unset sort included, and otherwise has exactly the sorts of the
request whose fields are allowed, in order, the defaults being ignored; page
and size are those of the request. -/
theorem SortableFields_WithDefaultSort (r : PageRequest) (allowed : Slice GoString)
    (defaults : Slice GoSort) :
    ((Slice.elems r.Sorts).filter (fun s => decide (s.Field ∈ Slice.elems allowed)) = [] →
        ((r.SortableFields allowed).WithDefaultSort defaults).Sorts = defaults) ∧
      ((Slice.elems r.Sorts).filter (fun s => decide (s.Field ∈ Slice.elems allowed)) ≠ [] →
        ((r.SortableFields allowed).WithDefaultSort defaults).Sorts =
          some ((Slice.elems r.Sorts).filter
            (fun s => decide (s.Field ∈ Slice.elems allowed)))) ∧
      (r.Sorts = none →
        ((r.SortableFields allowed).WithDefaultSort defaults).Sorts = defaults) ∧
      ((∀ s ∈ Slice.elems r.Sorts, s.Field ∉ Slice.elems allowed) →
        ((r.SortableFields allowed).WithDefaultSort defaults).Sorts = defaults) ∧
      ((r.SortableFields allowed).WithDefaultSort defaults).Page = r.Page ∧
      ((r.SortableFields allowed).WithDefaultSort defaults).Size = r.Size := by
  have hf := filterSortsByFields_eq r.Sorts allowed
  have hnil : (Slice.elems r.Sorts).filter (fun s => decide (s.Field ∈ Slice.elems allowed)) = [] →
      ((r.SortableFields allowed).WithDefaultSort defaults).Sorts = defaults := by
    intro h
    rw [if_pos h] at hf
    simp only [PageRequest.WithDefaultSort, PageRequest.SortableFields, hf]
  refine ⟨hnil, ?_, ?_, ?_, ?_, ?_⟩
  · intro h
    rw [if_neg h] at hf
    simp only [PageRequest.WithDefaultSort, PageRequest.SortableFields, hf]
  · intro h
    apply hnil
    rw [h]
    rfl
  · intro h
    apply hnil
    rw [List.filter_eq_nil_iff]
    intro s hs
    simpa using h s hs
  · simp only [PageRequest.WithDefaultSort, PageRequest.SortableFields]
    split <;> rfl
  · simp only [PageRequest.WithDefaultSort, PageRequest.SortableFields]
    split <;> rfl

/-- C31 at a request sorted by `name` and `secret`: with `name` allowed the
sort by `name` is kept and the default ignored; with only `id` allowed nothing
survives and the default sort by `id` applies. -/
theorem SortableFields_WithDefaultSort_witness :
    (PageRequest.WithDefaultSort
        (PageRequest.SortableFields
          { Page := 1, Size := 10
            Sorts := some [{ Field := "name".toList, Direction := DESC },
              { Field := "secret".toList, Direction := ASC }] }
          (some ["name".toList, "id".toList]))
        (some [{ Field := "id".toList, Direction := ASC }])).Sorts =
      some [{ Field := "name".toList, Direction := DESC }] ∧
    (PageRequest.WithDefaultSort
        (PageRequest.SortableFields
          { Page := 1, Size := 10
            Sorts := some [{ Field := "name".toList, Direction := DESC },
              { Field := "secret".toList, Direction := ASC }] }
          (some ["id".toList]))
        (some [{ Field := "id".toList, Direction := ASC }])).Sorts =
      some [{ Field := "id".toList, Direction := ASC }] :=
  ⟨((SortableFields_WithDefaultSort
      { Page := 1, Size := 10
        Sorts := some [{ Field := "name".toList, Direction := DESC },
          { Field := "secret".toList, Direction := ASC }] }
      (some ["name".toList, "id".toList])
      (some [{ Field := "id".toList, Direction := ASC }])).2.1 (by decide)).trans (by decide),
    (SortableFields_WithDefaultSort
      { Page := 1, Size := 10
        Sorts := some [{ Field := "name".toList, Direction := DESC },
          { Field := "secret".toList, Direction := ASC }] }
      (some ["id".toList])
      (some [{ Field := "id".toList, Direction := ASC }])).1 (by decide)⟩

/-! ## Theorems: the `ORDER BY` text -/

/-- C16, counterexample: for the sort list holding the one sort with field `x`
and direction `DESC` in capitals, `OrderBy` of a page request and of a cursor
request return `x DESC`: the direction is written as it is, not as a
lower-case token. -/
theorem OrderBy_direction_verbatim :
    PageRequest.OrderBy
        { Page := 1, Size := 10
          Sorts := some [{ Field := "x".toList, Direction := "DESC".toList }] } =
      "x DESC".toList ∧
    CursorRequest.OrderBy
        { Cursor := [], Size := 10
          Sorts := some [{ Field := "x".toList, Direction := "DESC".toList }] } =
      "x DESC".toList ∧
    "x DESC".toList ≠ "x desc".toList ∧ "x DESC".toList ≠ "x asc".toList := by
  decide

/-- C16, amended: for every sort list whose directions are `ASC` or `DESC`,
`OrderBy` of a page request and `OrderBy` of a cursor request holding that
list both return the fragments `Field`, a space and the lower-case direction
token (`asc` or `desc`), in list order and joined by a comma and a space.  For
every sort list the direction is written as its string value, whatever it is.
Both return the empty string when the list is unset or empty. -/
theorem OrderBy_spec (page size : Int) (cursor : GoString) (csize : Int)
    (sorts : Slice GoSort) :
    ((∀ s ∈ Slice.elems sorts, s.Direction = ASC ∨ s.Direction = DESC) →
        PageRequest.OrderBy { Page := page, Size := size, Sorts := sorts } =
          (", ".toList).intercalate
            ((Slice.elems sorts).map
              (fun s => s.Field ++ " ".toList ++ directionToken s.Direction)) ∧
        CursorRequest.OrderBy { Cursor := cursor, Size := csize, Sorts := sorts } =
          (", ".toList).intercalate
            ((Slice.elems sorts).map
              (fun s => s.Field ++ " ".toList ++ directionToken s.Direction))) ∧
      directionToken ASC = "asc".toList ∧ directionToken DESC = "desc".toList ∧
      PageRequest.OrderBy { Page := page, Size := size, Sorts := sorts } =
        (", ".toList).intercalate
          ((Slice.elems sorts).map (fun s => s.Field ++ " ".toList ++ s.Direction)) ∧
      CursorRequest.OrderBy { Cursor := cursor, Size := csize, Sorts := sorts } =
        (", ".toList).intercalate
          ((Slice.elems sorts).map (fun s => s.Field ++ " ".toList ++ s.Direction)) ∧
      PageRequest.OrderBy { Page := page, Size := size, Sorts := none } = [] ∧
      PageRequest.OrderBy { Page := page, Size := size, Sorts := some [] } = [] ∧
      CursorRequest.OrderBy { Cursor := cursor, Size := csize, Sorts := none } = [] ∧
      CursorRequest.OrderBy { Cursor := cursor, Size := csize, Sorts := some [] } = [] := by
  have hp : PageRequest.OrderBy { Page := page, Size := size, Sorts := sorts } =
      (", ".toList).intercalate
        ((Slice.elems sorts).map (fun s => s.Field ++ " ".toList ++ s.Direction)) := by
    unfold PageRequest.OrderBy
    exact orderBy_eq sorts
  have hc : CursorRequest.OrderBy { Cursor := cursor, Size := csize, Sorts := sorts } =
      (", ".toList).intercalate
        ((Slice.elems sorts).map (fun s => s.Field ++ " ".toList ++ s.Direction)) := by
    unfold CursorRequest.OrderBy
    exact orderBy_eq sorts
  refine ⟨?_, by decide, by decide, hp, hc, rfl, rfl, rfl, rfl⟩
  intro h
  have hmap : (Slice.elems sorts).map (fun s => s.Field ++ " ".toList ++ s.Direction) =
      (Slice.elems sorts).map
        (fun s => s.Field ++ " ".toList ++ directionToken s.Direction) := by
    apply List.map_congr_left
    intro s hs
    rcases h s hs with h1 | h1
    · rw [h1]
      rfl
    · rw [h1]
      rfl
  rw [hp, hc, hmap]
  exact ⟨rfl, rfl⟩

/-- C16, amended, at the sorts `name` descending and `id` ascending. -/
theorem OrderBy_spec_witness :
    PageRequest.OrderBy
        { Page := 1, Size := 10
          Sorts := some [{ Field := "name".toList, Direction := DESC },
            { Field := "id".toList, Direction := ASC }] } =
      "name desc, id asc".toList ∧
    CursorRequest.OrderBy
        { Cursor := [], Size := 10
          Sorts := some [{ Field := "name".toList, Direction := DESC },
            { Field := "id".toList, Direction := ASC }] } =
      "name desc, id asc".toList :=
  ⟨((OrderBy_spec 1 10 [] 10
      (some [{ Field := "name".toList, Direction := DESC },
        { Field := "id".toList, Direction := ASC }])).1 (by decide)).1.trans (by decide),
    ((OrderBy_spec 1 10 [] 10
      (some [{ Field := "name".toList, Direction := DESC },
        { Field := "id".toList, Direction := ASC }])).1 (by decide)).2.trans (by decide)⟩

/-! ## Lemmas: the direction stored by `json.Unmarshal` -/

theorem getLast?_cons_of_ne_nil {α : Type} (a : α) (l : List α) (h : l ≠ []) :
    (a :: l).getLast? = l.getLast? := by
  cases l with
  | nil => exact absurd rfl h
  | cons b t => rfl

theorem memberDirection_cons_str (k s : GoString) (rest : List (GoString × JValue))
    (cur : GoString) (hk : k = "d".toList ∨ k = "D".toList) :
    memberDirection ((k, JValue.str s) :: rest) cur = memberDirection rest s := by
  have hp : isDirectionMember (k, JValue.str s) = true := by
    rcases hk with h | h <;> simp [isDirectionMember, h]
  unfold memberDirection
  rw [List.filter_cons_of_pos hp]
  by_cases hr : rest.filter isDirectionMember = []
  · rw [hr]
    rfl
  · rw [getLast?_cons_of_ne_nil _ _ hr]
    obtain ⟨x, hx⟩ := Option.isSome_iff_exists.mp
      (by rw [List.getLast?_isSome]; exact hr :
        ((rest.filter isDirectionMember).getLast?).isSome = true)
    rw [hx]
    have hmem : x ∈ rest.filter isDirectionMember := List.mem_of_getLast?_eq_some hx
    have hpx := (List.mem_filter.mp hmem).2
    obtain ⟨k2, v2⟩ := x
    cases v2 <;> simp [isDirectionMember] at hpx ⊢

theorem memberDirection_cons_skip (m : GoString × JValue) (rest : List (GoString × JValue))
    (cur : GoString) (hm : isDirectionMember m = false) :
    memberDirection (m :: rest) cur = memberDirection rest cur := by
  unfold memberDirection
  rw [List.filter_cons_of_neg (by simp [hm])]

theorem storeString_fst (v : JValue) (cur : GoString) (saved : Option GoError) :
    (storeString v cur saved).1 =
      (match v with
       | JValue.str s => s
       | _ => cur) := by
  cases v <;> rfl

theorem storeStructMembers_direction (members : List (GoString × JValue)) :
    ∀ (d : CursorData) (saved : Option GoError),
      (storeStructMembers members d saved).1.Direction =
        memberDirection members d.Direction := by
  induction members with
  | nil => intro d saved; rfl
  | cons m rest ih =>
    intro d saved
    obtain ⟨k, v⟩ := m
    unfold storeStructMembers
    by_cases hv : k = "v".toList ∨ k = "V".toList
    · rw [if_pos hv]
      simp only
      rw [ih]
      have hm : isDirectionMember (k, v) = false := by
        rcases hv with h | h <;> subst h <;> simp [isDirectionMember]
      rw [memberDirection_cons_skip _ _ _ hm]
    · rw [if_neg hv]
      by_cases hd : k = "d".toList ∨ k = "D".toList
      · rw [if_pos hd]
        simp only
        rw [ih]
        simp only
        rw [storeString_fst]
        cases v with
        | str s => rw [memberDirection_cons_str k s rest d.Direction hd]
        | null =>
          rw [memberDirection_cons_skip _ _ _ (by simp [isDirectionMember])]
        | bool b =>
          rw [memberDirection_cons_skip _ _ _ (by simp [isDirectionMember])]
        | number =>
          rw [memberDirection_cons_skip _ _ _ (by simp [isDirectionMember])]
        | arr =>
          rw [memberDirection_cons_skip _ _ _ (by simp [isDirectionMember])]
        | obj ms =>
          rw [memberDirection_cons_skip _ _ _ (by simp [isDirectionMember])]
      · rw [if_neg hd]
        have hm : isDirectionMember (k, v) = false := by
          rw [not_or] at hd
          unfold isDirectionMember
          rw [decide_eq_false hd.1, decide_eq_false hd.2]
          rfl
        rw [memberDirection_cons_skip _ _ _ hm]
        by_cases he : k = "e".toList ∨ k = "E".toList
        · rw [if_pos he]
          simp only
          rw [ih]
        · rw [if_neg he]
          rw [ih]

theorem saveError_ne_none (saved : Option GoError) (e : GoError) : saveError saved e ≠ none := by
  cases saved <;> simp [saveError]

/-! ## Theorems: the direction of a decoded cursor -/

/-- C24, amended: for every token that `DecodeCursor` accepts, the token is
the base64 of a JSON text that is `null` or an object; for `null` the cursor
data returned is the zero value, and for an object its direction is the string
of the last member named `d` or `D` whose value is a string, or the empty
string when there is no such member.  The direction is not compared with
`Next` and `Prev`. -/
theorem DecodeCursor_direction (cursor : GoString) (data : CursorData)
    (h : DecodeCursor cursor = (data, none)) :
    ∃ b, DecodeString cursor = (b, none) ∧
      ((parseTop b = some JValue.null ∧ data = CursorData.zero) ∨
        ∃ members, parseTop b = some (JValue.obj members) ∧
          data.Direction = memberDirection members []) := by
  unfold DecodeCursor at h
  rcases hds : DecodeString cursor with ⟨b, e⟩
  rw [hds] at h
  cases e with
  | some off =>
    simp only at h
    injection h with _ h2
    cases h2
  | none =>
    simp only at h
    refine ⟨b, rfl, ?_⟩
    rcases hu : Unmarshal b CursorData.zero with ⟨d2, e2⟩
    rw [hu] at h
    cases e2 with
    | some err =>
      simp only at h
      injection h with _ h2
      cases h2
    | none =>
      simp only at h
      injection h with h1 _
      subst h1
      unfold Unmarshal at hu
      cases hp : parseTop b with
      | none =>
        rw [hp] at hu
        simp only at hu
        injection hu with _ h2
        cases h2
      | some tree =>
        rw [hp] at hu
        simp only at hu
        cases tree with
        | null =>
          left
          simp only [storeStruct] at hu
          injection hu with h1 _
          exact ⟨rfl, h1.symm⟩
        | obj members =>
          right
          refine ⟨members, rfl, ?_⟩
          simp only [storeStruct] at hu
          have hdir := storeStructMembers_direction members CursorData.zero none
          rw [hu] at hdir
          exact hdir
        | str s =>
          simp only [storeStruct] at hu
          injection hu with _ h2
          exact absurd h2 (saveError_ne_none _ _)
        | bool bb =>
          simp only [storeStruct] at hu
          injection hu with _ h2
          exact absurd h2 (saveError_ne_none _ _)
        | number =>
          simp only [storeStruct] at hu
          injection hu with _ h2
          exact absurd h2 (saveError_ne_none _ _)
        | arr =>
          simp only [storeStruct] at hu
          injection hu with _ h2
          exact absurd h2 (saveError_ne_none _ _)

/-- C24, amended, at the token of the JSON text with the members `"d":"next"`,
`"D":"sideways"` and `"d":null`, in that order: `DecodeCursor` accepts it, and
the direction is `sideways`, the string of the last member named `d` or `D`
that holds a string. -/
theorem DecodeCursor_direction_witness :
    DecodeCursor "eyJkIjoibmV4dCIsIkQiOiJzaWRld2F5cyIsImQiOm51bGx9".toList =
        ({ Value := [], Direction := "sideways".toList, Extra := none }, none) ∧
      memberDirection [("d".toList, JValue.str "next".toList),
          ("D".toList, JValue.str "sideways".toList), ("d".toList, JValue.null)] [] =
        "sideways".toList ∧
      ∃ b, DecodeString "eyJkIjoibmV4dCIsIkQiOiJzaWRld2F5cyIsImQiOm51bGx9".toList = (b, none) ∧
        ((parseTop b = some JValue.null ∧
            ({ Value := [], Direction := "sideways".toList, Extra := none } : CursorData) =
              CursorData.zero) ∨
          ∃ members, parseTop b = some (JValue.obj members) ∧
            "sideways".toList = memberDirection members []) :=
  ⟨by decide, by decide,
    DecodeCursor_direction "eyJkIjoibmV4dCIsIkQiOiJzaWRld2F5cyIsImQiOm51bGx9".toList
      { Value := [], Direction := "sideways".toList, Extra := none } (by decide)⟩

/-! ## Lemmas: the encoder on arbitrary strings -/

theorem utf8EncodeChar_length_multi (c : Char) (h : 0x80 ≤ c.toNat) :
    2 ≤ (utf8EncodeChar c).length ∧ (utf8EncodeChar c).length ≤ 4 := by
  unfold utf8EncodeChar
  simp only
  rw [if_neg (by omega)]
  split_ifs <;> simp

theorem appendStringAscii_eq (c : Char) (h : c.toNat < 0x80) :
    appendStringAscii c.toNat = appendStringChar c := by
  unfold appendStringAscii appendStringChar
  simp only
  rw [if_pos h]

theorem appendStringStep_utf8EncodeChar (c : Char) (rest : List Nat) :
    appendStringStep (utf8EncodeChar c ++ rest) =
      (appendStringChar c, (utf8EncodeChar c).length) := by
  by_cases h : c.toNat ≤ 0x7F
  · rw [utf8EncodeChar_ascii c h]
    simp only [List.singleton_append, appendStringStep, List.length_singleton]
    rw [if_pos (by omega), appendStringAscii_eq c (by omega)]
  · obtain ⟨p0, t, he, hp0⟩ := utf8EncodeChar_head c (by omega)
    have hlen := utf8EncodeChar_length_multi c (by omega)
    have htake : (utf8EncodeChar c ++ rest).take 4 =
        utf8EncodeChar c ++ rest.take (4 - (utf8EncodeChar c).length) := by
      rw [List.take_append_eq_append_take, List.take_of_length_le hlen.2]
    have hdr := DecodeRune_utf8EncodeChar c (rest.take (4 - (utf8EncodeChar c).length))
    have hstep : appendStringStep (utf8EncodeChar c ++ rest) =
        (if (DecodeRune ((utf8EncodeChar c ++ rest).take 4)).1 = RuneError ∧
            (DecodeRune ((utf8EncodeChar c ++ rest).take 4)).2 = 1 then
          ([0x5C, 0x75, 0x66, 0x66, 0x66, 0x64], 1)
        else if (DecodeRune ((utf8EncodeChar c ++ rest).take 4)).1 = 0x2028 ∨
            (DecodeRune ((utf8EncodeChar c ++ rest).take 4)).1 = 0x2029 then
          ([0x5C, 0x75, 0x32, 0x30, 0x32,
            hexDigits.getD ((DecodeRune ((utf8EncodeChar c ++ rest).take 4)).1 % 16) 0],
            (DecodeRune ((utf8EncodeChar c ++ rest).take 4)).2)
        else ((utf8EncodeChar c ++ rest).take
            (DecodeRune ((utf8EncodeChar c ++ rest).take 4)).2,
          (DecodeRune ((utf8EncodeChar c ++ rest).take 4)).2)) := by
      rw [he]
      simp only [List.cons_append, appendStringStep]
      rw [if_neg (by omega)]
    rw [hstep, htake, hdr]
    simp only
    rw [if_neg (fun hh : c.toNat = RuneError ∧ (utf8EncodeChar c).length = 1 => by
      have h1 := hh.2
      omega)]
    unfold appendStringChar
    simp only
    rw [if_neg (show ¬ c.toNat < 0x80 by omega)]
    by_cases h2 : c.toNat = 0x2028 ∨ c.toNat = 0x2029
    · rw [if_pos h2, if_pos h2]
    · rw [if_neg h2, if_neg h2]
      rw [List.take_append_eq_append_take, List.take_of_length_le (Nat.le_refl _),
        Nat.sub_self, List.take_zero, List.append_nil]

theorem appendStringRawBody_toBytes (s : GoString) :
    ∀ fuel, (toBytes s).length ≤ fuel → appendStringRawBody fuel (toBytes s) =
      appendStringBody s := by
  induction s with
  | nil =>
    intro fuel _
    cases fuel <;> rfl
  | cons c cs ih =>
    intro fuel hf
    have hne := utf8EncodeChar_ne_nil c
    have hpos : 0 < (utf8EncodeChar c).length := List.length_pos.mpr hne
    simp only [toBytes, List.length_append] at hf ⊢
    cases fuel with
    | zero => omega
    | succ f =>
      unfold appendStringRawBody
      rw [if_neg (by simp [hne]), appendStringStep_utf8EncodeChar]
      simp only [List.drop_left, appendStringBody]
      rw [ih f (by omega)]

theorem appendStringRaw_toBytes (s : GoString) : appendStringRaw (toBytes s) = appendString s := by
  unfold appendStringRaw appendString
  rw [appendStringRawBody_toBytes s _ (Nat.le_refl _)]

theorem sortEntriesRaw_map (l : List (GoString × GoString)) :
    sortEntriesRaw (l.map (fun q => (toBytes q.1, toBytes q.2))) =
      (sortEntries l).map (fun q => (toBytes q.1, toBytes q.2)) := by
  unfold sortEntriesRaw sortEntries
  exact (List.map_insertionSort keyLE rawKeyLE (fun q => (toBytes q.1, toBytes q.2)) l
    (fun _ _ _ _ => Iff.rfl)).symm

theorem encodeEntriesRaw_cons_cons (k v : List Nat) (p : List Nat × List Nat)
    (rest : List (List Nat × List Nat)) :
    encodeEntriesRaw ((k, v) :: p :: rest) =
      appendStringRaw k ++ [0x3A] ++ appendStringRaw v ++ 0x2C :: encodeEntriesRaw (p :: rest) := by
  rw [encodeEntriesRaw]

theorem encodeEntriesRaw_map (l : List (GoString × GoString)) :
    encodeEntriesRaw (l.map (fun q => (toBytes q.1, toBytes q.2))) = encodeEntries l := by
  induction l with
  | nil => rfl
  | cons p rest ih =>
    obtain ⟨k, v⟩ := p
    cases rest with
    | nil =>
      simp only [List.map_cons, List.map_nil, encodeEntriesRaw, encodeEntries,
        appendStringRaw_toBytes]
    | cons p2 rest2 =>
      simp only [List.map_cons] at ih ⊢
      rw [encodeEntriesRaw_cons_cons, ih, encodeEntries_cons_cons, appendStringRaw_toBytes,
        appendStringRaw_toBytes]
      simp

theorem encodeMapRaw_raw (m : StringMap) :
    encodeMapRaw (m.map (fun l => l.map (fun q => (toBytes q.1, toBytes q.2)))) =
      encodeMap m := by
  cases m with
  | none => rfl
  | some l =>
    simp only [Option.map_some', encodeMapRaw, encodeMap]
    rw [sortEntriesRaw_map, encodeEntriesRaw_map]

/-- The encoder of a `CursorData` value never meets an unsupported kind: the
bytes `json.Marshal` returns. -/
theorem MarshalRaw_eq (d : RawCursorData) :
    MarshalRaw d =
      (0x7B :: (appendString "v".toList ++ 0x3A :: (appendStringRaw d.Value ++
        0x2C :: (appendString "d".toList ++ 0x3A :: (appendStringRaw d.Direction ++
        0x2C :: (appendString "e".toList ++ 0x3A :: (encodeMapRaw d.Extra ++ [0x7D])))))),
        none) := by
  simp only [MarshalRaw, RawCursorData.fields, structEncoder, encodeValue]
  rfl

theorem MarshalRaw_raw (d : CursorData) : MarshalRaw (CursorData.raw d) = Marshal d := by
  rw [MarshalRaw_eq]
  simp only [CursorData.raw, appendStringRaw_toBytes, encodeMapRaw_raw, Marshal]

theorem EncodeCursorRaw_eq (d : RawCursorData) :
    EncodeCursorRaw d = (EncodeToString (MarshalRaw d).1, none) := by
  unfold EncodeCursorRaw
  rw [MarshalRaw_eq]

theorem EncodeCursorRaw_raw (d : CursorData) :
    EncodeCursorRaw (CursorData.raw d) = EncodeCursor d := by
  rw [EncodeCursorRaw_eq, MarshalRaw_raw, EncodeCursor_eq]

theorem appendStringStep_pos (b : Nat) (t : List Nat) : 1 ≤ (appendStringStep (b :: t)).2 := by
  unfold appendStringStep
  simp only
  by_cases h : b < 0x80
  · rw [if_pos h]
  · rw [if_neg h]
    have hw : 1 ≤ (DecodeRune ((b :: t).take 4)).2 := by
      rw [show (b :: t).take 4 = b :: t.take 3 from rfl]
      exact DecodeRune_width_pos b _
    split_ifs
    · exact Nat.le_refl _
    · exact hw
    · exact hw

/-- The fuel `appendStringRaw` supplies is enough: more fuel writes the same
bytes. -/
theorem appendStringRawBody_fuel (f1 : Nat) :
    ∀ (f2 : Nat) (src : List Nat), src.length ≤ f1 → src.length ≤ f2 →
      appendStringRawBody f1 src = appendStringRawBody f2 src := by
  induction f1 with
  | zero =>
    intro f2 src h1 _
    have hs : src = [] := List.length_eq_zero.mp (by omega)
    subst hs
    cases f2 <;> rfl
  | succ n ih =>
    intro f2 src h1 h2
    cases src with
    | nil => cases f2 <;> rfl
    | cons b t =>
      cases f2 with
      | zero => simp at h2
      | succ m =>
        have hp := appendStringStep_pos b t
        unfold appendStringRawBody
        rw [if_neg (by simp), if_neg (by simp)]
        congr 1
        apply ih
        · rw [List.length_drop]
          simp only [List.length_cons] at h1 ⊢
          omega
        · rw [List.length_drop]
          simp only [List.length_cons] at h2 ⊢
          omega

theorem encodeValue_ok_iff (v : GoValue) :
    (encodeValue v).2 = none ↔ ∀ t, v ≠ GoValue.Unsupported t := by
  cases v with
  | String s => simp [encodeValue]
  | MapStringString m => simp [encodeValue]
  | Unsupported t => simp [encodeValue]

/-- The struct encoder fails exactly when a field is of an unsupported kind. -/
theorem structEncoder_ok_iff (fields : List (GoString × GoValue)) :
    ∀ next, (structEncoder fields next).2 = none ↔
      ∀ f ∈ fields, ∀ t, f.2 ≠ GoValue.Unsupported t := by
  induction fields with
  | nil => intro next; simp [structEncoder]
  | cons f rest ih =>
    intro next
    obtain ⟨name, v⟩ := f
    have hv := encodeValue_ok_iff v
    have hr := ih 0x2C
    unfold structEncoder
    rcases he : encodeValue v with ⟨b, e⟩
    rw [he] at hv
    cases e with
    | some err =>
      simp only at hv ⊢
      constructor
      · intro h
        cases h
      · intro h
        exact absurd (hv.mpr (h (name, v) (by simp))) (by simp)
    | none =>
      simp only at hv ⊢
      rcases hs : structEncoder rest 0x2C with ⟨tail, e2⟩
      rw [hs] at hr
      cases e2 with
      | some err =>
        simp only at hr ⊢
        constructor
        · intro h
          cases h
        · intro h
          exact absurd (hr.mpr (fun f hf => h f (by simp [hf]))) (by simp)
      | none =>
        simp only at hr ⊢
        constructor
        · intro _ f hf
          rcases List.mem_cons.mp hf with h1 | h1
          · rw [h1]
            exact hv.mp trivial
          · exact hr.mp trivial f h1
        · intro _
          trivial

/-! ## Theorems: the encoder on arbitrary strings -/

/-- C26, counterexample: for the cursor data whose value is the single byte
`0xFF`, which is not valid UTF-8, the token decodes to the JSON text with the
member `"v":"\ufffd"`; the object read back holds U+FFFD, whose bytes are not
the value of the cursor data. -/
theorem EncodeCursorRaw_invalid_utf8 :
    (EncodeCursorRaw { Value := [0xFF], Direction := [], Extra := none }).1 =
        "eyJ2IjoiXHVmZmZkIiwiZCI6IiIsImUiOm51bGx9".toList ∧
      DecodeString "eyJ2IjoiXHVmZmZkIiwiZCI6IiIsImUiOm51bGx9".toList =
        ("\x7b\"v\":\"\\ufffd\",\"d\":\"\",\"e\":null\x7d".toList.map Char.toNat, none) ∧
      DecodeCursor "eyJ2IjoiXHVmZmZkIiwiZCI6IiIsImUiOm51bGx9".toList =
        ({ Value := [Char.ofNat 0xFFFD], Direction := [], Extra := none }, none) ∧
      toBytes [Char.ofNat 0xFFFD] = [0xEF, 0xBF, 0xBD] ∧
      toBytes [Char.ofNat 0xFFFD] ≠ [0xFF] := by
  decide

/-- C26, amended: for every cursor data whose strings are valid UTF-8 (`r` is
the Go value of a `CursorData` of the model), base64-decoding the token of
`EncodeCursor` gives the text `json.Marshal` wrote, which is one JSON object
with exactly the three members `v`, `d` and `e`, in that order: the value as a
string, the direction as a string, and the map as `null` when it is `nil` and
otherwise as an object of strings whose entries are those of the map, sorted
by key. -/
theorem EncodeCursor_wire_format (r : RawCursorData) (d : CursorData)
    (h : r = CursorData.raw d) :
    (EncodeCursorRaw r).2 = none ∧
      DecodeString (EncodeCursorRaw r).1 = ((MarshalRaw r).1, none) ∧
      parseTop (MarshalRaw r).1 =
        some (JValue.obj [("v".toList, JValue.str d.Value),
          ("d".toList, JValue.str d.Direction), ("e".toList, jsonOfMap d.Extra)]) ∧
      (d.Extra = none → jsonOfMap d.Extra = JValue.null) ∧
      (∀ m, d.Extra = some m →
        ∃ m2 : List (GoString × GoString),
          jsonOfMap d.Extra = JValue.obj (m2.map (fun q => (q.1, JValue.str q.2))) ∧
          m2.Perm m ∧ m2.Sorted keyLE) ∧
      EncodeCursorRaw r = EncodeCursor d := by
  subst h
  refine ⟨?_, ?_, ?_, ?_, ?_, EncodeCursorRaw_raw d⟩
  · rw [EncodeCursorRaw_eq]
  · rw [EncodeCursorRaw_eq, MarshalRaw_raw]
    exact DecodeString_EncodeToString _ (Marshal_lt d)
  · rw [MarshalRaw_raw]
    exact Marshal_parse d
  · intro h
    rw [h]
    rfl
  · intro m h
    rw [h]
    exact ⟨sortEntries m, rfl, sortEntries_perm m, sortEntries_sorted m⟩

/-- C26, amended, at `CursorData{Value: "2"}`: the token decodes to the text
with the members `"v":"2"`, `"d":""` and `"e":null`. -/
theorem EncodeCursor_wire_format_witness :
    (EncodeCursorRaw (CursorData.raw { Value := "2".toList, Direction := [], Extra := none })).1 =
        "eyJ2IjoiMiIsImQiOiIiLCJlIjpudWxsfQ==".toList ∧
      DecodeString (EncodeCursorRaw
          (CursorData.raw { Value := "2".toList, Direction := [], Extra := none })).1 =
        ("\x7b\"v\":\"2\",\"d\":\"\",\"e\":null\x7d".toList.map Char.toNat, none) :=
  ⟨by decide,
    (EncodeCursor_wire_format
      (CursorData.raw { Value := "2".toList, Direction := [], Extra := none })
      { Value := "2".toList, Direction := [], Extra := none } rfl).2.1.trans (by decide)⟩

/-- C28: `EncodeCursor` never returns an error.  The struct encoder of
`json.Marshal` fails exactly when a field is of an unsupported kind (a field
of type `chan int` gives an `UnsupportedTypeError`); the fields of a
`CursorData` are of kind string, string and `map[string]string`.  So for every
`CursorData` value, whatever the bytes of its strings, its direction and its
map, `json.Marshal` returns no error, `EncodeCursor` returns no error, and the
token is not empty.  On strings that are valid UTF-8 this is the
`EncodeCursor` of the model. -/
theorem EncodeCursor_no_error (r : RawCursorData) (d : CursorData) :
    (∀ (fields : List (GoString × GoValue)) (next : Nat),
        (structEncoder fields next).2 = none ↔
          ∀ f ∈ fields, ∀ t, f.2 ≠ GoValue.Unsupported t) ∧
      (∀ f ∈ RawCursorData.fields r, ∀ t, f.2 ≠ GoValue.Unsupported t) ∧
      (MarshalRaw r).2 = none ∧ (EncodeCursorRaw r).2 = none ∧ (EncodeCursorRaw r).1 ≠ [] ∧
      EncodeCursorRaw (CursorData.raw d) = EncodeCursor d ∧
      (EncodeCursor d).2 = none ∧ (EncodeCursor d).1 ≠ [] ∧
      structEncoder [("c".toList, GoValue.Unsupported "chan int".toList)] 0x7B =
        ([], some (GoError.UnsupportedTypeError "chan int".toList)) := by
  have hfields : ∀ x : RawCursorData,
      ∀ f ∈ RawCursorData.fields x, ∀ t, f.2 ≠ GoValue.Unsupported t := by
    intro x f hf t
    simp only [RawCursorData.fields, List.mem_cons, List.mem_singleton, List.not_mem_nil,
      or_false] at hf
    rcases hf with h | h | h <;> rw [h] <;> simp
  have hm : ∀ x : RawCursorData, (MarshalRaw x).2 = none := fun x =>
    (structEncoder_ok_iff _ _).mpr (hfields x)
  have hraw : ∀ x : RawCursorData, (EncodeCursorRaw x).2 = none ∧ (EncodeCursorRaw x).1 ≠ [] := by
    intro x
    have hx := hm x
    unfold EncodeCursorRaw
    rcases hmx : MarshalRaw x with ⟨b, e⟩
    rw [hmx] at hx
    simp only at hx
    subst hx
    refine ⟨rfl, ?_⟩
    simp only [EncodeToString]
    intro hnil
    rw [List.map_eq_nil_iff] at hnil
    refine encodeLoop_ne_nil _ ?_ hnil
    have hb : b = (MarshalRaw x).1 := by rw [hmx]
    rw [hb, MarshalRaw_eq]
    simp
  have hd := hraw (CursorData.raw d)
  rw [EncodeCursorRaw_raw] at hd
  exact ⟨structEncoder_ok_iff, hfields r, hm r, (hraw r).1, (hraw r).2, EncodeCursorRaw_raw d,
    hd.1, hd.2, rfl⟩

end Pageable
